import Mathlib

/-!
# Verification of the helix text-rendering and event-routing cores

This file gives a shallow embedding, in Lean 4, of the subsystems of the
repository that the specification covers:

* the annotation layers of `helix-core/src/text_annotations.rs`,
* the document formatter of `helix-core/src/doc_formatter.rs`,
* the highlight overlay composer of `helix-core/src/syntax/overlay.rs`,
* the event registry of `helix-event/src/registry.rs`,
* the `send_blocking` publisher of `helix-event/src/debounce.rs`,
* the diff worker of `helix-vcs/src/differ.rs`,

and proves (or refutes, at concrete inputs) the specification's claims
about them.  Rust's interior mutability (the `Cell` cursors of annotation
layers, `&mut self` iterators) is embedded as explicit state passing;
machine integers are embedded as `Nat` (no arithmetic in the embedded code
comes near the width of the source's integer types on the inputs
considered, except where noted); external crates (ropey, unicode
segmentation and width measurement, the `similar` diff algorithm, tokio
channels) are embedded as explicitly documented models following the
specification's description of those external interfaces.
-/

set_option linter.unusedVariables false

namespace HelixVerif

/-! ## Rust core: slice binary search

`Layer::reset_pos` in `src/helix-core/src/text_annotations.rs` uses
`slice::binary_search_by_key(&char_idx, get_char_idx).unwrap_or_else(identity)`.
The search loop below is the Rust core library's `binary_search_by`
specialised to a list of keys: on each round `mid = left + (right - left)/2`;
an equal key returns `Sum.inl mid` immediately (any one of several equal
keys may be hit), otherwise the half is discarded, and exhaustion returns
the insertion point `Sum.inr left`. -/

def bsLoop (keys : List Nat) (target : Nat) (left right : Nat) : Sum Nat Nat :=
  if h : left < right then
    if keys.getD (left + (right - left) / 2) 0 < target then
      bsLoop keys target (left + (right - left) / 2 + 1) right
    else if target < keys.getD (left + (right - left) / 2) 0 then
      bsLoop keys target left (left + (right - left) / 2)
    else
      Sum.inl (left + (right - left) / 2)
  else
    Sum.inr left
termination_by right - left
decreasing_by
  · omega
  · have hmid : left ≤ left + (right - left) / 2 := Nat.le_add_right _ _
    omega

/-- Result of `binary_search_by_key(&target, key)` on `keys`, after
`unwrap_or_else(identity)`: the found index or the insertion point. -/
def binarySearchKey (keys : List Nat) (target : Nat) : Nat :=
  match bsLoop keys target 0 keys.length with
  | Sum.inl i => i
  | Sum.inr i => i

/-- The specification's description of `reset_pos`'s target ("the first
annotation with char_idx ≥ k"), written from the spec's words for
comparison with the code's binary search: the number of keys strictly
below `k` in a sorted key list is the index of the first key ≥ `k`. -/
def firstGeIndex (keys : List Nat) (k : Nat) : Nat :=
  (keys.takeWhile (fun x => decide (x < k))).length

/-! ## src/helix-core/src/text_annotations.rs -/

/-- Inline virtual text anchored before the document char at `char_idx`.
The annotation's text is embedded pre-segmented into grapheme clusters
(each a `List Char`); the segmentation itself
(`UnicodeSegmentation::graphemes`, applied at the use site in
`doc_formatter.rs`) is an external library. -/
structure InlineAnnotation where
  text : List (List Char)
  char_idx : Nat
deriving DecidableEq

/-- A single-grapheme overlay replacing the document grapheme at `char_idx`. -/
structure OverlayAnn where
  char_idx : Nat
  grapheme : List Char
deriving DecidableEq

/-- Reserved virtual rows anchored at `anchor_char_idx`. -/
structure LineAnnotation where
  anchor_char_idx : Nat
  height : Nat
deriving DecidableEq

/-- One annotation layer: a sorted slice, a forward cursor (a `Cell` in the
source, embedded as explicit state), and layer metadata. -/
structure Layer (A : Type) (M : Type) where
  annotations : List A
  current_index : Nat
  metadata : M
deriving DecidableEq

/-- Layer::reset_pos: binary-search the annotation keys for `char_idx` and
set the cursor to the result (`unwrap_or_else(identity)`). -/
def Layer.reset_pos {A M : Type} (l : Layer A M) (char_idx : Nat) (get : A → Nat) :
    Layer A M :=
  { l with current_index := binarySearchKey (l.annotations.map get) char_idx }

/-- Layer::consume: if the annotation under the cursor exists and its key
equals `char_idx`, advance the cursor and return it. -/
def Layer.consume {A M : Type} (l : Layer A M) (char_idx : Nat) (get : A → Nat) :
    Option A × Layer A M :=
  match l.annotations.get? l.current_index with
  | none => (none, l)
  | some annot =>
    if get annot = char_idx then
      (some annot, { l with current_index := l.current_index + 1 })
    else
      (none, l)

/-- The three layered annotation stores of `TextAnnotations`.  Highlights
are embedded as `Nat` (the source's `Highlight(usize)`). -/
structure TextAnnotations where
  inline_annotations : List (Layer InlineAnnotation (Option Nat))
  overlays : List (Layer OverlayAnn (Option Nat))
  line_annotations : List (Layer LineAnnotation Unit)
deriving DecidableEq

/-- TextAnnotations::reset_pos: reset every layer's cursor via binary search. -/
def TextAnnotations.reset_pos (a : TextAnnotations) (char_idx : Nat) : TextAnnotations :=
  { inline_annotations :=
      a.inline_annotations.map (fun l => l.reset_pos char_idx (fun x => x.char_idx)),
    overlays := a.overlays.map (fun l => l.reset_pos char_idx (fun x => x.char_idx)),
    line_annotations :=
      a.line_annotations.map (fun l => l.reset_pos char_idx (fun x => x.anchor_char_idx)) }

/-- TextAnnotations::next_inline_annotation_at: across layers in
registration order, return the first layer whose cursor annotation has
`char_idx = p` (advancing that layer's cursor); a non-matching layer's
state is untouched. -/
def nextInlineAnnotationAt :
    List (Layer InlineAnnotation (Option Nat)) → Nat →
    Option ( InlineAnnotation × Option Nat) × List (Layer InlineAnnotation (Option Nat))
  | [], _ => (none, [])
  | l :: ls, p =>
    match l.consume p (fun x => x.char_idx) with
    | (some a, l2) => (some (a, l.metadata), l2 :: ls)
    | (none, l2) =>
      match nextInlineAnnotationAt ls p with
      | (r, ls2) => (r, l2 :: ls2)

/-- TextAnnotations::overlay_at: consume a matching overlay from every
layer; the last (highest) matching layer wins. -/
def overlayAt :
    List (Layer OverlayAnn (Option Nat)) → Nat →
    Option (OverlayAnn × Option Nat) × List (Layer OverlayAnn (Option Nat))
  | [], _ => (none, [])
  | l :: ls, p =>
    match l.consume p (fun x => x.char_idx) with
    | (r1, l2) =>
      match overlayAt ls p with
      | (r2, ls2) =>
        (match r2 with
         | some o => some o
         | none => r1.map (fun a => (a, l.metadata)),
         l2 :: ls2)

/-- One line-annotation layer's contribution at `char_idx`: sum the heights
of consecutive cursor annotations anchored exactly there, advancing the
cursor past them. -/
def lineLayerLinesAt (l : Layer LineAnnotation Unit) (char_idx : Nat) :
    Nat × Layer LineAnnotation Unit :=
  match h : l.annotations.get? l.current_index with
  | none => (0, l)
  | some annot =>
    if annot.anchor_char_idx = char_idx then
      match lineLayerLinesAt { l with current_index := l.current_index + 1 } char_idx with
      | (n, l2) => (annot.height + n, l2)
    else
      (0, l)
termination_by l.annotations.length - l.current_index
decreasing_by
  have hlt : l.current_index < l.annotations.length := by
    by_contra hge
    rw [List.get?_eq_none.mpr (Nat.le_of_not_lt hge)] at h
    exact Option.noConfusion h
  simpa using Nat.sub_succ_lt_self _ _ hlt

/-- TextAnnotations::annotation_lines_at: sum over all line layers. -/
def annotationLinesAt :
    List (Layer LineAnnotation Unit) → Nat → Nat × List (Layer LineAnnotation Unit)
  | [], _ => (0, [])
  | l :: ls, p =>
    match lineLayerLinesAt l p with
    | (n, l2) =>
      match annotationLinesAt ls p with
      | (m, ls2) => (n + m, l2 :: ls2)

/-! ## src/helix-core/src/doc_formatter.rs: the document formatter

The document text is embedded pre-segmented into extended grapheme
clusters (each a `List Char`): grapheme segmentation
(`RopeGraphemes` / `unicode_segmentation`) is an external library, and a
cluster never spans a line break, so a block start (a line start) always
falls on a cluster boundary.  The external width measurement of
non-whitespace clusters (`grapheme_width`, 1 or 2 per the spec's data
model) is a parameter `cwidth` of the embedding. -/

structure TextFormat where
  soft_wrap : Bool
  tab_width : Nat
  max_wrap : Nat
  max_indent_retain : Nat
  wrap_indent : Nat
  viewport_width : Nat
deriving DecidableEq

structure Position where
  row : Nat
  col : Nat
deriving DecidableEq

/-- Modelled from the spec: the `Grapheme` tagged variant of
`helix-core/src/graphemes.rs` (not under src/), as the spec's data model
defines it — `Newline`, `Tab { width }`, `Space`, and `Other` with its
measured column width. -/
inductive Grapheme where
  | newline
  | tab (width : Nat)
  | space
  | other (cluster : List Char) (width : Nat)
deriving DecidableEq

/-- Modelled from the spec: `Grapheme::new(raw, visual_x, tab_width)` of
`graphemes.rs` (not under src/); per the spec's data model a tab's width
is computed relative to the grapheme's starting visual column so that tab
stops align on multiples of `tab_width`; other clusters carry the width
the external measure `cwidth` assigns. -/
def Grapheme.new (cwidth : List Char → Nat) (cluster : List Char)
    (visual_x tab_width : Nat) : Grapheme :=
  if cluster = ['\t'] then Grapheme.tab (tab_width - visual_x % tab_width)
  else if cluster = ['\n'] then Grapheme.newline
  else if cluster = [' '] then Grapheme.space
  else Grapheme.other cluster (cwidth cluster)

/-- Modelled from the spec: a grapheme's visual width (tabs carry their
computed width, `Other` its measured width, newline and space one column). -/
def Grapheme.width : Grapheme → Nat
  | Grapheme.newline => 1
  | Grapheme.tab w => w
  | Grapheme.space => 1
  | Grapheme.other _ w => w

structure FormattedGrapheme where
  grapheme : Grapheme
  highlight : Option Nat
  doc_chars : Nat
deriving DecidableEq

/-- FormattedGrapheme::new. -/
def FormattedGrapheme.new (cwidth : List Char → Nat) (raw : List Char)
    (highlight : Option Nat) (visual_x tab_width chars : Nat) : FormattedGrapheme :=
  ⟨Grapheme.new cwidth raw visual_x tab_width, highlight, chars⟩

def FormattedGrapheme.width (g : FormattedGrapheme) : Nat := g.grapheme.width

/-- FormattedGrapheme::placeholder (what `next` swaps into the word buffer
after yielding an element; the swapped-out slot is never read again, so
the embedding reads the buffer without replacing). -/
def FormattedGrapheme.placeholder : FormattedGrapheme := ⟨Grapheme.space, none, 0⟩

/-- Modelled from the spec: the Rope's `char_to_line` (the rope is an
external container, §6): the line index containing a char index is the
number of line breaks before it. -/
def charToLine (chars : List Char) (char_idx : Nat) : Nat :=
  ((chars.take char_idx).filter (fun c => c = '\n')).length

/-- Modelled from the spec: the Rope's `line_to_char`: the char index at
which the given line starts (the position after that many line breaks). -/
def lineToChar : List Char → Nat → Nat
  | _, 0 => 0
  | [], _ + 1 => 0
  | c :: cs, l + 1 =>
    if c = '\n' then 1 + lineToChar cs l else 1 + lineToChar cs (l + 1)

/-- Modelled from the spec: slicing the pre-segmented text at a char index
(`text.slice(block_char_idx..)`); block starts are line starts, so the cut
falls on a cluster boundary for the inputs the formatter uses. -/
def dropChars : List (List Char) → Nat → List (List Char)
  | cs, 0 => cs
  | [], _ + 1 => []
  | c :: cs, n + 1 =>
    if c.length ≤ n + 1 then dropChars cs (n + 1 - c.length)
    else c.drop (n + 1) :: cs

/-- The `DocumentFormatter` state (src/helix-core/src/doc_formatter.rs,
lines 108-139), with the two borrowed iterators (`graphemes`,
`inline_anntoation_graphemes`) embedded as the remaining cluster lists. -/
structure DocumentFormatter where
  config : TextFormat
  annotations : TextAnnotations
  visual_pos : Position
  graphemes : List (List Char)
  char_pos : Nat
  line_pos : Nat
  exhausted : Bool
  virtual_lines : Nat
  inline_annotation_graphemes : Option (List (List Char) × Option Nat)
  indent_level : Option Nat
  peeked_grapheme : Option (FormattedGrapheme × Nat)
  word_buf : List FormattedGrapheme
  word_i : Nat
deriving DecidableEq

/-- DocumentFormatter::new_at_prev_block (lines 147-175): round the start
back to the line start, reset every annotation layer's cursor to the
block's document char index — and start `char_pos` at 0, exactly as the
source does on line 163 (`char_pos: 0`). -/
def DocumentFormatter.new_at_prev_block (text : List (List Char)) (config : TextFormat)
    (annotations : TextAnnotations) (char_idx : Nat) : DocumentFormatter × Nat :=
  let chars := text.join
  let block_line_idx := charToLine chars char_idx
  let block_char_idx := lineToChar chars block_line_idx
  let annotations := annotations.reset_pos block_char_idx
  (⟨config, annotations, ⟨0, 0⟩, dropChars text block_char_idx, 0, block_line_idx,
    false, 0, none, none, none, [], 0⟩,
   block_char_idx)

/-- Termination measure: clusters remaining in the current inline
annotation's grapheme iterator. -/
def inlineIterLen : Option (List (List Char) × Option Nat) → Nat
  | some (l, _) => l.length
  | none => 0

/-- Termination measure: weighted count of the annotations a layer's
cursor has not yet consumed. -/
def inlineLayerRemaining (l : Layer InlineAnnotation (Option Nat)) : Nat :=
  ((l.annotations.drop l.current_index).map (fun a => a.text.length + 1)).sum

def inlineRemaining (ls : List (Layer InlineAnnotation (Option Nat))) : Nat :=
  (ls.map inlineLayerRemaining).sum

theorem consume_none_eq {A M : Type} {l l2 : Layer A M} {p : Nat} {get : A → Nat}
    (h : l.consume p get = (none, l2)) : l2 = l := by
  unfold Layer.consume at h
  rcases hg : l.annotations.get? l.current_index with _ | a
  · simp only [hg] at h
    exact (Prod.mk.injEq _ _ _ _ ▸ h).2.symm
  · simp only [hg] at h
    by_cases he : get a = p
    · rw [if_pos he] at h
      exact absurd (Prod.mk.injEq _ _ _ _ ▸ h).1 (by simp)
    · rw [if_neg he] at h
      exact (Prod.mk.injEq _ _ _ _ ▸ h).2.symm

theorem consume_some_eq {A M : Type} {l l2 : Layer A M} {p : Nat} {get : A → Nat}
    {a : A} (h : l.consume p get = (some a, l2)) :
    l.annotations.get? l.current_index = some a ∧
      l2 = { l with current_index := l.current_index + 1 } := by
  unfold Layer.consume at h
  rcases hg : l.annotations.get? l.current_index with _ | b
  · simp only [hg] at h
    exact absurd (Prod.mk.injEq _ _ _ _ ▸ h).1 (by simp)
  · simp only [hg] at h
    by_cases he : get b = p
    · rw [if_pos he] at h
      have h1 := (Prod.mk.injEq _ _ _ _ ▸ h).1
      have h2 := (Prod.mk.injEq _ _ _ _ ▸ h).2
      injection h1 with h1
      exact ⟨by rw [h1], h2.symm⟩
    · rw [if_neg he] at h
      exact absurd (Prod.mk.injEq _ _ _ _ ▸ h).1 (by simp)

theorem inlineLayerRemaining_consume {l l2 : Layer InlineAnnotation (Option Nat)}
    {p : Nat} {a : InlineAnnotation}
    (h : l.consume p (fun x => x.char_idx) = (some a, l2)) :
    inlineLayerRemaining l2 + a.text.length + 1 = inlineLayerRemaining l := by
  rcases consume_some_eq h with ⟨hget, hl2⟩
  subst hl2
  unfold inlineLayerRemaining
  have hlt : l.current_index < l.annotations.length := by
    by_contra hge
    rw [List.get?_eq_none.mpr (Nat.le_of_not_lt hge)] at hget
    exact Option.noConfusion hget
  have hdrop : l.annotations.drop l.current_index =
      a :: l.annotations.drop (l.current_index + 1) := by
    have := List.get?_eq_get hlt
    rw [this] at hget
    injection hget with hget
    rw [← hget]
    exact List.drop_eq_get_cons hlt
  simp only [hdrop, List.map_cons, List.sum_cons]
  omega

theorem nextInlineAnnotationAt_none {ls ls2 : List (Layer InlineAnnotation (Option Nat))}
    {p : Nat} (h : nextInlineAnnotationAt ls p = (none, ls2)) : ls2 = ls := by
  induction ls generalizing ls2 with
  | nil =>
    unfold nextInlineAnnotationAt at h
    exact (Prod.mk.injEq _ _ _ _ ▸ h).2.symm
  | cons l rest ih =>
    unfold nextInlineAnnotationAt at h
    rcases hc : l.consume p (fun x => x.char_idx) with ⟨r1, l2⟩
    rw [hc] at h
    cases r1 with
    | some a => exact absurd (Prod.mk.injEq _ _ _ _ ▸ h).1 (by simp)
    | none =>
      rcases hr : nextInlineAnnotationAt rest p with ⟨r2, rest2⟩
      rw [hr] at h
      have h1 := (Prod.mk.injEq _ _ _ _ ▸ h).1
      have h2 := (Prod.mk.injEq _ _ _ _ ▸ h).2
      subst h1
      rw [← h2, consume_none_eq hc, ih hr]

theorem nextInlineAnnotationAt_some {ls ls2 : List (Layer InlineAnnotation (Option Nat))}
    {p : Nat} {a : InlineAnnotation} {m : Option Nat}
    (h : nextInlineAnnotationAt ls p = (some (a, m), ls2)) :
    inlineRemaining ls2 + a.text.length + 1 = inlineRemaining ls := by
  induction ls generalizing ls2 with
  | nil =>
    unfold nextInlineAnnotationAt at h
    exact absurd (Prod.mk.injEq _ _ _ _ ▸ h).1 (by simp)
  | cons l rest ih =>
    unfold nextInlineAnnotationAt at h
    rcases hc : l.consume p (fun x => x.char_idx) with ⟨r1, l2⟩
    rw [hc] at h
    cases r1 with
    | some b =>
      have h1 := (Prod.mk.injEq _ _ _ _ ▸ h).1
      have h2 := (Prod.mk.injEq _ _ _ _ ▸ h).2
      injection h1 with h1
      have hb : b = a := by cases h1; rfl
      subst hb
      rw [← h2]
      unfold inlineRemaining
      simp only [List.map_cons, List.sum_cons]
      have := inlineLayerRemaining_consume hc
      omega
    | none =>
      rcases hr : nextInlineAnnotationAt rest p with ⟨r2, rest2⟩
      rw [hr] at h
      have h1 := (Prod.mk.injEq _ _ _ _ ▸ h).1
      have h2 := (Prod.mk.injEq _ _ _ _ ▸ h).2
      subst h1
      rw [← h2]
      unfold inlineRemaining
      simp only [List.map_cons, List.sum_cons]
      rw [consume_none_eq hc]
      have := ih hr
      unfold inlineRemaining at this
      omega

/-- DocumentFormatter::next_inline_annotation_grapheme (lines 177-196):
yield the next cluster of the current inline annotation, pulling (and
consuming) further annotations at `char_pos` — empty-text annotations
included — until a cluster is available or no annotation matches. -/
def nextInlineAnnotationGrapheme (st : DocumentFormatter) :
    Option (List Char × Option Nat) × DocumentFormatter :=
  match st.inline_annotation_graphemes with
  | some (c :: rest, hl) =>
    (some (c, hl), { st with inline_annotation_graphemes := some (rest, hl) })
  | _ =>
    match hq : nextInlineAnnotationAt st.annotations.inline_annotations st.char_pos with
    | (some (a, hl), ls2) =>
      nextInlineAnnotationGrapheme
        { st with
          annotations := { st.annotations with inline_annotations := ls2 },
          inline_annotation_graphemes := some (a.text, hl) }
    | (none, ls2) =>
      (none, { st with annotations := { st.annotations with inline_annotations := ls2 } })
termination_by inlineRemaining st.annotations.inline_annotations +
  inlineIterLen st.inline_annotation_graphemes
decreasing_by
  have := nextInlineAnnotationAt_some hq
  simp only [inlineIterLen]
  omega

/-- Termination measure for the formatter: unconsumed input (a pending
peeked grapheme, the clusters of the current inline annotation, the
unconsumed annotations of every inline layer, the document clusters, and
the end-of-file sentinel not yet produced). -/
def measureIn (st : DocumentFormatter) : Nat :=
  (if st.peeked_grapheme.isSome then 1 else 0) +
  inlineIterLen st.inline_annotation_graphemes +
  inlineRemaining st.annotations.inline_annotations +
  st.graphemes.length +
  (if st.exhausted then 0 else 1)

theorem nextInline_eq_cons {st : DocumentFormatter} {c : List Char}
    {rest : List (List Char)} {hl : Option Nat}
    (h : st.inline_annotation_graphemes = some (c :: rest, hl)) :
    nextInlineAnnotationGrapheme st =
      (some (c, hl), { st with inline_annotation_graphemes := some (rest, hl) }) := by
  rw [nextInlineAnnotationGrapheme]
  split
  · next c2 rest2 hl2 heq =>
    rw [h] at heq
    injection heq with heq
    injection heq with heq1 heq2
    injection heq1 with heq3 heq4
    subst heq2 heq3 heq4
    rfl
  · next hne =>
    exact absurd (hne c rest hl h) (fun f => f)

theorem nextInline_eq_query_some {st : DocumentFormatter} {a : InlineAnnotation}
    {hl : Option Nat} {ls2 : List (Layer InlineAnnotation (Option Nat))}
    (hne : ∀ (c : List Char) (rest : List (List Char)) (hl2 : Option Nat),
        st.inline_annotation_graphemes ≠ some (c :: rest, hl2))
    (hq : nextInlineAnnotationAt st.annotations.inline_annotations st.char_pos
        = (some (a, hl), ls2)) :
    nextInlineAnnotationGrapheme st =
      nextInlineAnnotationGrapheme
        { st with
          annotations := { st.annotations with inline_annotations := ls2 },
          inline_annotation_graphemes := some (a.text, hl) } := by
  rw [nextInlineAnnotationGrapheme]
  split
  · next c2 rest2 hl2 heq =>
    exact absurd heq (hne c2 rest2 hl2)
  · next hne2 =>
    split
    · next a2 hl2 ls3 heq =>
      rw [hq] at heq
      injection heq with heq1 heq2
      injection heq1 with heq3
      injection heq3 with heq4 heq5
      subst heq2 heq4 heq5
      rfl
    · next ls3 heq =>
      rw [hq] at heq
      exact absurd (Prod.mk.injEq _ _ _ _ ▸ heq).1 (by simp)

theorem nextInline_eq_query_none {st : DocumentFormatter}
    {ls2 : List (Layer InlineAnnotation (Option Nat))}
    (hne : ∀ (c : List Char) (rest : List (List Char)) (hl2 : Option Nat),
        st.inline_annotation_graphemes ≠ some (c :: rest, hl2))
    (hq : nextInlineAnnotationAt st.annotations.inline_annotations st.char_pos
        = (none, ls2)) :
    nextInlineAnnotationGrapheme st =
      (none, { st with annotations := { st.annotations with inline_annotations := ls2 } }) := by
  rw [nextInlineAnnotationGrapheme]
  split
  · next c2 rest2 hl2 heq =>
    exact absurd heq (hne c2 rest2 hl2)
  · next hne2 =>
    split
    · next a2 hl2 ls3 heq =>
      rw [hq] at heq
      exact absurd (Prod.mk.injEq _ _ _ _ ▸ heq).1 (by simp)
    · next ls3 heq =>
      rw [hq] at heq
      have h2 := (Prod.mk.injEq _ _ _ _ ▸ heq).2
      rw [h2]

theorem nextInlineAnnotationGrapheme_spec :
    ∀ (st : DocumentFormatter) (r : Option (List Char × Option Nat))
      (st' : DocumentFormatter),
      nextInlineAnnotationGrapheme st = (r, st') →
      st'.graphemes = st.graphemes ∧ st'.exhausted = st.exhausted ∧
      st'.peeked_grapheme = st.peeked_grapheme ∧ st'.char_pos = st.char_pos ∧
      st'.visual_pos = st.visual_pos ∧ st'.word_buf = st.word_buf ∧
      st'.word_i = st.word_i ∧ st'.config = st.config ∧
      st'.indent_level = st.indent_level ∧ st'.virtual_lines = st.virtual_lines ∧
      st'.line_pos = st.line_pos ∧
      st'.annotations.overlays = st.annotations.overlays ∧
      st'.annotations.line_annotations = st.annotations.line_annotations ∧
      (r.isSome = true → measureIn st' < measureIn st) ∧
      (r = none → measureIn st' ≤ measureIn st) := by
  intro st
  induction st using nextInlineAnnotationGrapheme.induct with
  | case1 st c rest hl hiter =>
    intro r st' h
    rw [nextInline_eq_cons hiter] at h
    cases h
    refine ⟨rfl, rfl, rfl, rfl, rfl, rfl, rfl, rfl, rfl, rfl, rfl, rfl, rfl, ?_, ?_⟩
    · intro _
      simp [measureIn, inlineIterLen, hiter]
    · intro hc
      exact Option.noConfusion hc
  | case2 st a hl ls2 hq hne ih =>
    intro r st' h
    have hne2 : ∀ (c : List Char) (rest : List (List Char)) (hl2 : Option Nat),
        st.inline_annotation_graphemes ≠ some (c :: rest, hl2) :=
      fun c rest hl2 hc => hne c rest hl2 hc
    rw [nextInline_eq_query_some hne2 hq] at h
    have hrec := ih r st' h
    have hiter0 : inlineIterLen st.inline_annotation_graphemes = 0 := by
      rcases hx : st.inline_annotation_graphemes with _ | ⟨l, hl3⟩
      · rfl
      · cases l with
        | nil => rfl
        | cons c cs => exact absurd hx (hne2 c cs hl3)
    have hmeasure : measureIn
        { st with
          annotations := { st.annotations with inline_annotations := ls2 },
          inline_annotation_graphemes := some (a.text, hl) } + 1 = measureIn st := by
      have hsome := nextInlineAnnotationAt_some hq
      simp only [measureIn]
      rw [hiter0]
      simp only [inlineIterLen]
      omega
    refine ⟨hrec.1, hrec.2.1, hrec.2.2.1, hrec.2.2.2.1, hrec.2.2.2.2.1,
      hrec.2.2.2.2.2.1, hrec.2.2.2.2.2.2.1, hrec.2.2.2.2.2.2.2.1,
      hrec.2.2.2.2.2.2.2.2.1, hrec.2.2.2.2.2.2.2.2.2.1,
      hrec.2.2.2.2.2.2.2.2.2.2.1, hrec.2.2.2.2.2.2.2.2.2.2.2.1,
      hrec.2.2.2.2.2.2.2.2.2.2.2.2.1, ?_, ?_⟩
    · intro hs
      have := hrec.2.2.2.2.2.2.2.2.2.2.2.2.2.1 hs
      omega
    · intro hn
      have := hrec.2.2.2.2.2.2.2.2.2.2.2.2.2.2 hn
      omega
  | case3 st ls2 hq hne =>
    intro r st' h
    have hne2 : ∀ (c : List Char) (rest : List (List Char)) (hl2 : Option Nat),
        st.inline_annotation_graphemes ≠ some (c :: rest, hl2) :=
      fun c rest hl2 hc => hne c rest hl2 hc
    rw [nextInline_eq_query_none hne2 hq] at h
    have hls : ls2 = st.annotations.inline_annotations := nextInlineAnnotationAt_none hq
    subst hls
    cases h
    refine ⟨rfl, rfl, rfl, rfl, rfl, rfl, rfl, rfl, rfl, rfl, rfl, rfl, rfl, ?_, ?_⟩
    · intro hs
      exact Bool.noConfusion hs
    · intro _
      exact Nat.le_refl _

/-- DocumentFormatter::advance_grapheme (lines 198-230): an inline
annotation cluster first (virtual, `doc_chars = 0`, the layer's highlight);
else one document cluster, accumulating reserved virtual lines anchored at
`char_pos` and substituting an overlay's cluster while still consuming the
document cluster's char count; else the end-of-file sentinel exactly once. -/
def advanceGrapheme (cwidth : List Char → Nat) (st : DocumentFormatter) (col : Nat) :
    Option FormattedGrapheme × DocumentFormatter :=
  match nextInlineAnnotationGrapheme st with
  | (some (cluster, highlight), st1) =>
    (some (FormattedGrapheme.new cwidth cluster highlight col st1.config.tab_width 0), st1)
  | (none, st1) =>
    match st1.graphemes with
    | cluster :: rest =>
      match annotationLinesAt st1.annotations.line_annotations st1.char_pos with
      | (lines, lineLayers) =>
        match overlayAt st1.annotations.overlays st1.char_pos with
        | (ov, ovLayers) =>
          (some (FormattedGrapheme.new cwidth
              (match ov with
               | some (o, _) => o.grapheme
               | none => cluster)
              none col st1.config.tab_width cluster.length),
           { st1 with
             graphemes := rest,
             virtual_lines := st1.virtual_lines + lines,
             annotations := { st1.annotations with
               line_annotations := lineLayers, overlays := ovLayers },
             char_pos := st1.char_pos + cluster.length })
    | [] =>
      if st1.exhausted then
        (none, st1)
      else
        (some ⟨Grapheme.space, none, 0⟩, { st1 with exhausted := true })

theorem advanceGrapheme_spec {cwidth : List Char → Nat} {st : DocumentFormatter}
    {col : Nat} {r : Option FormattedGrapheme} {st' : DocumentFormatter}
    (h : advanceGrapheme cwidth st col = (r, st')) :
    st'.visual_pos = st.visual_pos ∧ st'.word_buf = st.word_buf ∧
    st'.word_i = st.word_i ∧ st'.config = st.config ∧
    st'.peeked_grapheme = st.peeked_grapheme ∧ st'.indent_level = st.indent_level ∧
    st'.line_pos = st.line_pos ∧
    (r.isSome = true → measureIn st' < measureIn st) ∧
    (r = none → st'.exhausted = true ∧ st'.graphemes = [] ∧
      measureIn st' ≤ measureIn st) := by
  rcases hn : nextInlineAnnotationGrapheme st with ⟨r1, st1⟩
  have hs := nextInlineAnnotationGrapheme_spec st r1 st1 hn
  unfold advanceGrapheme at h
  rw [hn] at h
  cases r1 with
  | some pair =>
    rcases pair with ⟨cluster, highlight⟩
    simp only at h
    cases h
    exact ⟨hs.2.2.2.2.1, hs.2.2.2.2.2.1, hs.2.2.2.2.2.2.1, hs.2.2.2.2.2.2.2.1,
      hs.2.2.1, hs.2.2.2.2.2.2.2.2.1, hs.2.2.2.2.2.2.2.2.2.2.1,
      fun _ => hs.2.2.2.2.2.2.2.2.2.2.2.2.2.1 rfl,
      fun hc => Option.noConfusion hc⟩
  | none =>
    simp only at h
    have hmle := hs.2.2.2.2.2.2.2.2.2.2.2.2.2.2 rfl
    cases hg : st1.graphemes with
    | cons cluster rest =>
      rw [hg] at h
      rcases hla : annotationLinesAt st1.annotations.line_annotations st1.char_pos
        with ⟨lines, lineLayers⟩
      rw [hla] at h
      rcases hov : overlayAt st1.annotations.overlays st1.char_pos with ⟨ov, ovLayers⟩
      rw [hov] at h
      simp only at h
      cases h
      refine ⟨hs.2.2.2.2.1, hs.2.2.2.2.2.1, hs.2.2.2.2.2.2.1, hs.2.2.2.2.2.2.2.1,
        hs.2.2.1, hs.2.2.2.2.2.2.2.2.1, hs.2.2.2.2.2.2.2.2.2.2.1, ?_,
        fun hc => Option.noConfusion hc⟩
      intro _
      refine Nat.lt_of_lt_of_le ?_ hmle
      simp only [measureIn]
      rw [hg]
      simp [List.length_cons]
    | nil =>
      rw [hg] at h
      by_cases hex : st1.exhausted
      · rw [if_pos hex] at h
        cases h
        refine ⟨hs.2.2.2.2.1, hs.2.2.2.2.2.1, hs.2.2.2.2.2.2.1, hs.2.2.2.2.2.2.2.1,
          hs.2.2.1, hs.2.2.2.2.2.2.2.2.1, hs.2.2.2.2.2.2.2.2.2.2.1,
          fun hc => Bool.noConfusion hc, fun _ => ⟨hex, hg, hmle⟩⟩
      · rw [if_neg hex] at h
        cases h
        refine ⟨hs.2.2.2.2.1, hs.2.2.2.2.2.1, hs.2.2.2.2.2.2.1, hs.2.2.2.2.2.2.2.1,
          hs.2.2.1, hs.2.2.2.2.2.2.2.2.1, hs.2.2.2.2.2.2.2.2.2.2.1, ?_,
          fun hc => Option.noConfusion hc⟩
        intro _
        refine Nat.lt_of_lt_of_le ?_ hmle
        simp only [measureIn]
        simp [hex, hg]

/-- The `peeked_grapheme.take()` / `advance_grapheme` pull at the head of
each word-loop round (lines 273-280). -/
def pullGrapheme (cwidth : List Char → Nat) (st : DocumentFormatter)
    (word_width : Nat) : Option FormattedGrapheme × DocumentFormatter :=
  match st.peeked_grapheme with
  | some (g, virtual_lines) =>
    (some g, { st with peeked_grapheme := none,
                       virtual_lines := st.virtual_lines + virtual_lines })
  | none => advanceGrapheme cwidth st (st.visual_pos.col + word_width)

theorem pullGrapheme_spec {cwidth : List Char → Nat} {st : DocumentFormatter}
    {word_width : Nat} {r : Option FormattedGrapheme} {st' : DocumentFormatter}
    (h : pullGrapheme cwidth st word_width = (r, st')) :
    st'.visual_pos = st.visual_pos ∧ st'.word_buf = st.word_buf ∧
    st'.word_i = st.word_i ∧ st'.config = st.config ∧
    st'.indent_level = st.indent_level ∧ st'.line_pos = st.line_pos ∧
    (r.isSome = true → measureIn st' < measureIn st) ∧
    (r = none → st'.exhausted = true ∧ st'.graphemes = [] ∧
      st'.peeked_grapheme = none ∧ measureIn st' ≤ measureIn st) := by
  unfold pullGrapheme at h
  cases hp : st.peeked_grapheme with
  | some pair =>
    rcases pair with ⟨g, vl⟩
    rw [hp] at h
    simp only at h
    cases h
    refine ⟨rfl, rfl, rfl, rfl, rfl, rfl, ?_, fun hc => Option.noConfusion hc⟩
    intro _
    simp [measureIn, hp]
  | none =>
    rw [hp] at h
    have hs := advanceGrapheme_spec h
    refine ⟨hs.1, hs.2.1, hs.2.2.1, hs.2.2.2.1, hs.2.2.2.2.2.1,
      hs.2.2.2.2.2.2.1, hs.2.2.2.2.2.2.2.1, ?_⟩
    intro hc
    have hn := hs.2.2.2.2.2.2.2.2 hc
    exact ⟨hn.1, hn.2.1, by rw [hs.2.2.2.2.1, hp], hn.2.2⟩

/-- The soft-wrap branch of the word loop (lines 255-268): carry the
line's indentation over (when known and within `max_indent_retain`), add
`wrap_indent`, advance the row past the virtual rows pending before the
word, and keep the rest pending. -/
def softwrapToNextLine (st : DocumentFormatter)
    (virtual_lines_before_word : Nat) : DocumentFormatter :=
  { st with
    visual_pos :=
      ⟨st.visual_pos.row + 1 + virtual_lines_before_word,
       (match st.indent_level with
        | some indent =>
          if indent ≤ st.config.max_indent_retain then indent else 0
        | none => 0) + st.config.wrap_indent⟩,
    virtual_lines := st.virtual_lines - virtual_lines_before_word }

/-- The conditional soft-wrap at the head of a word-loop round: wrap when
the word no longer fits (`word_width + col >= viewport_width`). -/
def wrapIfNeeded (st : DocumentFormatter) (word_width virtual_lines_before_word : Nat) :
    DocumentFormatter :=
  if word_width + st.visual_pos.col ≥ st.config.viewport_width then
    softwrapToNextLine st virtual_lines_before_word
  else st

theorem measureIn_wrapIfNeeded (st : DocumentFormatter) (ww vbw : Nat) :
    measureIn (wrapIfNeeded st ww vbw) = measureIn st := by
  unfold wrapIfNeeded softwrapToNextLine
  split <;> simp [measureIn]

theorem wrapIfNeeded_fields (st : DocumentFormatter) (ww vbw : Nat) :
    (wrapIfNeeded st ww vbw).word_buf = st.word_buf ∧
    (wrapIfNeeded st ww vbw).config = st.config ∧
    (wrapIfNeeded st ww vbw).word_i = st.word_i ∧
    (wrapIfNeeded st ww vbw).line_pos = st.line_pos ∧
    (wrapIfNeeded st ww vbw).peeked_grapheme = st.peeked_grapheme ∧
    (wrapIfNeeded st ww vbw).indent_level = st.indent_level := by
  unfold wrapIfNeeded softwrapToNextLine
  split <;> exact ⟨rfl, rfl, rfl, rfl, rfl, rfl⟩

/-- The `loop` of DocumentFormatter::advance_to_next_word (lines 237-300).
The source's shape `if word_width + col >= viewport { if word_width >
max_wrap { split; return } softwrap }` followed by the pull is embedded
with the same control flow: the split-and-return fires when both
conditions hold; otherwise the round soft-wraps when needed
(`wrapIfNeeded`), snapshots `virtual_lines_before_grapheme`, pulls the
peeked or next grapheme, terminates the word at whitespace or a line
break, records the indent level at the first non-whitespace grapheme of a
line, and loops. -/
def advanceWordLoop (cwidth : List Char → Nat) (st : DocumentFormatter)
    (word_width virtual_lines_before_word virtual_lines_before_grapheme : Nat) :
    DocumentFormatter :=
  if word_width + st.visual_pos.col ≥ st.config.viewport_width ∧
      word_width > st.config.max_wrap then
    if word_width + st.visual_pos.col > st.config.viewport_width then
      { st with
        peeked_grapheme := st.word_buf.getLast?.map
          (fun g => (g, st.virtual_lines - virtual_lines_before_grapheme)),
        word_buf := st.word_buf.dropLast,
        virtual_lines := virtual_lines_before_grapheme }
    else
      st
  else
    match hp : pullGrapheme cwidth (wrapIfNeeded st word_width virtual_lines_before_word)
        word_width with
    | (none, st2) => st2
    | (some g, st2) =>
      match g.grapheme with
      | Grapheme.newline =>
        { st2 with indent_level := none, word_buf := st2.word_buf ++ [g] }
      | Grapheme.space =>
        { st2 with word_buf := st2.word_buf ++ [g] }
      | Grapheme.tab _ =>
        { st2 with word_buf := st2.word_buf ++ [g] }
      | Grapheme.other _ _ =>
        advanceWordLoop cwidth
          { st2 with
            indent_level :=
              match st2.indent_level with
              | none => some st2.visual_pos.col
              | some i => some i,
            word_buf := st2.word_buf ++ [g] }
          (word_width + g.width) virtual_lines_before_word
          (wrapIfNeeded st word_width virtual_lines_before_word).virtual_lines
termination_by measureIn st
decreasing_by
  have hs := pullGrapheme_spec hp
  have hlt := hs.2.2.2.2.2.2.1 rfl
  rw [measureIn_wrapIfNeeded] at hlt
  calc measureIn _ = measureIn st2 := by simp [measureIn]
  _ < measureIn st := hlt

theorem advanceWordLoop_eq_split {cwidth : List Char → Nat} {st : DocumentFormatter}
    {ww vbw vbg : Nat}
    (h1 : ww + st.visual_pos.col ≥ st.config.viewport_width ∧ ww > st.config.max_wrap)
    (h2 : ww + st.visual_pos.col > st.config.viewport_width) :
    advanceWordLoop cwidth st ww vbw vbg =
      { st with
        peeked_grapheme := st.word_buf.getLast?.map
          (fun g => (g, st.virtual_lines - vbg)),
        word_buf := st.word_buf.dropLast,
        virtual_lines := vbg } := by
  rw [advanceWordLoop, if_pos h1, if_pos h2]

theorem advanceWordLoop_eq_keep {cwidth : List Char → Nat} {st : DocumentFormatter}
    {ww vbw vbg : Nat}
    (h1 : ww + st.visual_pos.col ≥ st.config.viewport_width ∧ ww > st.config.max_wrap)
    (h2 : ¬ ww + st.visual_pos.col > st.config.viewport_width) :
    advanceWordLoop cwidth st ww vbw vbg = st := by
  rw [advanceWordLoop, if_pos h1, if_neg h2]

theorem advanceWordLoop_eq_none {cwidth : List Char → Nat} {st st2 : DocumentFormatter}
    {ww vbw vbg : Nat}
    (h1 : ¬ (ww + st.visual_pos.col ≥ st.config.viewport_width ∧
      ww > st.config.max_wrap))
    (hp : pullGrapheme cwidth (wrapIfNeeded st ww vbw) ww = (none, st2)) :
    advanceWordLoop cwidth st ww vbw vbg = st2 := by
  rw [advanceWordLoop, if_neg h1]
  split
  · next st3 heq =>
    rw [hp] at heq
    injection heq with _ h3
    exact h3.symm
  · next g3 st3 heq =>
    rw [hp] at heq
    exact absurd (Prod.mk.injEq _ _ _ _ ▸ heq).1 (by simp)

theorem advanceWordLoop_eq_newline {cwidth : List Char → Nat} {st st2 : DocumentFormatter}
    {g : FormattedGrapheme} {ww vbw vbg : Nat}
    (h1 : ¬ (ww + st.visual_pos.col ≥ st.config.viewport_width ∧
      ww > st.config.max_wrap))
    (hp : pullGrapheme cwidth (wrapIfNeeded st ww vbw) ww = (some g, st2))
    (hg : g.grapheme = Grapheme.newline) :
    advanceWordLoop cwidth st ww vbw vbg =
      { st2 with indent_level := none, word_buf := st2.word_buf ++ [g] } := by
  rw [advanceWordLoop, if_neg h1]
  split
  · next st3 heq =>
    rw [hp] at heq
    exact absurd (Prod.mk.injEq _ _ _ _ ▸ heq).1 (by simp)
  · next g3 st3 heq =>
      rw [hp] at heq
      have he1 := (Prod.mk.injEq _ _ _ _ ▸ heq).1
      have he2 := (Prod.mk.injEq _ _ _ _ ▸ heq).2
      injection he1 with he1
      subst he1
      subst he2
      rw [hg]

theorem advanceWordLoop_eq_space {cwidth : List Char → Nat} {st st2 : DocumentFormatter}
    {g : FormattedGrapheme} {ww vbw vbg : Nat}
    (h1 : ¬ (ww + st.visual_pos.col ≥ st.config.viewport_width ∧
      ww > st.config.max_wrap))
    (hp : pullGrapheme cwidth (wrapIfNeeded st ww vbw) ww = (some g, st2))
    (hg : g.grapheme = Grapheme.space) :
    advanceWordLoop cwidth st ww vbw vbg =
      { st2 with word_buf := st2.word_buf ++ [g] } := by
  rw [advanceWordLoop, if_neg h1]
  split
  · next st3 heq =>
    rw [hp] at heq
    exact absurd (Prod.mk.injEq _ _ _ _ ▸ heq).1 (by simp)
  · next g3 st3 heq =>
      rw [hp] at heq
      have he1 := (Prod.mk.injEq _ _ _ _ ▸ heq).1
      have he2 := (Prod.mk.injEq _ _ _ _ ▸ heq).2
      injection he1 with he1
      subst he1
      subst he2
      rw [hg]

theorem advanceWordLoop_eq_tab {cwidth : List Char → Nat} {st st2 : DocumentFormatter}
    {g : FormattedGrapheme} {w ww vbw vbg : Nat}
    (h1 : ¬ (ww + st.visual_pos.col ≥ st.config.viewport_width ∧
      ww > st.config.max_wrap))
    (hp : pullGrapheme cwidth (wrapIfNeeded st ww vbw) ww = (some g, st2))
    (hg : g.grapheme = Grapheme.tab w) :
    advanceWordLoop cwidth st ww vbw vbg =
      { st2 with word_buf := st2.word_buf ++ [g] } := by
  rw [advanceWordLoop, if_neg h1]
  split
  · next st3 heq =>
    rw [hp] at heq
    exact absurd (Prod.mk.injEq _ _ _ _ ▸ heq).1 (by simp)
  · next g3 st3 heq =>
      rw [hp] at heq
      have he1 := (Prod.mk.injEq _ _ _ _ ▸ heq).1
      have he2 := (Prod.mk.injEq _ _ _ _ ▸ heq).2
      injection he1 with he1
      subst he1
      subst he2
      rw [hg]

theorem advanceWordLoop_eq_other {cwidth : List Char → Nat} {st st2 : DocumentFormatter}
    {g : FormattedGrapheme} {cluster : List Char} {w ww vbw vbg : Nat}
    (h1 : ¬ (ww + st.visual_pos.col ≥ st.config.viewport_width ∧
      ww > st.config.max_wrap))
    (hp : pullGrapheme cwidth (wrapIfNeeded st ww vbw) ww = (some g, st2))
    (hg : g.grapheme = Grapheme.other cluster w) :
    advanceWordLoop cwidth st ww vbw vbg =
      advanceWordLoop cwidth
        { st2 with
          indent_level :=
            match st2.indent_level with
            | none => some st2.visual_pos.col
            | some i => some i,
          word_buf := st2.word_buf ++ [g] }
        (ww + g.width) vbw (wrapIfNeeded st ww vbw).virtual_lines := by
  rw [advanceWordLoop, if_neg h1]
  split
  · next st3 heq =>
    rw [hp] at heq
    exact absurd (Prod.mk.injEq _ _ _ _ ▸ heq).1 (by simp)
  · next g3 st3 heq =>
      rw [hp] at heq
      have he1 := (Prod.mk.injEq _ _ _ _ ▸ heq).1
      have he2 := (Prod.mk.injEq _ _ _ _ ▸ heq).2
      injection he1 with he1
      subst he1
      subst he2
      rw [hg]

theorem advanceWordLoop_B (cwidth : List Char → Nat) (st : DocumentFormatter)
    (ww vbw vbg : Nat) :
    2 * measureIn (advanceWordLoop cwidth st ww vbw vbg) +
      (advanceWordLoop cwidth st ww vbw vbg).word_buf.length ≤
    2 * measureIn st + st.word_buf.length +
      (if st.config.max_wrap < ww then 1 else 0) := by
  induction st, ww, vbw, vbg using advanceWordLoop.induct cwidth with
  | case1 st ww vbw vbg h1 h2 =>
    rw [advanceWordLoop_eq_split h1 h2, if_pos h1.2]
    cases hl : st.word_buf.getLast? with
    | none =>
      simp [measureIn, hl, List.length_dropLast]
      omega
    | some a =>
      have hne : st.word_buf ≠ [] := by
        intro hnil
        rw [hnil] at hl
        simp at hl
      have hlen : 1 ≤ st.word_buf.length := List.length_pos.mpr hne
      simp [measureIn, hl, List.length_dropLast]
      omega
  | case2 st ww vbw vbg h1 h2 =>
    rw [advanceWordLoop_eq_keep h1 h2]
    omega
  | case3 st ww vbw vbg h1 st2 hp =>
    rw [advanceWordLoop_eq_none h1 hp]
    have hs := pullGrapheme_spec hp
    have hmle := (hs.2.2.2.2.2.2.2 rfl).2.2.2
    rw [measureIn_wrapIfNeeded] at hmle
    have hb : st2.word_buf = st.word_buf := by
      rw [hs.2.1]
      exact (wrapIfNeeded_fields st ww vbw).1
    rw [hb]
    omega
  | case4 st ww vbw vbg h1 g st2 hp hg =>
    rw [advanceWordLoop_eq_newline h1 hp hg]
    have hs := pullGrapheme_spec hp
    have hlt := hs.2.2.2.2.2.2.1 rfl
    rw [measureIn_wrapIfNeeded] at hlt
    have hb : st2.word_buf = st.word_buf := by
      rw [hs.2.1]
      exact (wrapIfNeeded_fields st ww vbw).1
    show 2 * measureIn st2 + (st2.word_buf ++ [g]).length ≤
      2 * measureIn st + st.word_buf.length +
        (if st.config.max_wrap < ww then 1 else 0)
    rw [List.length_append, hb]
    simp only [List.length_singleton]
    omega
  | case5 st ww vbw vbg h1 g st2 hp hg =>
    rw [advanceWordLoop_eq_space h1 hp hg]
    have hs := pullGrapheme_spec hp
    have hlt := hs.2.2.2.2.2.2.1 rfl
    rw [measureIn_wrapIfNeeded] at hlt
    have hb : st2.word_buf = st.word_buf := by
      rw [hs.2.1]
      exact (wrapIfNeeded_fields st ww vbw).1
    show 2 * measureIn st2 + (st2.word_buf ++ [g]).length ≤
      2 * measureIn st + st.word_buf.length +
        (if st.config.max_wrap < ww then 1 else 0)
    rw [List.length_append, hb]
    simp only [List.length_singleton]
    omega
  | case6 st ww vbw vbg h1 g st2 hp w hg =>
    rw [advanceWordLoop_eq_tab h1 hp hg]
    have hs := pullGrapheme_spec hp
    have hlt := hs.2.2.2.2.2.2.1 rfl
    rw [measureIn_wrapIfNeeded] at hlt
    have hb : st2.word_buf = st.word_buf := by
      rw [hs.2.1]
      exact (wrapIfNeeded_fields st ww vbw).1
    show 2 * measureIn st2 + (st2.word_buf ++ [g]).length ≤
      2 * measureIn st + st.word_buf.length +
        (if st.config.max_wrap < ww then 1 else 0)
    rw [List.length_append, hb]
    simp only [List.length_singleton]
    omega
  | case7 st ww vbw vbg h1 g st2 hp cluster w hg ih =>
    rw [advanceWordLoop_eq_other h1 hp hg]
    have hs := pullGrapheme_spec hp
    have hlt := hs.2.2.2.2.2.2.1 rfl
    rw [measureIn_wrapIfNeeded] at hlt
    have hb : st2.word_buf = st.word_buf := by
      rw [hs.2.1]
      exact (wrapIfNeeded_fields st ww vbw).1
    have htail :
        2 * measureIn st2 + (st2.word_buf ++ [g]).length +
          (if st2.config.max_wrap < ww + g.width then 1 else 0) ≤
        2 * measureIn st + st.word_buf.length +
          (if st.config.max_wrap < ww then 1 else 0) := by
      have hind : (if st2.config.max_wrap < ww + g.width then 1 else 0) ≤ 1 := by
        split <;> omega
      rw [List.length_append, hb]
      simp only [List.length_singleton] at *
      omega
    exact le_trans ih htail

/-- DocumentFormatter::advance_to_next_word (lines 232-236): clear the
word buffer, start with zero width and a snapshot of the pending virtual
rows, then run the loop. -/
def advanceToNextWord (cwidth : List Char → Nat) (st : DocumentFormatter) :
    DocumentFormatter :=
  advanceWordLoop cwidth { st with word_buf := [] } 0 st.virtual_lines st.virtual_lines

/-- The position bookkeeping of `<DocumentFormatter as Iterator>::next`
(lines 328-338): yield the grapheme at the current visual position; a line
break advances the row past the pending virtual rows, resets the column
and advances `line_pos`; anything else advances the column by the
grapheme's width. -/
def formatterEmit (st : DocumentFormatter) (g : FormattedGrapheme) :
    (FormattedGrapheme × Position) × DocumentFormatter :=
  if g.grapheme = Grapheme.newline then
    ((g, st.visual_pos),
     { st with visual_pos := ⟨st.visual_pos.row + 1 + st.virtual_lines, 0⟩,
               virtual_lines := 0, line_pos := st.line_pos + 1 })
  else
    ((g, st.visual_pos),
     { st with visual_pos := ⟨st.visual_pos.row, st.visual_pos.col + g.width⟩ })

/-- The soft-wrap arm of `<DocumentFormatter as Iterator>::next`
(lines 315-324): yield `word_buf[word_i]` (advancing `word_i`), or `None`
when the index is out of range. -/
def formatterYield (st1 : DocumentFormatter) :
    Option (FormattedGrapheme × Position) × DocumentFormatter :=
  match st1.word_buf.get? st1.word_i with
  | none => (none, st1)
  | some g =>
    match formatterEmit { st1 with word_i := st1.word_i + 1 } g with
    | (e, st2) => (some e, st2)

/-- `<DocumentFormatter as Iterator>::next` (lines 312-339): under
soft-wrap, refill the word buffer when drained and yield its next element;
otherwise advance one grapheme directly. -/
def formatterNext (cwidth : List Char → Nat) (st : DocumentFormatter) :
    Option (FormattedGrapheme × Position) × DocumentFormatter :=
  if st.config.soft_wrap then
    formatterYield
      (if st.word_i ≥ st.word_buf.length then
        { advanceToNextWord cwidth st with word_i := 0 }
      else st)
  else
    match advanceGrapheme cwidth st st.visual_pos.col with
    | (none, st2) => (none, st2)
    | (some g, st2) =>
      match formatterEmit st2 g with
      | (e, st3) => (some e, st3)

theorem formatterEmit_fields (st : DocumentFormatter) (g : FormattedGrapheme) :
    measureIn (formatterEmit st g).2 = measureIn st ∧
    (formatterEmit st g).2.word_buf = st.word_buf ∧
    (formatterEmit st g).2.word_i = st.word_i ∧
    (formatterEmit st g).2.config = st.config ∧
    (formatterEmit st g).1 = (g, st.visual_pos) := by
  unfold formatterEmit
  split <;> exact ⟨rfl, rfl, rfl, rfl, rfl⟩

theorem formatterYield_spec {st1 st' : DocumentFormatter}
    {e : FormattedGrapheme × Position}
    (h : formatterYield st1 = (some e, st')) :
    (st1.word_buf.get? st1.word_i).isSome = true ∧
    measureIn st' = measureIn st1 ∧ st'.word_buf = st1.word_buf ∧
    st'.word_i = st1.word_i + 1 ∧ st'.config = st1.config := by
  unfold formatterYield at h
  cases hg : st1.word_buf.get? st1.word_i with
  | none =>
    rw [hg] at h
    simp at h
  | some g =>
    rw [hg] at h
    simp only at h
    rcases he : formatterEmit { st1 with word_i := st1.word_i + 1 } g with ⟨e2, st2⟩
    rw [he] at h
    simp only at h
    rw [Prod.mk.injEq] at h
    obtain ⟨h1, h2⟩ := h
    subst h2
    have hf := formatterEmit_fields { st1 with word_i := st1.word_i + 1 } g
    rw [he] at hf
    simp only at hf
    exact ⟨rfl, hf.1, hf.2.1, hf.2.2.1, hf.2.2.2.1⟩

theorem advanceToNextWord_B (cwidth : List Char → Nat) (st : DocumentFormatter) :
    2 * measureIn (advanceToNextWord cwidth st) +
      (advanceToNextWord cwidth st).word_buf.length ≤ 2 * measureIn st := by
  have h := advanceWordLoop_B cwidth { st with word_buf := [] } 0
    st.virtual_lines st.virtual_lines
  rw [if_neg (Nat.not_lt_zero _)] at h
  exact h

/-- Each yielded item of `next` strictly shrinks the run measure: twice
the unconsumed input plus the unread part of the word buffer. -/
theorem formatterNext_dec {cwidth : List Char → Nat} {st st' : DocumentFormatter}
    {e : FormattedGrapheme × Position}
    (h : formatterNext cwidth st = (some e, st')) :
    2 * measureIn st' + (st'.word_buf.length - st'.word_i) <
      2 * measureIn st + (st.word_buf.length - st.word_i) := by
  unfold formatterNext at h
  by_cases hsw : st.config.soft_wrap = true
  · rw [if_pos hsw] at h
    by_cases hwi : st.word_i ≥ st.word_buf.length
    · rw [if_pos hwi] at h
      have hy := formatterYield_spec h
      have hget : ((advanceToNextWord cwidth st).word_buf.get? 0).isSome = true :=
        hy.1
      have hA := advanceToNextWord_B cwidth st
      have hlen : 1 ≤ (advanceToNextWord cwidth st).word_buf.length := by
        cases hwb : (advanceToNextWord cwidth st).word_buf with
        | nil =>
          rw [hwb] at hget
          simp at hget
        | cons a t =>
          exact Nat.succ_le_succ (Nat.zero_le _)
      have hm : measureIn st' = measureIn (advanceToNextWord cwidth st) := hy.2.1
      have hwb2 : st'.word_buf = (advanceToNextWord cwidth st).word_buf := hy.2.2.1
      have hwi2 : st'.word_i = 1 := hy.2.2.2.1
      have hz : st.word_buf.length - st.word_i = 0 := Nat.sub_eq_zero_of_le hwi
      rw [hm, hwb2, hwi2, hz]
      omega
    · rw [if_neg hwi] at h
      have hy := formatterYield_spec h
      rw [hy.2.1, hy.2.2.1, hy.2.2.2.1]
      omega
  · rw [if_neg hsw] at h
    rcases ha : advanceGrapheme cwidth st st.visual_pos.col with ⟨r, st2⟩
    cases r with
    | none =>
      rw [ha] at h
      simp at h
    | some g =>
      rw [ha] at h
      simp only at h
      rcases he : formatterEmit st2 g with ⟨e2, st3⟩
      rw [he] at h
      simp only at h
      rw [Prod.mk.injEq] at h
      obtain ⟨h1, h2⟩ := h
      subst h2
      have hs := advanceGrapheme_spec ha
      have hlt := hs.2.2.2.2.2.2.2.1 rfl
      have hf := formatterEmit_fields st2 g
      rw [he] at hf
      simp only at hf
      rw [hf.1, hf.2.1, hf.2.2.1, hs.2.1, hs.2.2.1]
      omega

/-- Total visual width of a list of formatted graphemes. -/
def sumW (l : List FormattedGrapheme) : Nat :=
  (l.map FormattedGrapheme.width).sum

/-- Whether a formatted grapheme is a word character (`Grapheme::Other`),
as opposed to the whitespace and line-break word terminators. -/
def isOtherG (g : FormattedGrapheme) : Bool :=
  match g.grapheme with
  | Grapheme.other _ _ => true
  | _ => false

theorem sumW_append (l1 l2 : List FormattedGrapheme) :
    sumW (l1 ++ l2) = sumW l1 + sumW l2 := by
  simp [sumW]

theorem sumW_take_le (l : List FormattedGrapheme) (j : Nat) :
    sumW (l.take j) ≤ sumW l := by
  conv_rhs => rw [← List.take_append_drop j l]
  rw [sumW_append]
  exact Nat.le_add_right _ _

theorem getD_take {α : Type} (d : α) :
    ∀ (l : List α) (n j : Nat), j < n → (l.take n).getD j d = l.getD j d := by
  intro l
  induction l with
  | nil =>
    intro n j _
    simp
  | cons a t ih =>
    intro n j hj
    cases n with
    | zero => omega
    | succ n =>
      cases j with
      | zero => simp
      | succ j =>
        simp only [List.take_succ_cons, List.getD_cons_succ]
        exact ih n j (by omega)

theorem getD_concat_self {α : Type} (l : List α) (d a : α) :
    (l ++ [a]).getD l.length d = a := by
  rw [List.getD_append_right _ _ _ _ (Nat.le_refl _), Nat.sub_self]
  rfl

/-- The column after a soft wrap: retained indentation (when known and at
most `max_indent_retain`) plus `wrap_indent`; bounded by their sum. When
no wrap is needed the state is unchanged. -/
theorem wrapIfNeeded_col (st : DocumentFormatter) (ww vbw : Nat) :
    (¬ st.config.viewport_width ≤ ww + st.visual_pos.col ∧
      wrapIfNeeded st ww vbw = st) ∨
    (st.config.viewport_width ≤ ww + st.visual_pos.col ∧
      (wrapIfNeeded st ww vbw).visual_pos.col ≤
        st.config.max_indent_retain + st.config.wrap_indent) := by
  unfold wrapIfNeeded
  by_cases hc : ww + st.visual_pos.col ≥ st.config.viewport_width
  · rw [if_pos hc]
    right
    refine ⟨hc, ?_⟩
    show (match st.indent_level with
      | some indent =>
        if indent ≤ st.config.max_indent_retain then indent else 0
      | none => 0) + st.config.wrap_indent ≤
      st.config.max_indent_retain + st.config.wrap_indent
    cases hi : st.indent_level with
    | none => simp
    | some ind =>
      simp only
      split <;> omega
  · rw [if_neg hc]
    exact Or.inl ⟨hc, rfl⟩

/-- Postcondition of the word loop under the clamp
`max_indent_retain + wrap_indent + max_wrap < viewport_width`: the
configuration is unchanged; every strict prefix of the produced word
buffer starts at a column whose sum with the prefix width stays below the
viewport; and every buffer element but possibly the last is a word
character. Entry requires the same column bound for the buffer so far,
`word_width` equal to its width, and an all-word-character buffer. -/
theorem advanceWordLoop_cols (cwidth : List Char → Nat) (st : DocumentFormatter)
    (ww vbw vbg : Nat) :
    st.config.max_indent_retain + st.config.wrap_indent + st.config.max_wrap <
      st.config.viewport_width →
    ww = sumW st.word_buf →
    (∀ j, j < st.word_buf.length →
      st.visual_pos.col + sumW (st.word_buf.take j) < st.config.viewport_width) →
    (∀ j, j < st.word_buf.length →
      isOtherG (st.word_buf.getD j FormattedGrapheme.placeholder) = true) →
    (advanceWordLoop cwidth st ww vbw vbg).config = st.config ∧
    (∀ j, j < (advanceWordLoop cwidth st ww vbw vbg).word_buf.length →
      (advanceWordLoop cwidth st ww vbw vbg).visual_pos.col +
        sumW ((advanceWordLoop cwidth st ww vbw vbg).word_buf.take j) <
        (advanceWordLoop cwidth st ww vbw vbg).config.viewport_width) ∧
    (∀ j, j + 1 < (advanceWordLoop cwidth st ww vbw vbg).word_buf.length →
      isOtherG ((advanceWordLoop cwidth st ww vbw vbg).word_buf.getD j
        FormattedGrapheme.placeholder) = true) := by
  induction st, ww, vbw, vbg using advanceWordLoop.induct cwidth with
  | case1 st ww vbw vbg h1 h2 =>
    intro H3 Hw Hb Ho
    rw [advanceWordLoop_eq_split h1 h2]
    refine ⟨rfl, ?_, ?_⟩
    · intro j hj
      have hj2 : j < st.word_buf.dropLast.length := hj
      simp only [List.length_dropLast] at hj2
      show st.visual_pos.col + sumW (st.word_buf.dropLast.take j) <
        st.config.viewport_width
      rw [List.dropLast_eq_take, List.take_take]
      have hmin : j ⊓ (st.word_buf.length - 1) = j := Nat.min_eq_left (by omega)
      rw [hmin]
      exact Hb j (by omega)
    · intro j hj
      have hj2 : j + 1 < st.word_buf.dropLast.length := hj
      simp only [List.length_dropLast] at hj2
      show isOtherG (st.word_buf.dropLast.getD j FormattedGrapheme.placeholder) = true
      rw [List.dropLast_eq_take,
        getD_take FormattedGrapheme.placeholder st.word_buf _ j (by omega)]
      exact Ho j (by omega)
  | case2 st ww vbw vbg h1 h2 =>
    intro H3 Hw Hb Ho
    rw [advanceWordLoop_eq_keep h1 h2]
    exact ⟨rfl, Hb, fun j hj => Ho j (by omega)⟩
  | case3 st ww vbw vbg h1 st2 hp =>
    intro H3 Hw Hb Ho
    rw [advanceWordLoop_eq_none h1 hp]
    have hs := pullGrapheme_spec hp
    have hvp : st2.visual_pos = (wrapIfNeeded st ww vbw).visual_pos := hs.1
    have hwb : st2.word_buf = st.word_buf := by
      rw [hs.2.1]
      exact (wrapIfNeeded_fields st ww vbw).1
    have hcfg : st2.config = st.config := by
      rw [hs.2.2.2.1]
      exact (wrapIfNeeded_fields st ww vbw).2.1
    refine ⟨hcfg, ?_, ?_⟩
    · intro j hj
      rw [hwb] at hj
      rw [hwb, hcfg, hvp]
      rcases wrapIfNeeded_col st ww vbw with ⟨hnw, heq⟩ | ⟨hge, hcol⟩
      · rw [heq]
        exact Hb j hj
      · have hmw : ww ≤ st.config.max_wrap := by
          by_contra hgt
          exact h1 ⟨by omega, by omega⟩
        have hle := sumW_take_le st.word_buf j
        omega
    · intro j hj
      rw [hwb] at hj
      rw [hwb]
      exact Ho j (by omega)
  | case4 st ww vbw vbg h1 g st2 hp hg =>
    intro H3 Hw Hb Ho
    rw [advanceWordLoop_eq_newline h1 hp hg]
    have hs := pullGrapheme_spec hp
    have hvp : st2.visual_pos = (wrapIfNeeded st ww vbw).visual_pos := hs.1
    have hwb : st2.word_buf = st.word_buf := by
      rw [hs.2.1]
      exact (wrapIfNeeded_fields st ww vbw).1
    have hcfg : st2.config = st.config := by
      rw [hs.2.2.2.1]
      exact (wrapIfNeeded_fields st ww vbw).2.1
    refine ⟨hcfg, ?_, ?_⟩
    · intro j hj
      have hj2 : j < (st2.word_buf ++ [g]).length := hj
      rw [hwb] at hj2
      simp only [List.length_append, List.length_singleton] at hj2
      show st2.visual_pos.col + sumW ((st2.word_buf ++ [g]).take j) <
        st2.config.viewport_width
      rw [hwb, hcfg, hvp, List.take_append_of_le_length (by omega)]
      rcases wrapIfNeeded_col st ww vbw with ⟨hnw, heq⟩ | ⟨hge, hcol⟩
      · rw [heq]
        rcases Nat.lt_or_ge j st.word_buf.length with hlt | hge2
        · exact Hb j hlt
        · have hje : j = st.word_buf.length := by omega
          rw [hje, List.take_of_length_le (Nat.le_refl _)]
          omega
      · have hmw : ww ≤ st.config.max_wrap := by
          by_contra hgt
          exact h1 ⟨by omega, by omega⟩
        have hle := sumW_take_le st.word_buf j
        omega
    · intro j hj
      have hj2 : j + 1 < (st2.word_buf ++ [g]).length := hj
      rw [hwb] at hj2
      simp only [List.length_append, List.length_singleton] at hj2
      show isOtherG ((st2.word_buf ++ [g]).getD j FormattedGrapheme.placeholder) = true
      rw [hwb, List.getD_append _ _ _ j (by omega)]
      exact Ho j (by omega)
  | case5 st ww vbw vbg h1 g st2 hp hg =>
    intro H3 Hw Hb Ho
    rw [advanceWordLoop_eq_space h1 hp hg]
    have hs := pullGrapheme_spec hp
    have hvp : st2.visual_pos = (wrapIfNeeded st ww vbw).visual_pos := hs.1
    have hwb : st2.word_buf = st.word_buf := by
      rw [hs.2.1]
      exact (wrapIfNeeded_fields st ww vbw).1
    have hcfg : st2.config = st.config := by
      rw [hs.2.2.2.1]
      exact (wrapIfNeeded_fields st ww vbw).2.1
    refine ⟨hcfg, ?_, ?_⟩
    · intro j hj
      have hj2 : j < (st2.word_buf ++ [g]).length := hj
      rw [hwb] at hj2
      simp only [List.length_append, List.length_singleton] at hj2
      show st2.visual_pos.col + sumW ((st2.word_buf ++ [g]).take j) <
        st2.config.viewport_width
      rw [hwb, hcfg, hvp, List.take_append_of_le_length (by omega)]
      rcases wrapIfNeeded_col st ww vbw with ⟨hnw, heq⟩ | ⟨hge, hcol⟩
      · rw [heq]
        rcases Nat.lt_or_ge j st.word_buf.length with hlt | hge2
        · exact Hb j hlt
        · have hje : j = st.word_buf.length := by omega
          rw [hje, List.take_of_length_le (Nat.le_refl _)]
          omega
      · have hmw : ww ≤ st.config.max_wrap := by
          by_contra hgt
          exact h1 ⟨by omega, by omega⟩
        have hle := sumW_take_le st.word_buf j
        omega
    · intro j hj
      have hj2 : j + 1 < (st2.word_buf ++ [g]).length := hj
      rw [hwb] at hj2
      simp only [List.length_append, List.length_singleton] at hj2
      show isOtherG ((st2.word_buf ++ [g]).getD j FormattedGrapheme.placeholder) = true
      rw [hwb, List.getD_append _ _ _ j (by omega)]
      exact Ho j (by omega)
  | case6 st ww vbw vbg h1 g st2 hp w hg =>
    intro H3 Hw Hb Ho
    rw [advanceWordLoop_eq_tab h1 hp hg]
    have hs := pullGrapheme_spec hp
    have hvp : st2.visual_pos = (wrapIfNeeded st ww vbw).visual_pos := hs.1
    have hwb : st2.word_buf = st.word_buf := by
      rw [hs.2.1]
      exact (wrapIfNeeded_fields st ww vbw).1
    have hcfg : st2.config = st.config := by
      rw [hs.2.2.2.1]
      exact (wrapIfNeeded_fields st ww vbw).2.1
    refine ⟨hcfg, ?_, ?_⟩
    · intro j hj
      have hj2 : j < (st2.word_buf ++ [g]).length := hj
      rw [hwb] at hj2
      simp only [List.length_append, List.length_singleton] at hj2
      show st2.visual_pos.col + sumW ((st2.word_buf ++ [g]).take j) <
        st2.config.viewport_width
      rw [hwb, hcfg, hvp, List.take_append_of_le_length (by omega)]
      rcases wrapIfNeeded_col st ww vbw with ⟨hnw, heq⟩ | ⟨hge, hcol⟩
      · rw [heq]
        rcases Nat.lt_or_ge j st.word_buf.length with hlt | hge2
        · exact Hb j hlt
        · have hje : j = st.word_buf.length := by omega
          rw [hje, List.take_of_length_le (Nat.le_refl _)]
          omega
      · have hmw : ww ≤ st.config.max_wrap := by
          by_contra hgt
          exact h1 ⟨by omega, by omega⟩
        have hle := sumW_take_le st.word_buf j
        omega
    · intro j hj
      have hj2 : j + 1 < (st2.word_buf ++ [g]).length := hj
      rw [hwb] at hj2
      simp only [List.length_append, List.length_singleton] at hj2
      show isOtherG ((st2.word_buf ++ [g]).getD j FormattedGrapheme.placeholder) = true
      rw [hwb, List.getD_append _ _ _ j (by omega)]
      exact Ho j (by omega)
  | case7 st ww vbw vbg h1 g st2 hp cluster w hg ih =>
    intro H3 Hw Hb Ho
    rw [advanceWordLoop_eq_other h1 hp hg]
    have hs := pullGrapheme_spec hp
    have hvp : st2.visual_pos = (wrapIfNeeded st ww vbw).visual_pos := hs.1
    have hwb : st2.word_buf = st.word_buf := by
      rw [hs.2.1]
      exact (wrapIfNeeded_fields st ww vbw).1
    have hcfg : st2.config = st.config := by
      rw [hs.2.2.2.1]
      exact (wrapIfNeeded_fields st ww vbw).2.1
    have hsing : sumW [g] = g.width := by
      simp [sumW]
    have hA : st2.config.max_indent_retain + st2.config.wrap_indent +
        st2.config.max_wrap < st2.config.viewport_width := by
      rw [hcfg]
      exact H3
    have hB : ww + g.width = sumW (st2.word_buf ++ [g]) := by
      rw [sumW_append, hsing, hwb, ← Hw]
    have hC : ∀ j, j < (st2.word_buf ++ [g]).length →
        st2.visual_pos.col + sumW ((st2.word_buf ++ [g]).take j) <
          st2.config.viewport_width := by
      intro j hj2
      rw [hwb] at hj2
      simp only [List.length_append, List.length_singleton] at hj2
      rw [hwb, hcfg, hvp, List.take_append_of_le_length (by omega)]
      rcases wrapIfNeeded_col st ww vbw with ⟨hnw, heq⟩ | ⟨hge, hcol⟩
      · rw [heq]
        rcases Nat.lt_or_ge j st.word_buf.length with hlt | hge2
        · exact Hb j hlt
        · have hje : j = st.word_buf.length := by omega
          rw [hje, List.take_of_length_le (Nat.le_refl _)]
          omega
      · have hmw : ww ≤ st.config.max_wrap := by
          by_contra hgt
          exact h1 ⟨by omega, by omega⟩
        have hle := sumW_take_le st.word_buf j
        omega
    have hD : ∀ j, j < (st2.word_buf ++ [g]).length →
        isOtherG ((st2.word_buf ++ [g]).getD j FormattedGrapheme.placeholder) =
          true := by
      intro j hj2
      rw [hwb] at hj2
      simp only [List.length_append, List.length_singleton] at hj2
      rw [hwb]
      rcases Nat.lt_or_ge j st.word_buf.length with hlt | hge2
      · rw [List.getD_append _ _ _ j hlt]
        exact Ho j hlt
      · have hje : j = st.word_buf.length := by omega
        rw [hje, getD_concat_self]
        simp [isOtherG, hg]
    obtain ⟨ihc, ihb, iho⟩ := ih hA hB hC hD
    exact ⟨ihc.trans hcfg, ihb, iho⟩

/-- Collect the whole emission stream of the iterator from a state,
together with the state left when `next` first returns `None`. -/
def formatterRun (cwidth : List Char → Nat) (st : DocumentFormatter) :
    List (FormattedGrapheme × Position) × DocumentFormatter :=
  match hr : formatterNext cwidth st with
  | (none, st2) => ([], st2)
  | (some e, st2) =>
    match formatterRun cwidth st2 with
    | (es, stF) => (e :: es, stF)
termination_by 2 * measureIn st + (st.word_buf.length - st.word_i)
decreasing_by exact formatterNext_dec hr

theorem formatterRun_none {cwidth : List Char → Nat} {st st2 : DocumentFormatter}
    (h : formatterNext cwidth st = (none, st2)) :
    formatterRun cwidth st = ([], st2) := by
  rw [formatterRun]
  split
  · next st3 heq =>
    rw [h] at heq
    rw [Prod.mk.injEq] at heq
    rw [heq.2]
  · next e st3 heq =>
    rw [h] at heq
    rw [Prod.mk.injEq] at heq
    exact absurd heq.1 (by simp)

theorem formatterRun_step {cwidth : List Char → Nat} {st st2 : DocumentFormatter}
    {e : FormattedGrapheme × Position}
    (h : formatterNext cwidth st = (some e, st2)) :
    formatterRun cwidth st =
      ((formatterRun cwidth st2).1.cons e, (formatterRun cwidth st2).2) := by
  rw [formatterRun]
  split
  · next st3 heq =>
    rw [h] at heq
    rw [Prod.mk.injEq] at heq
    exact absurd heq.1 (by simp)
  · next e2 st3 heq =>
    rw [h] at heq
    rw [Prod.mk.injEq] at heq
    obtain ⟨h1, h2⟩ := heq
    injection h1 with h1
    subst h1
    subst h2
    rcases hr : formatterRun cwidth st2 with ⟨es, stF⟩
    simp only

theorem getD_of_get? {α : Type} {l : List α} {n : Nat} {a : α}
    (h : l.get? n = some a) (d : α) : l.getD n d = a := by
  obtain ⟨hlt, he⟩ := List.get?_eq_some.mp h
  rw [List.getD_eq_get l d hlt, he]

/-- The position written by the bookkeeping step: a line break starts a
new row (past the pending virtual rows) at column zero; anything else
stays on the row and advances the column by the grapheme's width. -/
theorem formatterEmit_pos (st : DocumentFormatter) (g : FormattedGrapheme) :
    (g.grapheme = Grapheme.newline ∧
      (formatterEmit st g).2.visual_pos =
        ⟨st.visual_pos.row + 1 + st.virtual_lines, 0⟩) ∨
    (¬ g.grapheme = Grapheme.newline ∧
      (formatterEmit st g).2.visual_pos =
        ⟨st.visual_pos.row, st.visual_pos.col + g.width⟩) := by
  unfold formatterEmit
  by_cases hn : g.grapheme = Grapheme.newline
  · rw [if_pos hn]
    exact Or.inl ⟨hn, rfl⟩
  · rw [if_neg hn]
    exact Or.inr ⟨hn, rfl⟩

theorem formatterYield_some {st1 st' : DocumentFormatter}
    {e : FormattedGrapheme × Position}
    (h : formatterYield st1 = (some e, st')) :
    ∃ g, st1.word_buf.get? st1.word_i = some g ∧
      e = (g, st1.visual_pos) ∧
      st' = (formatterEmit { st1 with word_i := st1.word_i + 1 } g).2 := by
  unfold formatterYield at h
  cases hg : st1.word_buf.get? st1.word_i with
  | none =>
    rw [hg] at h
    simp at h
  | some g =>
    rw [hg] at h
    simp only at h
    rcases he : formatterEmit { st1 with word_i := st1.word_i + 1 } g with ⟨e2, st2⟩
    rw [he] at h
    simp only at h
    rw [Prod.mk.injEq] at h
    obtain ⟨h1, h2⟩ := h
    injection h1 with h1
    have hf := (formatterEmit_fields { st1 with word_i := st1.word_i + 1 } g).2.2.2.2
    rw [he] at hf
    simp only at hf
    refine ⟨g, rfl, ?_, ?_⟩
    · rw [← h1]
      exact hf
    · rw [he]
      exact h2.symm

/-- One yielded word-buffer element preserves the column invariant: the
remaining buffer elements still all start below the viewport, and all but
the last are still word characters. -/
theorem yieldPreservesCols {st1 st2 : DocumentFormatter} {g : FormattedGrapheme}
    (hget : st1.word_buf.get? st1.word_i = some g)
    (hst2 : st2 = (formatterEmit { st1 with word_i := st1.word_i + 1 } g).2)
    (Hb : ∀ j, j < (st1.word_buf.drop st1.word_i).length →
      st1.visual_pos.col + sumW ((st1.word_buf.drop st1.word_i).take j) <
        st1.config.viewport_width)
    (Ho : ∀ j, j + 1 < (st1.word_buf.drop st1.word_i).length →
      isOtherG ((st1.word_buf.drop st1.word_i).getD j
        FormattedGrapheme.placeholder) = true) :
    st2.config = st1.config ∧
    (∀ j, j < (st2.word_buf.drop st2.word_i).length →
      st2.visual_pos.col + sumW ((st2.word_buf.drop st2.word_i).take j) <
        st2.config.viewport_width) ∧
    (∀ j, j + 1 < (st2.word_buf.drop st2.word_i).length →
      isOtherG ((st2.word_buf.drop st2.word_i).getD j
        FormattedGrapheme.placeholder) = true) := by
  subst hst2
  have hf := formatterEmit_fields { st1 with word_i := st1.word_i + 1 } g
  have hwb : (formatterEmit { st1 with word_i := st1.word_i + 1 } g).2.word_buf =
      st1.word_buf := hf.2.1
  have hwi : (formatterEmit { st1 with word_i := st1.word_i + 1 } g).2.word_i =
      st1.word_i + 1 := hf.2.2.1
  have hcfg : (formatterEmit { st1 with word_i := st1.word_i + 1 } g).2.config =
      st1.config := hf.2.2.2.1
  obtain ⟨hlt, hgel⟩ := List.get?_eq_some.mp hget
  have hcons : st1.word_buf.drop st1.word_i =
      g :: st1.word_buf.drop (st1.word_i + 1) := by
    rw [List.drop_eq_get_cons hlt, hgel]
  refine ⟨hcfg, ?_, ?_⟩
  · intro j hj
    rw [hwb, hwi] at hj
    rw [hwb, hwi, hcfg]
    rcases formatterEmit_pos { st1 with word_i := st1.word_i + 1 } g
      with ⟨hnl, hpos⟩ | ⟨hnl, hpos⟩
    · exfalso
      have hlen2 : 0 < (st1.word_buf.drop (st1.word_i + 1)).length := by omega
      have h1lt : 0 + 1 < (st1.word_buf.drop st1.word_i).length := by
        rw [hcons]
        simp only [List.length_cons]
        omega
      have ho0 := Ho 0 h1lt
      rw [hcons, List.getD_cons_zero] at ho0
      simp [isOtherG, hnl] at ho0
    · rw [hpos]
      show st1.visual_pos.col + g.width +
        sumW ((st1.word_buf.drop (st1.word_i + 1)).take j) <
        st1.config.viewport_width
      have hb1 := Hb (j + 1) (by
        rw [hcons]
        simp only [List.length_cons]
        omega)
      rw [hcons, List.take_succ_cons] at hb1
      have hsc : sumW (g :: (st1.word_buf.drop (st1.word_i + 1)).take j) =
          g.width + sumW ((st1.word_buf.drop (st1.word_i + 1)).take j) := by
        simp [sumW]
      rw [hsc] at hb1
      omega
  · intro j hj
    rw [hwb, hwi] at hj
    rw [hwb, hwi]
    have ho1 := Ho (j + 1) (by
      rw [hcons]
      simp only [List.length_cons]
      omega)
    rw [hcons, List.getD_cons_succ] at ho1
    exact ho1

/-- Every emission of a run under soft-wrap, when the clamp
`max_indent_retain + wrap_indent + max_wrap < viewport_width` holds and
the current word buffer satisfies the column invariant, has its column
strictly below the viewport width. -/
theorem formatterRun_cols (cwidth : List Char → Nat) (st : DocumentFormatter) :
    st.config.soft_wrap = true →
    st.config.max_indent_retain + st.config.wrap_indent + st.config.max_wrap <
      st.config.viewport_width →
    (∀ j, j < (st.word_buf.drop st.word_i).length →
      st.visual_pos.col + sumW ((st.word_buf.drop st.word_i).take j) <
        st.config.viewport_width) →
    (∀ j, j + 1 < (st.word_buf.drop st.word_i).length →
      isOtherG ((st.word_buf.drop st.word_i).getD j
        FormattedGrapheme.placeholder) = true) →
    ∀ e ∈ (formatterRun cwidth st).1, e.2.col < st.config.viewport_width := by
  induction st using formatterRun.induct cwidth with
  | case1 st st2 hr =>
    intro hsw H3 Hb Ho
    rw [formatterRun_none hr]
    intro x hx
    have hx2 : x ∈ ([] : List (FormattedGrapheme × Position)) := hx
    simp at hx2
  | case2 st e st2 hr es stF hrun ih =>
    intro hsw H3 Hb Ho
    have hr2 := hr
    rw [formatterNext, if_pos hsw] at hr2
    by_cases hwi : st.word_i ≥ st.word_buf.length
    · rw [if_pos hwi] at hr2
      obtain ⟨g, hget, he, hst2⟩ := formatterYield_some hr2
      have hpost := advanceWordLoop_cols cwidth { st with word_buf := [] } 0
        st.virtual_lines st.virtual_lines H3 (by simp [sumW])
        (by
          intro j hj
          exact absurd hj (by simp))
        (by
          intro j hj
          exact absurd hj (by simp))
      have hAcfg : (advanceToNextWord cwidth st).config = st.config := hpost.1
      obtain ⟨hc2, hb2, ho2⟩ := yieldPreservesCols hget hst2 hpost.2.1
        (fun j hj => hpost.2.2 j hj)
      have hc2' : st2.config = st.config := by
        rw [hc2]
        exact hAcfg
      have hgetA : (advanceToNextWord cwidth st).word_buf.get? 0 = some g := hget
      obtain ⟨hlen0, _⟩ := List.get?_eq_some.mp hgetA
      have hecol : (advanceToNextWord cwidth st).visual_pos.col <
          (advanceToNextWord cwidth st).config.viewport_width :=
        hpost.2.1 0 hlen0
      rw [formatterRun_step hr]
      intro x hx
      have hx2 : x ∈ e :: (formatterRun cwidth st2).1 := hx
      rcases List.mem_cons.mp hx2 with hxe | hxm
      · subst hxe
        have hee : x.2.col = (advanceToNextWord cwidth st).visual_pos.col := by
          rw [he]
        rw [hee, ← hAcfg]
        exact hecol
      · have ihr := ih (by rw [hc2']; exact hsw) (by rw [hc2']; exact H3) hb2 ho2
        rw [← hc2']
        exact ihr x hxm
    · rw [if_neg hwi] at hr2
      obtain ⟨g, hget, he, hst2⟩ := formatterYield_some hr2
      obtain ⟨hc2, hb2, ho2⟩ := yieldPreservesCols hget hst2 Hb Ho
      obtain ⟨hlen0, _⟩ := List.get?_eq_some.mp hget
      have h0 : 0 < (st.word_buf.drop st.word_i).length := by
        rw [List.length_drop]
        omega
      have hecol : st.visual_pos.col < st.config.viewport_width := Hb 0 h0
      rw [formatterRun_step hr]
      intro x hx
      have hx2 : x ∈ e :: (formatterRun cwidth st2).1 := hx
      rcases List.mem_cons.mp hx2 with hxe | hxm
      · subst hxe
        have hee : x.2.col = st.visual_pos.col := by
          rw [he]
        rw [hee]
        exact hecol
      · have ihr := ih (by rw [hc2]; exact hsw) (by rw [hc2]; exact H3) hb2 ho2
        rw [← hc2]
        exact ihr x hxm

/-! ## src/helix-core/src/syntax/overlay.rs: the highlight overlay composer -/

/-- A highlight event; `source start stop` is the half-open char range
`[start, stop)` (the source's `Source { start, end }`). -/
inductive HighlightEvent where
  | highlightStart (scope : Nat)
  | highlightEnd
  | source (start stop : Nat)
deriving DecidableEq

/-- An overlay span (the source's `Span { scope, start, end }`). -/
structure Span where
  scope : Nat
  start : Nat
  stop : Nat
deriving DecidableEq

/-- The `Overlay` iterator state.  The source's two-slot `EventQueue` is a
LIFO stack (push writes at `len`, pop reads at `len - 1`); it is embedded
as a list whose head is the top.  The two look-ahead iterators are
embedded as `Option` front elements plus the remaining lists. -/
structure OverlayIter where
  events : List HighlightEvent
  spans : List Span
  next_event : Option HighlightEvent
  current_span : Option Span
  queue : List HighlightEvent
deriving DecidableEq

/-- The `overlay` constructor: prime both look-aheads. -/
def overlayInit (events : List HighlightEvent) (spans : List Span) : OverlayIter :=
  { events := events.tail, spans := spans.tail,
    next_event := events.head?, current_span := spans.head?, queue := [] }

/-- The inner span-skipping loop of `Overlay::next`: drop the current span
while it ends at or before `start` or is zero-length. -/
def skipSpans (start : Nat) : Option Span → List Span → Option Span × List Span
  | none, sps => (none, sps)
  | some sp, sps =>
    if sp.stop ≤ start ∨ sp.start = sp.stop then
      match sps with
      | [] => (none, [])
      | s :: rest => skipSpans start (some s) rest
    else
      (some sp, sps)

/-- The tail of `Overlay::next` (after the `while` loop): replace
`next_event` by the next base event and emit the old one; at the end of
the base stream a still-open span emits its `HighlightStart` and queues
its full `Source` range and `HighlightEnd`. -/
def overlayFinal (st : OverlayIter) : Option (HighlightEvent × OverlayIter) :=
  match st.next_event with
  | some ev =>
    some (ev, { st with next_event := st.events.head?, events := st.events.tail })
  | none =>
    match st.current_span with
    | none => none
    | some sp =>
      some (HighlightEvent.highlightStart sp.scope,
            { st with
              next_event := st.events.head?, events := st.events.tail,
              current_span := none,
              queue := HighlightEvent.source sp.start sp.stop ::
                       HighlightEvent.highlightEnd :: st.queue })

/-- The covering case of `Overlay::next` (the span starts at or before the
pending source): push `HighlightEnd`, advance the span iterator when the
span has been fully processed (`span.end <= end`), queue the highlighted
`Source` fragment (partitioning off the remainder when `span.end < end`,
otherwise advancing to the next base event), and emit `HighlightStart`
immediately.  `st1.current_span` still holds `sp` here. -/
def overlayCover (st1 : OverlayIter) (sp : Span) (start stop : Nat) :
    HighlightEvent × OverlayIter :=
  let st3 : OverlayIter :=
    if sp.stop ≤ stop then
      { st1 with current_span := st1.spans.head?, spans := st1.spans.tail }
    else st1
  if sp.stop < stop then
    (HighlightEvent.highlightStart sp.scope,
     { st3 with
       next_event := some (HighlightEvent.source sp.stop stop),
       queue := HighlightEvent.source start sp.stop ::
                HighlightEvent.highlightEnd :: st3.queue })
  else
    (HighlightEvent.highlightStart sp.scope,
     { st3 with
       next_event := st3.events.head?, events := st3.events.tail,
       queue := HighlightEvent.source start stop ::
                HighlightEvent.highlightEnd :: st3.queue })

/-- The body of one `while` round of `Overlay::next` for a non-empty
pending `Source { start, stop }`: skip dead spans, then either partition
off an unhighlighted head (the span starts strictly inside), process the
covering span, or fall through to the final branch. -/
def overlayProcessSource (st : OverlayIter) (start stop : Nat) :
    Option (HighlightEvent × OverlayIter) :=
  match skipSpans start st.current_span st.spans with
  | (cur, sps) =>
    let st1 : OverlayIter := { st with current_span := cur, spans := sps }
    match cur with
    | some sp =>
      if sp.start < stop then
        if start < sp.start then
          some (HighlightEvent.source start sp.start,
                { st1 with next_event := some (HighlightEvent.source sp.start stop) })
        else
          some (overlayCover st1 sp start stop)
      else
        overlayFinal st1
    | none => overlayFinal st1

/-- The `while let Some(Source { start, end }) = self.next_event` loop of
`Overlay::next`: zero-length sources are dropped (`continue`); a non-empty
source is processed by `overlayProcessSource`; a non-`Source` or absent
look-ahead falls through to the final branch. -/
def overlayLoop (st : OverlayIter) : Option (HighlightEvent × OverlayIter) :=
  match hn : st.next_event with
  | some (HighlightEvent.source start stop) =>
    if start = stop then
      overlayLoop { st with next_event := st.events.head?, events := st.events.tail }
    else
      overlayProcessSource st start stop
  | _ => overlayFinal st
termination_by st.events.length + (if st.next_event.isSome then 1 else 0)
decreasing_by
  simp only [hn, Option.isSome_some]
  cases hev : st.events with
  | nil => simp [hev]
  | cons e es => simp [hev]

/-- Overlay::next: drain the queue first, then run the main loop. -/
def overlayStep (st : OverlayIter) : Option (HighlightEvent × OverlayIter) :=
  match st.queue with
  | e :: rest => some (e, { st with queue := rest })
  | [] => overlayLoop st

/-- Termination measure component: remaining base events (look-ahead
included). -/
def OverlayIter.sv (st : OverlayIter) : Nat :=
  st.events.length + (if st.next_event.isSome then 1 else 0)

/-- Termination measure component: remaining spans (look-ahead included). -/
def OverlayIter.pv (st : OverlayIter) : Nat :=
  st.spans.length + (if st.current_span.isSome then 1 else 0)

/-- Termination measure component: the char length of the pending source
event (shrinks on each partition). -/
def OverlayIter.rv (st : OverlayIter) : Nat :=
  match st.next_event with
  | some (HighlightEvent.source a b) => b - a
  | _ => 0

/-- Termination measure component: queued events. -/
def OverlayIter.qv (st : OverlayIter) : Nat := st.queue.length

/-- The lexicographic decrease produced by one emitted overlay event. -/
def overlayLess (x y : OverlayIter) : Prop :=
  x.sv + x.pv < y.sv + y.pv ∨
    (x.sv + x.pv = y.sv + y.pv ∧
      (x.rv < y.rv ∨ (x.rv = y.rv ∧ x.qv < y.qv)))

theorem overlayLess_A_le {x y : OverlayIter} (h : overlayLess x y) :
    x.sv + x.pv ≤ y.sv + y.pv := by
  rcases h with h | ⟨h, _⟩
  · exact Nat.le_of_lt h
  · exact Nat.le_of_eq h

theorem skipSpans_le (start : Nat) :
    ∀ (c : Option Span) (s : List Span),
      (skipSpans start c s).2.length +
          (if (skipSpans start c s).1.isSome then 1 else 0) ≤
        s.length + (if c.isSome then 1 else 0) := by
  intro c s
  induction s generalizing c with
  | nil =>
    cases c with
    | none => simp [skipSpans]
    | some sp =>
      by_cases h : sp.stop ≤ start ∨ sp.start = sp.stop <;>
        simp [skipSpans, h]
  | cons x xs ih =>
    cases c with
    | none => simp [skipSpans]
    | some sp =>
      by_cases h : sp.stop ≤ start ∨ sp.start = sp.stop
      · have heq : skipSpans start (some sp) (x :: xs) = skipSpans start (some x) xs := by
          conv_lhs => rw [skipSpans]
          simp [h]
        rw [heq]
        have hih := ih (some x)
        simp only [Option.isSome_some, if_true, List.length_cons] at hih ⊢
        omega
      · simp [skipSpans, h]

theorem overlayFinal_dec {st st' : OverlayIter} {e : HighlightEvent}
    (h : overlayFinal st = some (e, st')) :
    st'.sv + st'.pv < st.sv + st.pv := by
  unfold overlayFinal at h
  cases hne : st.next_event with
  | some ev =>
    simp only [hne] at h
    cases h
    cases hev : st.events <;>
      simp [OverlayIter.sv, OverlayIter.pv, hev, hne]
  | none =>
    simp only [hne] at h
    cases hcs : st.current_span with
    | none => rw [hcs] at h; exact Option.noConfusion h
    | some sp =>
      rw [hcs] at h
      cases h
      cases hev : st.events <;>
        simp [OverlayIter.sv, OverlayIter.pv, hev, hne, hcs]

theorem overlayCover_dec {st1 st' : OverlayIter} {sp : Span} {start stop : Nat}
    {e : HighlightEvent}
    (hcs : st1.current_span = some sp)
    (hne : st1.next_event.isSome = true)
    (h : overlayCover st1 sp start stop = (e, st')) :
    st'.sv + st'.pv < st1.sv + st1.pv := by
  unfold overlayCover at h
  by_cases hadv : sp.stop ≤ stop
  · by_cases hlt : sp.stop < stop
    · rw [if_pos hadv, if_pos hlt] at h
      cases h
      cases hsp : st1.spans <;>
        simp [OverlayIter.sv, OverlayIter.pv, hsp, hcs, hne]
    · rw [if_pos hadv, if_neg hlt] at h
      cases h
      cases hsp : st1.spans <;> cases hev : st1.events <;>
        simp [OverlayIter.sv, OverlayIter.pv, hsp, hev, hcs, hne] <;> omega
  · have hlt : ¬ sp.stop < stop := fun hc => hadv (Nat.le_of_lt hc)
    rw [if_neg hadv, if_neg hlt] at h
    cases h
    cases hev : st1.events <;>
      simp [OverlayIter.sv, OverlayIter.pv, hev, hcs, hne]

theorem overlayProcessSource_dec {st st' : OverlayIter} {e : HighlightEvent}
    {start stop : Nat}
    (hne : st.next_event = some (HighlightEvent.source start stop))
    (h : overlayProcessSource st start stop = some (e, st')) :
    overlayLess st' st := by
  unfold overlayProcessSource at h
  rcases hsk : skipSpans start st.current_span st.spans with ⟨cur, sps⟩
  rw [hsk] at h
  have hskle := skipSpans_le start st.current_span st.spans
  rw [hsk] at hskle
  have hA1 :
      ({ st with current_span := cur, spans := sps } : OverlayIter).sv +
        ({ st with current_span := cur, spans := sps } : OverlayIter).pv ≤
      st.sv + st.pv := by
    simp only [OverlayIter.sv, OverlayIter.pv]
    simp only at hskle
    omega
  cases cur with
  | none =>
    simp only at h
    exact Or.inl (Nat.lt_of_lt_of_le (overlayFinal_dec h) hA1)
  | some sp =>
    simp only at h
    by_cases hc1 : sp.start < stop
    · rw [if_pos hc1] at h
      by_cases hc2 : start < sp.start
      · rw [if_pos hc2] at h
        cases h
        -- still the partition branch: the base/span budget does not grow
        -- and the pending source range strictly shrinks
        have hsk2 : sps.length + 1 ≤
            st.spans.length + (if st.current_span.isSome then 1 else 0) := by
          simpa using hskle
        have hrv : stop - sp.start < stop - start := by omega
        clear hskle hA1
        unfold overlayLess
        simp only [OverlayIter.sv, OverlayIter.pv, OverlayIter.rv, OverlayIter.qv, hne]
        cases hcsv : st.current_span <;>
          simp [hcsv] at hsk2 ⊢ <;> omega
      · rw [if_neg hc2] at h
        rcases hcv : overlayCover { st with current_span := some sp, spans := sps } sp
            start stop with ⟨ecv, stcv⟩
        rw [hcv] at h
        cases h
        have hne2 :
            ({ st with current_span := some sp, spans := sps } : OverlayIter).next_event.isSome
              = true := by
          simp [hne]
        exact Or.inl (Nat.lt_of_lt_of_le (overlayCover_dec rfl hne2 hcv) hA1)
    · rw [if_neg hc1] at h
      exact Or.inl (Nat.lt_of_lt_of_le (overlayFinal_dec h) hA1)

theorem overlayLoop_of_nonsource {st : OverlayIter}
    (h : ∀ a b, st.next_event ≠ some (HighlightEvent.source a b)) :
    overlayLoop st = overlayFinal st := by
  rw [overlayLoop]
  split
  · next start stop heq => exact absurd heq (h start stop)
  · rfl

theorem overlayLoop_eq_source {st : OverlayIter} {a b : Nat}
    (hne : st.next_event = some (HighlightEvent.source a b)) :
    overlayLoop st =
      if a = b then
        overlayLoop { st with next_event := st.events.head?, events := st.events.tail }
      else overlayProcessSource st a b := by
  rw [overlayLoop]
  split
  · next start stop heq =>
    rw [hne] at heq
    injection heq with heq2
    cases heq2
    rfl
  · next hother =>
    exact absurd (hother a b hne) (fun f => f)

theorem overlayLoop_dec :
    ∀ (n : Nat) (st : OverlayIter) (e : HighlightEvent) (st' : OverlayIter),
      st.events.length ≤ n → overlayLoop st = some (e, st') → overlayLess st' st := by
  intro n
  induction n with
  | zero =>
    intro st e st' hlen h
    have hev : st.events = [] := List.eq_nil_of_length_eq_zero (Nat.le_zero.mp hlen)
    cases hne : st.next_event with
    | none =>
      rw [overlayLoop_of_nonsource (by simp [hne])] at h
      exact Or.inl (overlayFinal_dec h)
    | some ev =>
      cases ev with
      | highlightStart s =>
        rw [overlayLoop_of_nonsource (by simp [hne])] at h
        exact Or.inl (overlayFinal_dec h)
      | highlightEnd =>
        rw [overlayLoop_of_nonsource (by simp [hne])] at h
        exact Or.inl (overlayFinal_dec h)
      | source start stop =>
        rw [overlayLoop_eq_source hne] at h
        by_cases hz : start = stop
        · -- zero-length source: one recursion round, after which the
          -- pending event is gone and the final branch decreases strictly
          rw [if_pos hz] at h
          rw [overlayLoop_of_nonsource (by simp [hev])] at h
          have hdec := overlayFinal_dec h
          refine Or.inl (Nat.lt_of_lt_of_le hdec ?_)
          simp [OverlayIter.sv, OverlayIter.pv, hev, hne]
        · rw [if_neg hz] at h
          exact overlayProcessSource_dec hne h
  | succ n ih =>
    intro st e st' hlen h
    cases hne : st.next_event with
    | none =>
      rw [overlayLoop_of_nonsource (by simp [hne])] at h
      exact Or.inl (overlayFinal_dec h)
    | some ev =>
      cases ev with
      | highlightStart s =>
        rw [overlayLoop_of_nonsource (by simp [hne])] at h
        exact Or.inl (overlayFinal_dec h)
      | highlightEnd =>
        rw [overlayLoop_of_nonsource (by simp [hne])] at h
        exact Or.inl (overlayFinal_dec h)
      | source start stop =>
        rw [overlayLoop_eq_source hne] at h
        by_cases hz : start = stop
        · rw [if_pos hz] at h
          have hlen2 :
              ({ st with next_event := st.events.head?,
                         events := st.events.tail } : OverlayIter).events.length ≤ n := by
            cases hev : st.events with
            | nil => simp [hev]
            | cons x xs =>
              rw [hev] at hlen
              simp only [List.length_cons] at hlen
              simp [hev]
              omega
          have hrec := ih _ e st' hlen2 h
          have hA2 :
              ({ st with next_event := st.events.head?,
                         events := st.events.tail } : OverlayIter).sv +
                ({ st with next_event := st.events.head?,
                           events := st.events.tail } : OverlayIter).pv <
              st.sv + st.pv := by
            cases hev : st.events <;>
              simp [OverlayIter.sv, OverlayIter.pv, hev, hne]
          exact Or.inl (Nat.lt_of_le_of_lt (overlayLess_A_le hrec) hA2)
        · rw [if_neg hz] at h
          exact overlayProcessSource_dec hne h

theorem overlayStep_dec {st st' : OverlayIter} {e : HighlightEvent}
    (h : overlayStep st = some (e, st')) : overlayLess st' st := by
  unfold overlayStep at h
  cases hq : st.queue with
  | cons q qs =>
    rw [hq] at h
    cases h
    exact Or.inr ⟨by simp [OverlayIter.sv, OverlayIter.pv],
      Or.inr ⟨by simp [OverlayIter.rv], by simp [OverlayIter.qv, hq]⟩⟩
  | nil =>
    rw [hq] at h
    exact overlayLoop_dec st.events.length st e st' (Nat.le_refl _) h

/-- Run the overlay iterator to exhaustion, collecting the emitted events. -/
def overlayRunAux (st : OverlayIter) : List HighlightEvent :=
  match h : overlayStep st with
  | none => []
  | some (e, st') => e :: overlayRunAux st'
termination_by (st.sv + st.pv, st.rv, st.qv)
decreasing_by
  rcases overlayStep_dec h with hlt | ⟨heq, hlt | ⟨heq2, hlt⟩⟩
  · exact Prod.Lex.left _ _ hlt
  · rw [heq]
    exact Prod.Lex.right _ (Prod.Lex.left _ _ hlt)
  · rw [heq, heq2]
    exact Prod.Lex.right _ (Prod.Lex.right _ hlt)

/-- The full composed stream: `overlay(events, spans)` collected. -/
def overlayRun (events : List HighlightEvent) (spans : List Span) :
    List HighlightEvent :=
  overlayRunAux (overlayInit events spans)

theorem overlayRunAux_step {st st' : OverlayIter} {e : HighlightEvent}
    (h : overlayStep st = some (e, st')) :
    overlayRunAux st = e :: overlayRunAux st' := by
  rw [overlayRunAux]
  split
  · next h2 => rw [h2] at h; exact Option.noConfusion h
  · next e2 st2 h2 =>
    rw [h2] at h
    injection h with h3
    injection h3 with h4 h5
    rw [h4, h5]

theorem overlayRunAux_none {st : OverlayIter} (h : overlayStep st = none) :
    overlayRunAux st = [] := by
  rw [overlayRunAux]
  split
  · rfl
  · next e2 st2 h2 => rw [h2] at h; exact Option.noConfusion h

theorem overlayStep_queue {st : OverlayIter} {e : HighlightEvent}
    {q : List HighlightEvent} (h : st.queue = e :: q) :
    overlayStep st = some (e, { st with queue := q }) := by
  unfold overlayStep
  rw [h]

theorem overlayStep_eval_source {st : OverlayIter} {a b : Nat}
    (hq : st.queue = []) (hne : st.next_event = some (HighlightEvent.source a b))
    (hz : ¬ a = b) : overlayStep st = overlayProcessSource st a b := by
  unfold overlayStep
  rw [hq]
  rw [overlayLoop_eq_source hne, if_neg hz]

theorem overlayStep_eval_nonsource {st : OverlayIter}
    (hq : st.queue = [])
    (h : ∀ a b, st.next_event ≠ some (HighlightEvent.source a b)) :
    overlayStep st = overlayFinal st := by
  unfold overlayStep
  rw [hq]
  rw [overlayLoop_of_nonsource h]


/-- Claim C5: for the base event stream consisting of `Source{0,10}` and the
single overlay span `{start: 3, end: 6, scope: S}`, the overlay composer
yields exactly `Source{0,3}`, `HighlightStart(S)`, `Source{3,6}`,
`HighlightEnd`, `Source{6,10}`, in that order (for every scope `S`). -/
theorem claimC5_overlay_partition_sequence (s : Nat) :
    overlayRun [HighlightEvent.source 0 10] [⟨s, 3, 6⟩] =
      [HighlightEvent.source 0 3, HighlightEvent.highlightStart s,
       HighlightEvent.source 3 6, HighlightEvent.highlightEnd,
       HighlightEvent.source 6 10] := by
  have h0 : overlayStep ⟨[], [], some (HighlightEvent.source 0 10), some ⟨s, 3, 6⟩, []⟩ =
      some (HighlightEvent.source 0 3,
        ⟨[], [], some (HighlightEvent.source 3 10), some ⟨s, 3, 6⟩, []⟩) := by
    rw [overlayStep_eval_source rfl rfl (by decide)]
    rfl
  have h1 : overlayStep ⟨[], [], some (HighlightEvent.source 3 10), some ⟨s, 3, 6⟩, []⟩ =
      some (HighlightEvent.highlightStart s,
        ⟨[], [], some (HighlightEvent.source 6 10), none,
         [HighlightEvent.source 3 6, HighlightEvent.highlightEnd]⟩) := by
    rw [overlayStep_eval_source rfl rfl (by decide)]
    rfl
  have h2 : overlayStep
      (⟨[], [], some (HighlightEvent.source 6 10), none,
        [HighlightEvent.source 3 6, HighlightEvent.highlightEnd]⟩ : OverlayIter) =
      some (HighlightEvent.source 3 6,
        ⟨[], [], some (HighlightEvent.source 6 10), none, [HighlightEvent.highlightEnd]⟩) :=
    overlayStep_queue rfl
  have h3 : overlayStep
      (⟨[], [], some (HighlightEvent.source 6 10), none,
        [HighlightEvent.highlightEnd]⟩ : OverlayIter) =
      some (HighlightEvent.highlightEnd,
        ⟨[], [], some (HighlightEvent.source 6 10), none, []⟩) :=
    overlayStep_queue rfl
  have h4 : overlayStep (⟨[], [], some (HighlightEvent.source 6 10), none, []⟩ : OverlayIter) =
      some (HighlightEvent.source 6 10, ⟨[], [], none, none, []⟩) := by
    rw [overlayStep_eval_source rfl rfl (by decide)]
    rfl
  have h5 : overlayStep (⟨[], [], none, none, []⟩ : OverlayIter) = none := by
    rw [overlayStep_eval_nonsource rfl (by simp)]
    rfl
  show overlayRunAux ⟨[], [], some (HighlightEvent.source 0 10), some ⟨s, 3, 6⟩, []⟩ = _
  rw [overlayRunAux_step h0, overlayRunAux_step h1, overlayRunAux_step h2,
      overlayRunAux_step h3, overlayRunAux_step h4, overlayRunAux_none h5]

/-! ## src/helix-event/src/debounce.rs: send_blocking

The tokio channel is external; its two send primitives are embedded by
their observable results at the call site: `try_send` returns ok, full
(with the message handed back) or closed, and the awaited
`send_timeout(data, 10ms)` returns ok, a timeout error or a closed error.
`send_blocking` itself is embedded faithfully: try-send first; on a full
channel, `block_on(tx.send_timeout(data, 10ms)).unwrap()` — where
`unwrap()` on an error value is a panic. -/

inductive TrySendResult where
  | ok
  | full
  | closed
deriving DecidableEq

inductive SendTimeoutResult where
  | ok
  | timeout
  | closed
deriving DecidableEq

/-- Observable outcome of `send_blocking`: either the caller returns
normally (with the message delivered or not), or the caller panics. -/
inductive SendBlockingOutcome where
  | returned (delivered : Bool)
  | panicked
deriving DecidableEq

/-- send_blocking (src/helix-event/src/debounce.rs lines 55-62): `try_send`
first; only the `Full` error falls back to the blocking
`send_timeout(…, 10 ms)`, whose result is `unwrap()`ed. -/
def send_blocking (tryRes : TrySendResult) (timeoutRes : SendTimeoutResult) :
    SendBlockingOutcome :=
  match tryRes with
  | TrySendResult.ok => SendBlockingOutcome.returned true
  | TrySendResult.closed => SendBlockingOutcome.returned false
  | TrySendResult.full =>
    match timeoutRes with
    | SendTimeoutResult.ok => SendBlockingOutcome.returned true
    | SendTimeoutResult.timeout => SendBlockingOutcome.panicked
    | SendTimeoutResult.closed => SendBlockingOutcome.panicked

/-! ## src/helix-event/src/registry.rs: the hook registry

Rust's `TypeId` is embedded as `Nat`; the type-erased hooks are embedded
over an abstract event payload type `Ev`, each hook carrying an
identifying tag (used only to state theorems about which hooks were
invoked) and a function from the event to the mutated event plus an
optional error.  `dispatch`'s panics (unknown event id, type-identity
mismatch) are embedded as `Except.error`. -/

structure ErasedHook (Ev : Type) where
  tag : Nat
  call : Ev → Ev × Option String

structure Registry (Ev : Type) where
  events : List (String × Nat)
  handlers : List (String × List (ErasedHook Ev))

/-- The hook loop of `Registry::dispatch`: invoke every hook in order with
the (mutated) event, collecting each hook's tag and error result; an
erroring hook is logged (collected) but does not stop the loop. -/
def dispatchHooks {Ev : Type} (hooks : List (ErasedHook Ev)) (event : Ev) :
    Ev × List (Nat × Option String) :=
  match hooks with
  | [] => (event, [])
  | h :: hs =>
    match h.call event with
    | (event2, err) =>
      match dispatchHooks hs event2 with
      | (event3, log) => (event3, (h.tag, err) :: log)

/-- Registry::dispatch: look up the hooks for the event's identifier
(panicking when unknown), read the registered type identity (an indexing
panic when absent), assert it matches the dispatched event's type
identity, then run the hook loop. -/
def Registry.dispatch {Ev : Type} (r : Registry Ev) (id : String) (tyId : Nat)
    (event : Ev) : Except String (Ev × List (Nat × Option String)) :=
  match (r.handlers.lookup id : Option (List (ErasedHook Ev))) with
  | none => Except.error "Unknown event"
  | some hooks =>
    match r.events.lookup id with
    | none => Except.error "no entry found for key"
    | some event_id =>
      if tyId = event_id then
        Except.ok (dispatchHooks hooks event)
      else
        Except.error "Tried to dispatch invalid event"

/-! ## src/helix-vcs/src/differ.rs: the diff worker

`LineDiffs` (a `HashMap<usize, LineDiff>` in the source) is embedded as an
association list written by `insert` (last write wins on lookup); the
`similar` crate's `capture_diff_slices_deadline` is external and is
embedded as an opaque parameter `diffFn` producing the tagged diff
operations that `perform_diff` post-processes; `Arc::try_unwrap` success
(the old snapshot being uniquely owned) is embedded as a boolean input. -/

inductive LineDiff where
  | Added
  | Modified
  | Deleted
deriving DecidableEq

/-- A `DiffOp::as_tag_tuple()` result as consumed by `perform_diff`: the
tag together with the second (document-side) line range. -/
inductive DiffTag where
  | Insert
  | Replace
  | Delete
  | Equal
deriving DecidableEq

structure DiffOp where
  tag : DiffTag
  line_range_start : Nat
  line_range_stop : Nat
deriving DecidableEq

/-- The published / accumulated line-diff map. -/
def LineDiffs : Type := List (Nat × LineDiff)

instance : DecidableEq LineDiffs := by
  unfold LineDiffs
  infer_instance

/-- HashMap::insert, embedded on the association list. -/
def LineDiffs.insert (m : LineDiffs) (line : Nat) (op : LineDiff) : LineDiffs :=
  (line, op) :: m

/-- The worker state that the claims concern: the published snapshot (the
content of the `ArcSwap`) and the accumulator `new_line_diffs`. -/
structure DiffWorker where
  line_diffs : LineDiffs
  new_line_diffs : LineDiffs
deriving DecidableEq

/-- DiffWorker::add_line_diff. -/
def DiffWorker.add_line_diff (w : DiffWorker) (line : Nat) (op : LineDiff) : DiffWorker :=
  { w with new_line_diffs := w.new_line_diffs.insert line op }

/-- The `for op in diff` loop body of `perform_diff`: Insert lines become
`Added`, Replace lines `Modified`, a Delete records `Deleted` at the range
start, Equal is skipped. -/
def applyDiffOp (w : DiffWorker) (op : DiffOp) : DiffWorker :=
  match op.tag with
  | DiffTag.Insert =>
    (List.range (op.line_range_stop - op.line_range_start)).foldl
      (fun w i => w.add_line_diff (op.line_range_start + i) LineDiff.Added) w
  | DiffTag.Replace =>
    (List.range (op.line_range_stop - op.line_range_start)).foldl
      (fun w i => w.add_line_diff (op.line_range_start + i) LineDiff.Modified) w
  | DiffTag.Delete => w.add_line_diff op.line_range_start LineDiff.Deleted
  | DiffTag.Equal => w

/-- MAX_DIFF_LEN from src/helix-vcs/src/differ.rs line 61. -/
def MAX_DIFF_LEN : Nat := 40000

/-- DiffWorker::perform_diff: skip entirely when either side exceeds
`MAX_DIFF_LEN` lines; otherwise run the external diff (`diffFn`, standing
for `capture_diff_slices_deadline` with the Myers algorithm and the 200 ms
deadline) and fold its operations into the accumulator. -/
def DiffWorker.perform_diff {L : Type} (w : DiffWorker)
    (diffFn : List L → List L → List DiffOp)
    (diff_base doc : List L) : DiffWorker :=
  if diff_base.length > MAX_DIFF_LEN ∨ doc.length > MAX_DIFF_LEN then
    w
  else
    (diffFn diff_base doc).foldl applyDiffOp w

/-- DiffWorker::apply_line_diff: `take` the accumulator, swap it into the
snapshot, and when the old snapshot was uniquely owned clear it and keep
its allocation as the next accumulator (a cleared map; otherwise the
`take` already left the default empty map). -/
def DiffWorker.apply_line_diff (w : DiffWorker) (uniquelyOwned : Bool) : DiffWorker :=
  let diff_to_apply := w.new_line_diffs
  let old_line_diff := w.line_diffs
  if uniquelyOwned then
    { line_diffs := diff_to_apply, new_line_diffs := [] }
  else
    { line_diffs := diff_to_apply, new_line_diffs := [] }

/-- One round of the `DiffWorker::run` loop after the updates have been
applied: `perform_diff` then `apply_line_diff` (the source calls them in
exactly this order both before the loop and on every received event). -/
def DiffWorker.round {L : Type} (w : DiffWorker)
    (diffFn : List L → List L → List DiffOp)
    (diff_base doc : List L) (uniquelyOwned : Bool) : DiffWorker :=
  (w.perform_diff diffFn diff_base doc).apply_line_diff uniquelyOwned

/-! ## Claim theorems for the event system and the diff worker -/

/-- Claim C3 (code bug, evaluation of the code at the failing input): the
code does try-send first and falls back to the blocking 10 ms
`send_timeout` only on a full channel, but when that timeout expires the
`unwrap()` panics — the message is not dropped with a normal return, the
caller is aborted, contradicting both the claim and the comment in the
source ("so that we just drop a message instead of freezing the editor"). -/
theorem claimC3_send_blocking_timeout_panics :
    send_blocking TrySendResult.ok SendTimeoutResult.timeout
        = SendBlockingOutcome.returned true ∧
    send_blocking TrySendResult.full SendTimeoutResult.ok
        = SendBlockingOutcome.returned true ∧
    send_blocking TrySendResult.full SendTimeoutResult.timeout
        = SendBlockingOutcome.panicked := by
  exact ⟨rfl, rfl, rfl⟩

/-- Claim C4, counterexample: with a previously published snapshot mapping
line 0 to Modified and a document of 40001 lines, the worker round skips
the diff but still publishes — the published snapshot becomes the empty
map, not the previously published one. -/
theorem claimC4_counterexample :
    (DiffWorker.round ⟨[(0, LineDiff.Modified)], []⟩
        (fun _ _ => ([] : List DiffOp)) [()] (List.replicate 40001 ()) false).line_diffs
      = ([] : LineDiffs) ∧
    ([] : LineDiffs) ≠ [(0, LineDiff.Modified)] := by
  constructor
  · unfold DiffWorker.round DiffWorker.perform_diff
    rw [if_pos]
    · rfl
    · right
      rw [List.length_replicate]
      decide
  · decide

/-- Claim C4 as amended: when either side exceeds `MAX_DIFF_LEN` lines the
diff computation is skipped, but `run` still calls `apply_line_diff`, so
the worker publishes its (empty) accumulator: observers see an empty
line-diff map replacing the previous snapshot (they do not continue to see
the previously published map). -/
theorem claimC4_skip_publishes_empty {L : Type} (w : DiffWorker)
    (diffFn : List L → List L → List DiffOp) (base doc : List L) (uniq : Bool)
    (hskip : base.length > MAX_DIFF_LEN ∨ doc.length > MAX_DIFF_LEN)
    (hacc : w.new_line_diffs = []) :
    (w.round diffFn base doc uniq).line_diffs = ([] : LineDiffs) := by
  unfold DiffWorker.round DiffWorker.perform_diff
  rw [if_pos hskip]
  unfold DiffWorker.apply_line_diff
  cases uniq <;> simp [hacc]

theorem claimC4_skip_publishes_empty_witness :
    (([()] : List Unit).length > MAX_DIFF_LEN ∨
        (List.replicate 40001 ()).length > MAX_DIFF_LEN) ∧
    (DiffWorker.mk [(0, LineDiff.Modified)] []).new_line_diffs = [] ∧
    (DiffWorker.round ⟨[(0, LineDiff.Modified)], []⟩
        (fun _ _ => ([] : List DiffOp)) [()] (List.replicate 40001 ()) false).line_diffs
      = ([] : LineDiffs) :=
  have hskip : (([()] : List Unit).length > MAX_DIFF_LEN ∨
      (List.replicate 40001 ()).length > MAX_DIFF_LEN) :=
    Or.inr (by rw [List.length_replicate]; decide)
  ⟨hskip, rfl,
    claimC4_skip_publishes_empty ⟨[(0, LineDiff.Modified)], []⟩
      (fun _ _ => ([] : List DiffOp)) [()] (List.replicate 40001 ()) false hskip rfl⟩

/-- Claim C10: after every call to `apply_line_diff` the accumulator
`new_line_diffs` is empty (whether or not the old snapshot's allocation
was reclaimed), the published snapshot is exactly the accumulator that was
taken, and hence a full worker round publishes exactly what
`perform_diff` recorded in that round. -/
theorem claimC10_apply_line_diff_resets_accumulator {L : Type} (w : DiffWorker)
    (uniq : Bool) (diffFn : List L → List L → List DiffOp) (base doc : List L) :
    (w.apply_line_diff uniq).new_line_diffs = [] ∧
    (w.apply_line_diff uniq).line_diffs = w.new_line_diffs ∧
    (w.round diffFn base doc uniq).line_diffs =
      (w.perform_diff diffFn base doc).new_line_diffs := by
  refine ⟨?_, ?_, ?_⟩
  · unfold DiffWorker.apply_line_diff
    cases uniq <;> rfl
  · unfold DiffWorker.apply_line_diff
    cases uniq <;> rfl
  · unfold DiffWorker.round DiffWorker.apply_line_diff
    cases uniq <;> rfl

/-- The tags recorded by the dispatch loop are exactly the registered
hooks' tags, in order — erroring hooks do not stop the loop. -/
theorem dispatchHooks_tags {Ev : Type} (hooks : List (ErasedHook Ev)) (event : Ev) :
    (dispatchHooks hooks event).2.map Prod.fst = hooks.map ErasedHook.tag := by
  induction hooks generalizing event with
  | nil => rfl
  | cons h hs ih =>
    rcases hc : h.call event with ⟨event2, err⟩
    rcases hd : dispatchHooks hs event2 with ⟨event3, log⟩
    unfold dispatchHooks
    simp only [hc, hd]
    have hih := ih event2
    rw [hd] at hih
    simpa using hih

/-- Claim C9: dispatching a registered event (identifier present, type
identity matching) succeeds and invokes exactly the registered hooks, each
once, in registration order; an erroring hook is recorded in the log but
does not prevent any subsequent hook from being invoked (the trace always
covers the whole registration list). -/
theorem claimC9_dispatch_in_order {Ev : Type} (r : Registry Ev) (id : String)
    (tyId : Nat) (event : Ev) (hooks : List (ErasedHook Ev))
    (hh : r.handlers.lookup id = some hooks)
    (hty : r.events.lookup id = some tyId) :
    ∃ finalEv log, r.dispatch id tyId event = Except.ok (finalEv, log) ∧
      log.map Prod.fst = hooks.map ErasedHook.tag := by
  unfold Registry.dispatch
  rw [hh, hty]
  rcases hd : dispatchHooks hooks event with ⟨finalEv, log⟩
  refine ⟨finalEv, log, ?_, ?_⟩
  · show (if tyId = tyId then Except.ok (dispatchHooks hooks event)
        else Except.error "Tried to dispatch invalid event") = Except.ok (finalEv, log)
    rw [if_pos rfl, hd]
  · have := dispatchHooks_tags hooks event
    rw [hd] at this
    exact this

theorem claimC9_dispatch_in_order_witness :
    (Registry.mk [("e", 5)]
        [("e", [ErasedHook.mk 1 (fun n => (n + 1, some "boom")),
                ErasedHook.mk 2 (fun n => (n * 2, none))])] : Registry Nat).handlers.lookup "e"
      = some [ErasedHook.mk 1 (fun n => (n + 1, some "boom")),
              ErasedHook.mk 2 (fun n => (n * 2, none))] ∧
    (Registry.mk [("e", 5)]
        [("e", [ErasedHook.mk 1 (fun n => (n + 1, some "boom")),
                ErasedHook.mk 2 (fun n => (n * 2, none))])] : Registry Nat).events.lookup "e"
      = some 5 ∧
    ∃ finalEv log,
      (Registry.mk [("e", 5)]
          [("e", [ErasedHook.mk 1 (fun n => (n + 1, some "boom")),
                  ErasedHook.mk 2 (fun n => (n * 2, none))])] : Registry Nat).dispatch
          "e" 5 0 = Except.ok (finalEv, log) ∧
        log.map Prod.fst =
          [ErasedHook.mk 1 (fun n => (n + 1, some "boom")),
           ErasedHook.mk 2 (fun n => (n * 2, none))].map ErasedHook.tag :=
  ⟨rfl, rfl,
    claimC9_dispatch_in_order
      (Registry.mk [("e", 5)]
        [("e", [ErasedHook.mk 1 (fun n => (n + 1, some "boom")),
                ErasedHook.mk 2 (fun n => (n * 2, none))])])
      "e" 5 0
      [ErasedHook.mk 1 (fun n => (n + 1, some "boom")),
       ErasedHook.mk 2 (fun n => (n * 2, none))]
      rfl rfl⟩

/-! ## Claim theorems for the annotation layers (text_annotations.rs) -/

theorem sorted_getD_mono {keys : List Nat} (hs : List.Sorted (· ≤ ·) keys) :
    ∀ i j, i ≤ j → j < keys.length → keys.getD i 0 ≤ keys.getD j 0 := by
  induction keys with
  | nil =>
    intro i j _ hj
    simp at hj
  | cons x xs ih =>
    rw [List.sorted_cons] at hs
    intro i j hij hj
    cases i with
    | zero =>
      cases j with
      | zero => exact Nat.le_refl _
      | succ j =>
        simp only [List.getD_cons_zero, List.getD_cons_succ]
        have hjlen : j < xs.length := by simpa using hj
        have hmem : xs.getD j 0 ∈ xs := by
          rw [List.getD_eq_get _ _ hjlen]
          exact List.get_mem _ _ _
        exact hs.1 _ hmem
    | succ i =>
      cases j with
      | zero => omega
      | succ j =>
        simp only [List.getD_cons_succ]
        exact ih hs.2 i j (Nat.le_of_succ_le_succ hij) (by simpa using hj)

theorem bsLoop_inl {keys : List Nat} {k : Nat} :
    ∀ (n left right i : Nat), right - left ≤ n →
      bsLoop keys k left right = Sum.inl i →
      left ≤ i ∧ i < right ∧ keys.getD i 0 = k := by
  intro n
  induction n with
  | zero =>
    intro left right i hn h
    rw [bsLoop, dif_neg (by omega)] at h
    exact Sum.noConfusion h
  | succ n ih =>
    intro left right i hn h
    by_cases hlr : left < right
    · rw [bsLoop, dif_pos hlr] at h
      by_cases h1 : keys.getD (left + (right - left) / 2) 0 < k
      · rw [if_pos h1] at h
        have hrec := ih (left + (right - left) / 2 + 1) right i (by omega) h
        exact ⟨by omega, hrec.2.1, hrec.2.2⟩
      · rw [if_neg h1] at h
        by_cases h2 : k < keys.getD (left + (right - left) / 2) 0
        · rw [if_pos h2] at h
          have hrec := ih left (left + (right - left) / 2) i (by omega) h
          exact ⟨hrec.1, by omega, hrec.2.2⟩
        · rw [if_neg h2] at h
          injection h with h3
          refine ⟨by omega, by omega, ?_⟩
          rw [← h3]
          omega
    · rw [bsLoop, dif_neg hlr] at h
      exact Sum.noConfusion h

theorem bsLoop_inr {keys : List Nat} {k : Nat} (hs : List.Sorted (· ≤ ·) keys) :
    ∀ (n left right i : Nat), right - left ≤ n → left ≤ right → right ≤ keys.length →
      bsLoop keys k left right = Sum.inr i →
      left ≤ i ∧ i ≤ right ∧
        (∀ j, left ≤ j → j < i → keys.getD j 0 < k) ∧
        (∀ j, i ≤ j → j < right → k < keys.getD j 0) := by
  intro n
  induction n with
  | zero =>
    intro left right i hn hlr0 hlen h
    rw [bsLoop, dif_neg (by omega)] at h
    injection h with h2
    subst h2
    exact ⟨Nat.le_refl _, hlr0, fun j h1 h2 => by omega, fun j h1 h2 => by omega⟩
  | succ n ih =>
    intro left right i hn hlr0 hlen h
    by_cases hlr : left < right
    · rw [bsLoop, dif_pos hlr] at h
      have hmidlt : left + (right - left) / 2 < right := by omega
      by_cases h1 : keys.getD (left + (right - left) / 2) 0 < k
      · rw [if_pos h1] at h
        have hr := ih (left + (right - left) / 2 + 1) right i (by omega) (by omega) hlen h
        refine ⟨by omega, hr.2.1, ?_, hr.2.2.2⟩
        intro j hj1 hj2
        by_cases hjm : j ≤ left + (right - left) / 2
        · exact Nat.lt_of_le_of_lt
            (sorted_getD_mono hs j (left + (right - left) / 2) hjm (by omega)) h1
        · exact hr.2.2.1 j (by omega) hj2
      · rw [if_neg h1] at h
        by_cases h2 : k < keys.getD (left + (right - left) / 2) 0
        · rw [if_pos h2] at h
          have hr := ih left (left + (right - left) / 2) i (by omega) (by omega) (by omega) h
          refine ⟨hr.1, by omega, hr.2.2.1, ?_⟩
          intro j hj1 hj2
          by_cases hjm : left + (right - left) / 2 ≤ j
          · exact Nat.lt_of_lt_of_le h2
              (sorted_getD_mono hs (left + (right - left) / 2) j hjm (by omega))
          · exact hr.2.2.2 j hj1 (by omega)
        · rw [if_neg h2] at h
          exact Sum.noConfusion h
    · rw [bsLoop, dif_neg hlr] at h
      injection h with h2
      subst h2
      exact ⟨Nat.le_refl _, hlr0, fun j ha hb => by omega, fun j ha hb => by omega⟩

theorem takeWhile_length_eq {p : Nat → Bool} :
    ∀ (keys : List Nat) (i : Nat), i ≤ keys.length →
      (∀ j, j < i → p (keys.getD j 0) = true) →
      (i < keys.length → p (keys.getD i 0) = false) →
      (keys.takeWhile p).length = i := by
  intro keys
  induction keys with
  | nil =>
    intro i hle _ _
    simp at hle
    simp [hle, List.takeWhile]
  | cons x xs ih =>
    intro i hle hall hstop
    cases i with
    | zero =>
      have hx : p x = false := by simpa using hstop (by simp)
      simp [List.takeWhile_cons, hx]
    | succ i =>
      have hx : p x = true := by simpa using hall 0 (Nat.succ_pos _)
      have hrec := ih i (by simpa using hle)
        (fun j hj => by simpa using hall (j + 1) (by omega))
        (fun hi => by simpa using hstop (by simpa using hi))
      simp [List.takeWhile_cons, hx, hrec]

/-- Claim C7, counterexample: with the sorted layer whose annotations sit
at char indices [5, 5, 5], `reset_pos(5)` relocates the cursor to index 1
(the Rust binary search may land anywhere in a run of equal keys), not to
the first annotation with char_idx ≥ 5, which is index 0 — the annotation
at index 0 (char_idx 5 ≥ 5) is skipped by subsequent forward queries. -/
theorem claimC7_counterexample :
    (Layer.reset_pos
        (Layer.mk [(⟨[], 5⟩ : InlineAnnotation), ⟨[], 5⟩, ⟨[], 5⟩] 0 (none : Option Nat)) 5
        (fun a => a.char_idx)).current_index = 1 ∧
    ((⟨[], 5⟩ : InlineAnnotation).char_idx ≥ 5) ∧
    firstGeIndex [5, 5, 5] 5 = 0 ∧
    (1 : Nat) ≠ 0 := by
  refine ⟨?_, by decide, by decide, by decide⟩
  show binarySearchKey [5, 5, 5] 5 = 1
  rw [binarySearchKey, bsLoop]
  norm_num

/-- Claim C7 as amended: on a sorted layer, `reset_pos(k)` relocates the
cursor to an in-range index at which every earlier annotation has
char_idx ≤ k and every later annotation has char_idx ≥ k; when no
annotation's char_idx equals k this is exactly the first annotation with
char_idx ≥ k (so only duplicates equal to k may be skipped). -/
theorem claimC7_reset_pos_partitions {A M : Type} (l : Layer A M) (k : Nat)
    (get : A → Nat)
    (hsorted : List.Sorted (· ≤ ·) (l.annotations.map get)) :
    (l.reset_pos k get).current_index ≤ l.annotations.length ∧
    (∀ j, j < (l.reset_pos k get).current_index →
        (l.annotations.map get).getD j 0 ≤ k) ∧
    (∀ j, (l.reset_pos k get).current_index ≤ j → j < l.annotations.length →
        k ≤ (l.annotations.map get).getD j 0) ∧
    ((∀ j, j < l.annotations.length → (l.annotations.map get).getD j 0 ≠ k) →
      (l.reset_pos k get).current_index = firstGeIndex (l.annotations.map get) k) := by
  have hlen : (l.annotations.map get).length = l.annotations.length := List.length_map _ _
  have hidx : (l.reset_pos k get).current_index =
      binarySearchKey (l.annotations.map get) k := rfl
  rw [hidx]
  rcases hbs : bsLoop (l.annotations.map get) k 0 (l.annotations.map get).length with i | i
  · simp only [binarySearchKey, hbs]
    have hspec := bsLoop_inl (l.annotations.map get).length 0
      (l.annotations.map get).length i (by omega) hbs
    refine ⟨by omega, ?_, ?_, ?_⟩
    · intro j hj
      have := sorted_getD_mono hsorted j i (Nat.le_of_lt hj) (by omega)
      omega
    · intro j hij hjlen
      have := sorted_getD_mono hsorted i j hij (by omega)
      omega
    · intro hnone
      exact absurd hspec.2.2 (hnone i (by omega))
  · simp only [binarySearchKey, hbs]
    have hspec := bsLoop_inr hsorted (l.annotations.map get).length 0
      (l.annotations.map get).length i (by omega) (by omega) (by omega) hbs
    refine ⟨by omega, ?_, ?_, ?_⟩
    · intro j hj
      have := hspec.2.2.1 j (by omega) hj
      omega
    · intro j hij hjlen
      have := hspec.2.2.2 j hij (by omega)
      omega
    · intro _
      unfold firstGeIndex
      refine (takeWhile_length_eq (l.annotations.map get) i (by omega) ?_ ?_).symm
      · intro j hj
        simpa using hspec.2.2.1 j (by omega) hj
      · intro hi
        have := hspec.2.2.2 i (Nat.le_refl _) (by omega)
        simpa using Nat.not_lt.mpr (Nat.le_of_lt this)

/-- Concrete layer for the C7 witness: sorted keys 3, 5, 7. -/
def c7WitnessLayer : Layer InlineAnnotation (Option Nat) :=
  Layer.mk [⟨[], 3⟩, ⟨[], 5⟩, ⟨[], 7⟩] 0 none

theorem claimC7_reset_pos_partitions_witness :
    List.Sorted (· ≤ ·) (c7WitnessLayer.annotations.map (fun a => a.char_idx)) ∧
    ((c7WitnessLayer.reset_pos 5 (fun a => a.char_idx)).current_index ≤
        c7WitnessLayer.annotations.length ∧
      (∀ j, j < (c7WitnessLayer.reset_pos 5 (fun a => a.char_idx)).current_index →
          (c7WitnessLayer.annotations.map (fun a => a.char_idx)).getD j 0 ≤ 5) ∧
      (∀ j, (c7WitnessLayer.reset_pos 5 (fun a => a.char_idx)).current_index ≤ j →
          j < c7WitnessLayer.annotations.length →
          5 ≤ (c7WitnessLayer.annotations.map (fun a => a.char_idx)).getD j 0) ∧
      ((∀ j, j < c7WitnessLayer.annotations.length →
          (c7WitnessLayer.annotations.map (fun a => a.char_idx)).getD j 0 ≠ 5) →
        (c7WitnessLayer.reset_pos 5 (fun a => a.char_idx)).current_index =
          firstGeIndex (c7WitnessLayer.annotations.map (fun a => a.char_idx)) 5)) :=
  ⟨by decide, claimC7_reset_pos_partitions c7WitnessLayer 5 (fun a => a.char_idx) (by decide)⟩

/-! ## C1: a concrete run of the formatter built by new_at_prev_block

Document "a\nbc" with one inline annotation registered at document char
index 2 (the start of the line containing the requested char index).  The
block therefore starts at document char 2 and the slice the formatter
walks is "bc". -/

def c1cw : List Char → Nat := fun _ => 1

def c1config : TextFormat := ⟨false, 4, 0, 0, 0, 80⟩

def c1text : List (List Char) := [['a'], ['\n'], ['b'], ['c']]

/-- The inline annotation layer with its cursor at `ci`: one annotation,
text "X", registered at document char index 2, highlight 7. -/
def c1ann (ci : Nat) : TextAnnotations :=
  ⟨[⟨[⟨[['X']], 2⟩], ci, some 7⟩], [], []⟩

/-- The formatter states the C1 run passes through: remaining clusters,
`char_pos`, visual column, the annotation layer's cursor, the inline
grapheme iterator, and the exhausted flag. -/
def c1mk (gs : List (List Char)) (cp col ci : Nat)
    (iter : Option (List (List Char) × Option Nat)) (ex : Bool) :
    DocumentFormatter :=
  ⟨c1config, c1ann ci, ⟨0, col⟩, gs, cp, 1, ex, 0, iter, none, none, [], 0⟩

/-- C1.  The claim says an inline annotation registered at document char
index p is emitted immediately before the document grapheme at p, also
when the block start is nonzero.  Here the block starts at document char
2 and the annotation is registered exactly there, so it would have to be
emitted first.  Instead the constructed formatter starts `char_pos` at 0
(doc_formatter.rs line 163), so the annotation fires only after two
document graphemes have been consumed: the run emits 'b', 'c', then the
annotation, then the end-of-file sentinel. -/
theorem claimC1_annotation_offset_run :
    (DocumentFormatter.new_at_prev_block c1text c1config (c1ann 0) 2).2 = 2 ∧
    (formatterRun c1cw
      (DocumentFormatter.new_at_prev_block c1text c1config (c1ann 0) 2).1).1 =
      [(⟨Grapheme.other ['b'] 1, none, 1⟩, ⟨0, 0⟩),
       (⟨Grapheme.other ['c'] 1, none, 1⟩, ⟨0, 1⟩),
       (⟨Grapheme.other ['X'] 1, some 7, 0⟩, ⟨0, 2⟩),
       (⟨Grapheme.space, none, 0⟩, ⟨0, 3⟩)] := by
  have hbs : binarySearchKey [2] 2 = 0 := by
    rw [binarySearchKey, bsLoop]
    norm_num
  have hreset : (c1ann 0).reset_pos 2 = c1ann 0 := by
    show (⟨[⟨[⟨[['X']], 2⟩], binarySearchKey [2] 2, some 7⟩], [], []⟩ :
      TextAnnotations) = c1ann 0
    rw [hbs]
    rfl
  have hinit : (DocumentFormatter.new_at_prev_block c1text c1config (c1ann 0) 2).1 =
      c1mk [['b'], ['c']] 0 0 0 none false := by
    show (⟨c1config, (c1ann 0).reset_pos 2, ⟨0, 0⟩, [['b'], ['c']], 0, 1, false, 0,
      none, none, none, [], 0⟩ : DocumentFormatter) = _
    rw [hreset]
    rfl
  have hni1 : nextInlineAnnotationGrapheme (c1mk [['b'], ['c']] 0 0 0 none false) =
      (none, c1mk [['b'], ['c']] 0 0 0 none false) :=
    nextInline_eq_query_none (fun c rest hl2 h => Option.noConfusion h) rfl
  have hadv1 : advanceGrapheme c1cw (c1mk [['b'], ['c']] 0 0 0 none false)
      (c1mk [['b'], ['c']] 0 0 0 none false).visual_pos.col =
      (some ⟨Grapheme.other ['b'] 1, none, 1⟩, c1mk [['c']] 1 0 0 none false) := by
    unfold advanceGrapheme
    rw [hni1]
    rfl
  have hn1 : formatterNext c1cw (c1mk [['b'], ['c']] 0 0 0 none false) =
      (some (⟨Grapheme.other ['b'] 1, none, 1⟩, ⟨0, 0⟩),
       c1mk [['c']] 1 1 0 none false) := by
    rw [formatterNext, if_neg (by decide), hadv1]
    rfl
  have hni2 : nextInlineAnnotationGrapheme (c1mk [['c']] 1 1 0 none false) =
      (none, c1mk [['c']] 1 1 0 none false) :=
    nextInline_eq_query_none (fun c rest hl2 h => Option.noConfusion h) rfl
  have hadv2 : advanceGrapheme c1cw (c1mk [['c']] 1 1 0 none false)
      (c1mk [['c']] 1 1 0 none false).visual_pos.col =
      (some ⟨Grapheme.other ['c'] 1, none, 1⟩, c1mk [] 2 1 0 none false) := by
    unfold advanceGrapheme
    rw [hni2]
    rfl
  have hn2 : formatterNext c1cw (c1mk [['c']] 1 1 0 none false) =
      (some (⟨Grapheme.other ['c'] 1, none, 1⟩, ⟨0, 1⟩),
       c1mk [] 2 2 0 none false) := by
    rw [formatterNext, if_neg (by decide), hadv2]
    rfl
  have hq3 : nextInlineAnnotationAt
      (c1mk [] 2 2 0 none false).annotations.inline_annotations
      (c1mk [] 2 2 0 none false).char_pos =
      (some (⟨[['X']], 2⟩, some 7),
       ([⟨[⟨[['X']], 2⟩], 1, some 7⟩] :
         List (Layer InlineAnnotation (Option Nat)))) := rfl
  have hni3 : nextInlineAnnotationGrapheme (c1mk [] 2 2 0 none false) =
      (some (['X'], some 7), c1mk [] 2 2 1 (some ([], some 7)) false) := by
    rw [nextInline_eq_query_some (fun c rest hl2 h => Option.noConfusion h) hq3,
      nextInline_eq_cons rfl]
    rfl
  have hadv3 : advanceGrapheme c1cw (c1mk [] 2 2 0 none false)
      (c1mk [] 2 2 0 none false).visual_pos.col =
      (some ⟨Grapheme.other ['X'] 1, some 7, 0⟩,
       c1mk [] 2 2 1 (some ([], some 7)) false) := by
    unfold advanceGrapheme
    rw [hni3]
    rfl
  have hn3 : formatterNext c1cw (c1mk [] 2 2 0 none false) =
      (some (⟨Grapheme.other ['X'] 1, some 7, 0⟩, ⟨0, 2⟩),
       c1mk [] 2 3 1 (some ([], some 7)) false) := by
    rw [formatterNext, if_neg (by decide), hadv3]
    rfl
  have hiter4 : ∀ (c : List Char) (rest : List (List Char)) (hl2 : Option Nat),
      (c1mk [] 2 3 1 (some ([], some 7)) false).inline_annotation_graphemes ≠
        some (c :: rest, hl2) := by
    intro c rest hl2 h
    injection h with h1
    injection h1 with h2 h3
    exact List.noConfusion h2
  have hni4 : nextInlineAnnotationGrapheme (c1mk [] 2 3 1 (some ([], some 7)) false) =
      (none, c1mk [] 2 3 1 (some ([], some 7)) false) :=
    nextInline_eq_query_none hiter4 rfl
  have hadv4 : advanceGrapheme c1cw (c1mk [] 2 3 1 (some ([], some 7)) false)
      (c1mk [] 2 3 1 (some ([], some 7)) false).visual_pos.col =
      (some ⟨Grapheme.space, none, 0⟩, c1mk [] 2 3 1 (some ([], some 7)) true) := by
    unfold advanceGrapheme
    rw [hni4]
    rfl
  have hn4 : formatterNext c1cw (c1mk [] 2 3 1 (some ([], some 7)) false) =
      (some (⟨Grapheme.space, none, 0⟩, ⟨0, 3⟩),
       c1mk [] 2 4 1 (some ([], some 7)) true) := by
    rw [formatterNext, if_neg (by decide), hadv4]
    rfl
  have hiter5 : ∀ (c : List Char) (rest : List (List Char)) (hl2 : Option Nat),
      (c1mk [] 2 4 1 (some ([], some 7)) true).inline_annotation_graphemes ≠
        some (c :: rest, hl2) := by
    intro c rest hl2 h
    injection h with h1
    injection h1 with h2 h3
    exact List.noConfusion h2
  have hni5 : nextInlineAnnotationGrapheme (c1mk [] 2 4 1 (some ([], some 7)) true) =
      (none, c1mk [] 2 4 1 (some ([], some 7)) true) :=
    nextInline_eq_query_none hiter5 rfl
  have hadv5 : advanceGrapheme c1cw (c1mk [] 2 4 1 (some ([], some 7)) true)
      (c1mk [] 2 4 1 (some ([], some 7)) true).visual_pos.col =
      (none, c1mk [] 2 4 1 (some ([], some 7)) true) := by
    unfold advanceGrapheme
    rw [hni5]
    rfl
  have hn5 : formatterNext c1cw (c1mk [] 2 4 1 (some ([], some 7)) true) =
      (none, c1mk [] 2 4 1 (some ([], some 7)) true) := by
    rw [formatterNext, if_neg (by decide), hadv5]
  refine ⟨rfl, ?_⟩
  rw [hinit, formatterRun_step hn1, formatterRun_step hn2, formatterRun_step hn3,
    formatterRun_step hn4, formatterRun_none hn5]

/-! ## C2: soft-wrap column bounds

A counterexample run with `wrap_indent` larger than the viewport, and the
general bound under the clamp the upstream configuration enforces. -/

def c2cw : List Char → Nat := fun _ => 1

/-- soft_wrap on, tab 1, max_wrap 0, max_indent_retain 0, wrap_indent 5,
viewport_width 1. -/
def c2config : TextFormat := ⟨true, 1, 0, 0, 5, 1⟩

def c2mk (gs : List (List Char)) (pos : Position) (cp : Nat) (ex : Bool)
    (ind : Option Nat) (buf : List FormattedGrapheme) (wi : Nat) :
    DocumentFormatter :=
  ⟨c2config, ⟨[], [], []⟩, pos, gs, cp, 0, ex, 0, none, ind, none, buf, wi⟩

def c2gA : FormattedGrapheme := ⟨Grapheme.other ['a'] 1, none, 1⟩

def c2gS : FormattedGrapheme := ⟨Grapheme.space, none, 0⟩

def c2s0 : DocumentFormatter := c2mk [['a']] ⟨0, 0⟩ 0 false none [] 0

def c2s1 : DocumentFormatter := c2mk [] ⟨0, 1⟩ 1 false (some 0) [c2gA] 1

def c2s2 : DocumentFormatter := c2mk [] ⟨1, 6⟩ 1 true (some 0) [c2gS] 1

/-- C2 (counterexample).  The claim bounds every emitted column by
`viewport_width` except for a single over-wide grapheme at the start of a
visual line.  On the document "a" with `wrap_indent = 5` and
`viewport_width = 1`, the run emits the end-of-file sentinel at column 5:
its width (1) does not exceed the viewport, so the claimed exception does
not cover it, yet its column exceeds the viewport. -/
theorem claimC2_counterexample :
    (DocumentFormatter.new_at_prev_block [['a']] c2config ⟨[], [], []⟩ 0).1 = c2s0 ∧
    (formatterRun c2cw c2s0).1 = [(c2gA, ⟨0, 0⟩), (c2gS, ⟨1, 5⟩)] ∧
    c2gS.width ≤ c2config.viewport_width ∧
    c2config.viewport_width < 5 := by
  have hniP1 : nextInlineAnnotationGrapheme
      (wrapIfNeeded { c2s0 with word_buf := [] } 0 c2s0.virtual_lines) =
      (none, wrapIfNeeded { c2s0 with word_buf := [] } 0 c2s0.virtual_lines) :=
    nextInline_eq_query_none (fun c rest hl2 h => Option.noConfusion h) rfl
  have hpull1 : pullGrapheme c2cw
      (wrapIfNeeded { c2s0 with word_buf := [] } 0 c2s0.virtual_lines) 0 =
      (some c2gA, c2mk [] ⟨0, 0⟩ 1 false none [] 0) := by
    unfold pullGrapheme advanceGrapheme
    rw [hniP1]
    rfl
  have hA1 : advanceToNextWord c2cw c2s0 =
      c2mk [] ⟨0, 0⟩ 1 false (some 0) [c2gA] 0 := by
    unfold advanceToNextWord
    rw [advanceWordLoop_eq_other (by decide) hpull1 rfl]
    rw [advanceWordLoop_eq_keep (by decide) (by decide)]
    rfl
  have hn1 : formatterNext c2cw c2s0 = (some (c2gA, ⟨0, 0⟩), c2s1) := by
    rw [formatterNext, if_pos (by decide),
      if_pos (by decide : c2s0.word_i ≥ c2s0.word_buf.length), hA1]
    rfl
  have hniP2 : nextInlineAnnotationGrapheme
      (wrapIfNeeded { c2s1 with word_buf := [] } 0 c2s1.virtual_lines) =
      (none, wrapIfNeeded { c2s1 with word_buf := [] } 0 c2s1.virtual_lines) :=
    nextInline_eq_query_none (fun c rest hl2 h => Option.noConfusion h) rfl
  have hpull2 : pullGrapheme c2cw
      (wrapIfNeeded { c2s1 with word_buf := [] } 0 c2s1.virtual_lines) 0 =
      (some c2gS, c2mk [] ⟨1, 5⟩ 1 true (some 0) [] 1) := by
    unfold pullGrapheme advanceGrapheme
    rw [hniP2]
    rfl
  have hA2 : advanceToNextWord c2cw c2s1 =
      c2mk [] ⟨1, 5⟩ 1 true (some 0) [c2gS] 1 := by
    unfold advanceToNextWord
    rw [advanceWordLoop_eq_space (by decide) hpull2 rfl]
    rfl
  have hn2 : formatterNext c2cw c2s1 = (some (c2gS, ⟨1, 5⟩), c2s2) := by
    rw [formatterNext, if_pos (by decide),
      if_pos (by decide : c2s1.word_i ≥ c2s1.word_buf.length), hA2]
    rfl
  have hniP3 : nextInlineAnnotationGrapheme
      (wrapIfNeeded { c2s2 with word_buf := [] } 0 c2s2.virtual_lines) =
      (none, wrapIfNeeded { c2s2 with word_buf := [] } 0 c2s2.virtual_lines) :=
    nextInline_eq_query_none (fun c rest hl2 h => Option.noConfusion h) rfl
  have hpull3 : pullGrapheme c2cw
      (wrapIfNeeded { c2s2 with word_buf := [] } 0 c2s2.virtual_lines) 0 =
      (none, c2mk [] ⟨2, 5⟩ 1 true (some 0) [] 1) := by
    unfold pullGrapheme advanceGrapheme
    rw [hniP3]
    rfl
  have hA3 : advanceToNextWord c2cw c2s2 =
      c2mk [] ⟨2, 5⟩ 1 true (some 0) [] 1 := by
    unfold advanceToNextWord
    rw [advanceWordLoop_eq_none (by decide) hpull3]
  have hn3 : formatterNext c2cw c2s2 =
      (none, c2mk [] ⟨2, 5⟩ 1 true (some 0) [] 0) := by
    rw [formatterNext, if_pos (by decide),
      if_pos (by decide : c2s2.word_i ≥ c2s2.word_buf.length), hA3]
    rfl
  refine ⟨by decide, ?_, by decide, by decide⟩
  rw [formatterRun_step hn1, formatterRun_step hn2, formatterRun_none hn3]

/-- The property C2 claims (with its exception removed): every emission
of a full run keeps its column at or below the viewport width. -/
def colsBounded (cwidth : List Char → Nat) (st : DocumentFormatter) : Prop :=
  ∀ e ∈ (formatterRun cwidth st).1, e.2.col ≤ st.config.viewport_width

/-- C2 (amended).  Under soft-wrap, when the configuration satisfies the
clamp `max_indent_retain + wrap_indent + max_wrap < viewport_width` (the
upstream config builder enforces it), every `(grapheme, pos)` the
formatter emits from a `new_at_prev_block` start has
`pos.col ≤ viewport_width`, with no exception. -/
theorem claimC2_softwrap_column_bound (cwidth : List Char → Nat)
    (text : List (List Char)) (config : TextFormat)
    (annotations : TextAnnotations) (char_idx : Nat)
    (hsw : config.soft_wrap = true)
    (hclamp : config.max_indent_retain + config.wrap_indent + config.max_wrap <
      config.viewport_width) :
    colsBounded cwidth
      (DocumentFormatter.new_at_prev_block text config annotations char_idx).1 := by
  intro e he
  refine Nat.le_of_lt (formatterRun_cols cwidth
    (DocumentFormatter.new_at_prev_block text config annotations char_idx).1
    hsw hclamp ?_ ?_ e he)
  · intro j hj
    exact absurd hj (Nat.not_lt_zero j)
  · intro j hj
    exact absurd hj (Nat.not_lt_zero (j + 1))

theorem claimC2_softwrap_column_bound_witness :
    colsBounded (fun _ => 1)
      (DocumentFormatter.new_at_prev_block [['a'], [' '], ['b']]
        ⟨true, 1, 0, 0, 0, 2⟩ ⟨[], [], []⟩ 0).1 :=
  claimC2_softwrap_column_bound (fun _ => 1) [['a'], [' '], ['b']]
    ⟨true, 1, 0, 0, 0, 2⟩ ⟨[], [], []⟩ 0 rfl (by decide)

/-! ## C8: the end-of-file sentinel

A counterexample configuration under which the split-and-pop branch of
the word loop empties the buffer and the iterator ends with no sentinel
at all, and the amended guarantee without soft-wrap. -/

def c8cw : List Char → Nat := fun _ => 2

/-- soft_wrap on, tab 1, max_wrap 1, max_indent_retain 0, wrap_indent 0,
viewport_width 1. -/
def c8config : TextFormat := ⟨true, 1, 1, 0, 0, 1⟩

def c8s0 : DocumentFormatter :=
  ⟨c8config, ⟨[], [], []⟩, ⟨0, 0⟩, [['w']], 0, 0, false, 0, none, none, none, [], 0⟩

def c8gW : FormattedGrapheme := ⟨Grapheme.other ['w'] 2, none, 1⟩

/-- C8 (counterexample).  The claim promises exactly one end-of-file
sentinel for every input text and configuration.  On the document "w"
whose single cluster is two columns wide, with `viewport_width = 1` and
`max_wrap = 1` under soft-wrap, the word loop's split branch pops the
only element of the word buffer, `next()` immediately returns `None`,
and the run emits nothing — no sentinel ever appears. -/
theorem claimC8_counterexample :
    (DocumentFormatter.new_at_prev_block [['w']] c8config ⟨[], [], []⟩ 0).1 = c8s0 ∧
    (formatterRun c8cw c8s0).1 = [] := by
  have hniP : nextInlineAnnotationGrapheme
      (wrapIfNeeded { c8s0 with word_buf := [] } 0 c8s0.virtual_lines) =
      (none, wrapIfNeeded { c8s0 with word_buf := [] } 0 c8s0.virtual_lines) :=
    nextInline_eq_query_none (fun c rest hl2 h => Option.noConfusion h) rfl
  have hpull : pullGrapheme c8cw
      (wrapIfNeeded { c8s0 with word_buf := [] } 0 c8s0.virtual_lines) 0 =
      (some c8gW,
       ⟨c8config, ⟨[], [], []⟩, ⟨0, 0⟩, [], 1, 0, false, 0, none, none, none,
        [], 0⟩) := by
    unfold pullGrapheme advanceGrapheme
    rw [hniP]
    rfl
  have hA : advanceToNextWord c8cw c8s0 =
      ⟨c8config, ⟨[], [], []⟩, ⟨0, 0⟩, [], 1, 0, false, 0, none, some 0,
       some (c8gW, 0), [], 0⟩ := by
    unfold advanceToNextWord
    rw [advanceWordLoop_eq_other (by decide) hpull rfl]
    rw [advanceWordLoop_eq_split (by decide) (by decide)]
    rfl
  have hn : formatterNext c8cw c8s0 =
      (none,
       ⟨c8config, ⟨[], [], []⟩, ⟨0, 0⟩, [], 1, 0, false, 0, none, some 0,
        some (c8gW, 0), [], 0⟩) := by
    rw [formatterNext, if_pos (by decide),
      if_pos (by decide : c8s0.word_i ≥ c8s0.word_buf.length), hA]
    rfl
  exact ⟨by decide, by rw [formatterRun_none hn]⟩

theorem formatterEmit_inv (st : DocumentFormatter) (g : FormattedGrapheme) :
    (formatterEmit st g).2.config = st.config ∧
    (formatterEmit st g).2.annotations = st.annotations ∧
    (formatterEmit st g).2.graphemes = st.graphemes ∧
    (formatterEmit st g).2.exhausted = st.exhausted ∧
    (formatterEmit st g).2.inline_annotation_graphemes =
      st.inline_annotation_graphemes := by
  unfold formatterEmit
  split <;> exact ⟨rfl, rfl, rfl, rfl, rfl⟩

/-- A formatter state that can never emit again: not soft-wrapping, no
inline annotation layers, no pending annotation clusters, no document
clusters, and the end-of-file sentinel already produced. -/
def c8Dead (st : DocumentFormatter) : Prop :=
  st.config.soft_wrap = false ∧
  st.annotations.inline_annotations = [] ∧
  st.inline_annotation_graphemes = none ∧
  st.graphemes = [] ∧
  st.exhausted = true

/-- A non-soft-wrap state with no inline annotation layers, nonempty
remaining clusters only, and the sentinel still to come. -/
def c8Live (st : DocumentFormatter) : Prop :=
  st.config.soft_wrap = false ∧
  st.annotations.inline_annotations = [] ∧
  st.inline_annotation_graphemes = none ∧
  (∀ c ∈ st.graphemes, c ≠ []) ∧
  st.exhausted = false

theorem c8Dead_next (cwidth : List Char → Nat) {st : DocumentFormatter}
    (h : c8Dead st) :
    (formatterNext cwidth st).1 = none ∧ c8Dead (formatterNext cwidth st).2 := by
  obtain ⟨hsw, hl, hi, hg, hx⟩ := h
  have hne : ∀ (c : List Char) (rest : List (List Char)) (hl2 : Option Nat),
      st.inline_annotation_graphemes ≠ some (c :: rest, hl2) := by
    intro c rest hl2 hh
    rw [hi] at hh
    exact Option.noConfusion hh
  have hq : nextInlineAnnotationAt st.annotations.inline_annotations st.char_pos =
      (none, []) := by
    rw [hl]
    rfl
  have hni := nextInline_eq_query_none hne hq
  have hadv : advanceGrapheme cwidth st st.visual_pos.col =
      (none,
       { st with annotations :=
          { st.annotations with inline_annotations := [] } }) := by
    unfold advanceGrapheme
    rw [hni]
    simp only [hg, hx]
    rfl
  constructor
  · rw [formatterNext, if_neg (by rw [hsw]; decide), hadv]
  · rw [formatterNext, if_neg (by rw [hsw]; decide), hadv]
    exact ⟨hsw, rfl, hi, hg, hx⟩

theorem c8Dead_iterate (cwidth : List Char → Nat) {st : DocumentFormatter}
    (h : c8Dead st) (n : Nat) :
    c8Dead ((fun s => (formatterNext cwidth s).2)^[n] st) := by
  induction n with
  | zero => exact h
  | succ n ih =>
    rw [Function.iterate_succ_apply']
    exact (c8Dead_next cwidth ih).2

/-- The cluster the `advance_grapheme` step displays at a document char:
the overlay's replacement when one matched, else the document's own. -/
def overlayCluster (ov : Option (OverlayAnn × Option Nat))
    (cluster : List Char) : List Char :=
  match ov with
  | some (o, _) => o.grapheme
  | none => cluster

theorem c8Live_step (cwidth : List Char → Nat) {st : DocumentFormatter}
    (h : c8Live st) :
    ∃ e st2, formatterNext cwidth st = (some e, st2) ∧
      ((e.1.doc_chars ≠ 0 ∧ c8Live st2) ∨
       (e = ((⟨Grapheme.space, none, 0⟩ : FormattedGrapheme), st.visual_pos) ∧
        c8Dead st2)) := by
  obtain ⟨hsw, hl, hi, hg, hx⟩ := h
  have hne : ∀ (c : List Char) (rest : List (List Char)) (hl2 : Option Nat),
      st.inline_annotation_graphemes ≠ some (c :: rest, hl2) := by
    intro c rest hl2 hh
    rw [hi] at hh
    exact Option.noConfusion hh
  have hq : nextInlineAnnotationAt st.annotations.inline_annotations st.char_pos =
      (none, []) := by
    rw [hl]
    rfl
  have hni := nextInline_eq_query_none hne hq
  cases hgr : st.graphemes with
  | nil =>
    have hadv : advanceGrapheme cwidth st st.visual_pos.col =
        (some ⟨Grapheme.space, none, 0⟩,
         { st with
           annotations := { st.annotations with inline_annotations := [] },
           exhausted := true }) := by
      unfold advanceGrapheme
      rw [hni]
      simp only [hgr, hx]
      rfl
    refine ⟨(⟨Grapheme.space, none, 0⟩, st.visual_pos),
      { st with
        annotations := { st.annotations with inline_annotations := [] },
        exhausted := true,
        visual_pos := ⟨st.visual_pos.row, st.visual_pos.col + 1⟩ }, ?_, ?_⟩
    · rw [formatterNext, if_neg (by rw [hsw]; decide), hadv]
      rfl
    · exact Or.inr ⟨rfl, hsw, rfl, hi, hgr, rfl⟩
  | cons c rest =>
    rcases hla : annotationLinesAt st.annotations.line_annotations st.char_pos
      with ⟨lines, ll⟩
    rcases hov : overlayAt st.annotations.overlays st.char_pos with ⟨ov, ovl⟩
    have hadv : advanceGrapheme cwidth st st.visual_pos.col =
        (some (FormattedGrapheme.new cwidth
            (overlayCluster ov c)
            none st.visual_pos.col st.config.tab_width c.length),
         { st with
           annotations := { st.annotations with inline_annotations := [], line_annotations := ll, overlays := ovl },
           graphemes := rest,
           virtual_lines := st.virtual_lines + lines,
           char_pos := st.char_pos + c.length }) := by
      unfold advanceGrapheme
      rw [hni]
      simp only [hgr, hla, hov]
      cases ov with
      | none => rfl
      | some p => rfl
    rcases he : formatterEmit
        { st with
          annotations := { st.annotations with inline_annotations := [], line_annotations := ll, overlays := ovl },
          graphemes := rest,
          virtual_lines := st.virtual_lines + lines,
          char_pos := st.char_pos + c.length }
        (FormattedGrapheme.new cwidth
          (overlayCluster ov c)
          none st.visual_pos.col st.config.tab_width c.length)
      with ⟨e0, st3⟩
    have hnx : formatterNext cwidth st = (some e0, st3) := by
      rw [formatterNext, if_neg (by rw [hsw]; decide), hadv]
      simp only [he]
    have hc : c ≠ [] := hg c (by rw [hgr]; exact List.mem_cons_self c rest)
    have hf := (formatterEmit_fields
      { st with
        annotations := { st.annotations with inline_annotations := [], line_annotations := ll, overlays := ovl },
        graphemes := rest,
        virtual_lines := st.virtual_lines + lines,
        char_pos := st.char_pos + c.length }
      (FormattedGrapheme.new cwidth (overlayCluster ov c)
        none st.visual_pos.col st.config.tab_width c.length)).2.2.2.2
    rw [he] at hf
    simp only at hf
    have hfi := formatterEmit_inv
      { st with
        annotations := { st.annotations with inline_annotations := [], line_annotations := ll, overlays := ovl },
        graphemes := rest,
        virtual_lines := st.virtual_lines + lines,
        char_pos := st.char_pos + c.length }
      (FormattedGrapheme.new cwidth
        (overlayCluster ov c)
        none st.visual_pos.col st.config.tab_width c.length)
    rw [he] at hfi
    simp only at hfi
    refine ⟨e0, st3, hnx, Or.inl ⟨?_, ?_, ?_, ?_, ?_, ?_⟩⟩
    · rw [hf]
      show c.length ≠ 0
      exact fun h0 => hc (List.length_eq_zero.mp h0)
    · rw [hfi.1]
      exact hsw
    · rw [hfi.2.1]
    · rw [hfi.2.2.2.2]
      exact hi
    · rw [hfi.2.2.1]
      intro c2 hc2
      exact hg c2 (by rw [hgr]; exact List.mem_cons_of_mem c hc2)
    · rw [hfi.2.2.2.1]
      exact hx

theorem c8_run (cwidth : List Char → Nat) (st : DocumentFormatter) :
    c8Live st →
    ∃ pre pos stF,
      formatterRun cwidth st =
        (pre ++ [((⟨Grapheme.space, none, 0⟩ : FormattedGrapheme), pos)], stF) ∧
      (∀ e ∈ pre, e.1.doc_chars ≠ 0) ∧ c8Dead stF := by
  induction st using formatterRun.induct cwidth with
  | case1 st st2 hr =>
    intro h
    obtain ⟨e, st2', hnx, _⟩ := c8Live_step cwidth h
    rw [hr] at hnx
    exact absurd (Prod.mk.injEq _ _ _ _ ▸ hnx).1 (by simp)
  | case2 st e st2 hr es stF hrun ih =>
    intro h
    obtain ⟨e', st2', hnx, hcase⟩ := c8Live_step cwidth h
    rw [hr] at hnx
    have he' : e = e' := by
      have h1 := (Prod.mk.injEq _ _ _ _ ▸ hnx).1
      injection h1
    have hst2 : st2 = st2' := (Prod.mk.injEq _ _ _ _ ▸ hnx).2
    rcases hcase with ⟨hd, hlive⟩ | ⟨heq, hdead⟩
    · obtain ⟨pre, pos, stF2, hrn, hpre, hdead2⟩ := ih (hst2 ▸ hlive)
      refine ⟨e :: pre, pos, stF2, ?_, ?_, hdead2⟩
      · rw [formatterRun_step hr, hrn]
        rfl
      · intro x hx
        rcases List.mem_cons.mp hx with h1 | h2
        · rw [h1, he']
          exact hd
        · exact hpre x h2
    · rcases hn2 : formatterNext cwidth st2 with ⟨r2, st3⟩
      have hdn := c8Dead_next cwidth (hst2 ▸ hdead)
      rw [hn2] at hdn
      simp only at hdn
      rw [hdn.1] at hn2
      refine ⟨[], st.visual_pos, st3, ?_, ?_, hdn.2⟩
      · rw [formatterRun_step hr, formatterRun_none hn2, he', heq]
        rfl
      · intro x hx
        simp at hx

theorem dropChars_ne_nil :
    ∀ (text : List (List Char)), (∀ c ∈ text, c ≠ []) →
    ∀ n, ∀ c ∈ dropChars text n, c ≠ [] := by
  intro text
  induction text with
  | nil =>
    intro _ n c hc
    cases n <;> simp [dropChars] at hc
  | cons a t ih =>
    intro h n c hc
    cases n with
    | zero =>
      exact h c hc
    | succ n =>
      rw [show dropChars (a :: t) (n + 1) =
          if a.length ≤ n + 1 then dropChars t (n + 1 - a.length)
          else a.drop (n + 1) :: t from rfl] at hc
      by_cases hlen : a.length ≤ n + 1
      · rw [if_pos hlen] at hc
        exact ih (fun c2 h2 => h c2 (List.mem_cons_of_mem a h2)) _ c hc
      · rw [if_neg hlen] at hc
        rcases List.mem_cons.mp hc with h1 | h2
        · rw [h1]
          intro hnil
          have hlen2 := congrArg List.length hnil
          rw [List.length_drop] at hlen2
          simp at hlen2
          omega
        · exact h c (List.mem_cons_of_mem a h2)

/-- The property C8 claims: the run ends with exactly one end-of-file
sentinel `Grapheme::Space` carrying no highlight and zero document chars
(preceded only by emissions consuming document chars), and every call
past the end of the run keeps returning `None`. -/
def sentinelOnceThenNone (cwidth : List Char → Nat) (st : DocumentFormatter) :
    Prop :=
  ∃ pre pos stF,
    formatterRun cwidth st =
      (pre ++ [((⟨Grapheme.space, none, 0⟩ : FormattedGrapheme), pos)], stF) ∧
    (∀ e ∈ pre, e.1.doc_chars ≠ 0) ∧
    ∀ n : Nat,
      (formatterNext cwidth ((fun s => (formatterNext cwidth s).2)^[n] stF)).1 =
        none

/-- C8 (amended).  The claim's guarantee does hold outside soft-wrap:
from any `new_at_prev_block` start with `soft_wrap` off, no inline
annotation layers, and nonempty clusters, the run is some emissions each
consuming at least one document char, then exactly one end-of-file
sentinel `Grapheme::Space` with `doc_chars = 0` and no highlight, and
every further call to `next()` returns `None`. -/
theorem claimC8_eof_sentinel (cwidth : List Char → Nat)
    (text : List (List Char)) (config : TextFormat)
    (annotations : TextAnnotations) (char_idx : Nat)
    (hsw : config.soft_wrap = false)
    (hinline : annotations.inline_annotations = [])
    (hnil : ∀ c ∈ text, c ≠ []) :
    sentinelOnceThenNone cwidth
      (DocumentFormatter.new_at_prev_block text config annotations char_idx).1 := by
  have hresetinline :
      ((DocumentFormatter.new_at_prev_block text config annotations
        char_idx).1).annotations.inline_annotations = [] := by
    show (TextAnnotations.reset_pos annotations _).inline_annotations = []
    unfold TextAnnotations.reset_pos
    rw [hinline]
    rfl
  have hlive : c8Live
      (DocumentFormatter.new_at_prev_block text config annotations char_idx).1 :=
    ⟨hsw, hresetinline, rfl, fun c hc => dropChars_ne_nil text hnil _ c hc, rfl⟩
  obtain ⟨pre, pos, stF, hrun, hpre, hdead⟩ := c8_run cwidth _ hlive
  exact ⟨pre, pos, stF, hrun, hpre,
    fun n => (c8Dead_next cwidth (c8Dead_iterate cwidth hdead n)).1⟩

theorem claimC8_eof_sentinel_witness :
    sentinelOnceThenNone (fun _ => 1)
      (DocumentFormatter.new_at_prev_block [['a']] ⟨false, 1, 0, 0, 0, 80⟩
        ⟨[], [], []⟩ 0).1 :=
  claimC8_eof_sentinel (fun _ => 1) [['a']] ⟨false, 1, 0, 0, 0, 80⟩
    ⟨[], [], []⟩ 0 rfl rfl (by decide)

/-! ## C6: balance and source coverage of the overlay output -/

/-- Whether a highlight event's `Source` range covers the char `x`. -/
def evCov (x : Nat) : HighlightEvent → Bool
  | HighlightEvent.source a b => decide (a ≤ x ∧ x < b)
  | _ => false

/-- Whether any `Source` event of the list covers the char `x`. -/
def listCov (x : Nat) (l : List HighlightEvent) : Bool := l.any (evCov x)

/-- Whether a span's char range covers `x`. -/
def spanCov (x : Nat) (sp : Span) : Bool := decide (sp.start ≤ x ∧ x < sp.stop)

def optSpanCov (x : Nat) : Option Span → Bool
  | some sp => spanCov x sp
  | none => false

/-- Whether any remaining span (the look-ahead included) covers `x`. -/
def stSpanCov (x : Nat) (st : OverlayIter) : Bool :=
  optSpanCov x st.current_span || st.spans.any (spanCov x)

/-- The events an overlay state still has to hand through: the queue, the
pending look-ahead, and the unread base stream. -/
def pend (st : OverlayIter) : List HighlightEvent :=
  st.queue ++ st.next_event.toList ++ st.events

/-- Bracket depth after a prefix of events: `none` once a `HighlightEnd`
arrives at depth zero. -/
def depthAfter : List HighlightEvent → Nat → Option Nat
  | [], d => some d
  | HighlightEvent.highlightStart _ :: r, d => depthAfter r (d + 1)
  | HighlightEvent.highlightEnd :: _, 0 => none
  | HighlightEvent.highlightEnd :: r, d + 1 => depthAfter r d
  | HighlightEvent.source _ _ :: r, d => depthAfter r d

theorem listCov_append (x : Nat) (l1 l2 : List HighlightEvent) :
    listCov x (l1 ++ l2) = (listCov x l1 || listCov x l2) := by
  simp [listCov]

theorem listCov_cons (x : Nat) (e : HighlightEvent) (l : List HighlightEvent) :
    listCov x (e :: l) = (evCov x e || listCov x l) := by
  simp [listCov]

theorem headTail_events : ∀ (l : List HighlightEvent), l.head?.toList ++ l.tail = l := by
  intro l
  cases l <;> rfl

/-- One step of an overlay emission is sound: the produced event plus the
new pending events carry the same bracket depth, cover the same chars the
old pending events did, add only chars some remaining span covers, and
shrink the remaining spans. -/
def overlayStepOk (st : OverlayIter) (e : HighlightEvent) (st' : OverlayIter) :
    Prop :=
  (st'.next_event = none → st'.events = []) ∧
  (∀ d, depthAfter (pend st) d = depthAfter (e :: pend st') d) ∧
  (∀ x, listCov x (pend st) = true → (evCov x e || listCov x (pend st')) = true) ∧
  (∀ x, (evCov x e || listCov x (pend st')) = true →
    (listCov x (pend st) || stSpanCov x st) = true) ∧
  (∀ x, stSpanCov x st' = true → stSpanCov x st = true)

theorem stepOk_of_pendEq {st st' : OverlayIter} {e : HighlightEvent}
    (hp : pend st = e :: pend st')
    (hwf : st'.next_event = none → st'.events = [])
    (hs : ∀ x, stSpanCov x st' = true → stSpanCov x st = true) :
    overlayStepOk st e st' := by
  refine ⟨hwf, ?_, ?_, ?_, hs⟩
  · intro d
    rw [hp]
  · intro x hx
    rw [hp, listCov_cons] at hx
    exact hx
  · intro x hx
    rw [hp, listCov_cons]
    rw [hx]
    rfl

theorem stepOk_transfer {st1 st st' : OverlayIter} {e : HighlightEvent}
    (h : overlayStepOk st1 e st')
    (hd : ∀ d, depthAfter (pend st) d = depthAfter (pend st1) d)
    (hc : ∀ x, listCov x (pend st) = listCov x (pend st1))
    (hs : ∀ x, stSpanCov x st1 = true → stSpanCov x st = true) :
    overlayStepOk st e st' := by
  obtain ⟨hwf, hdep, ha, hb, hsp⟩ := h
  refine ⟨hwf, ?_, ?_, ?_, fun x hx => hs x (hsp x hx)⟩
  · intro d
    rw [hd, hdep]
  · intro x hx
    rw [hc] at hx
    exact ha x hx
  · intro x hx
    have := hb x hx
    simp only [Bool.or_eq_true] at this
    rcases this with h1 | h2
    · rw [← hc x] at h1
      rw [h1]
      rfl
    · rw [hs x h2]
      simp

theorem skipSpans_cov (start : Nat) :
    ∀ (c : Option Span) (s : List Span) (x : Nat),
      (optSpanCov x (skipSpans start c s).1 ||
        (skipSpans start c s).2.any (spanCov x)) = true →
      (optSpanCov x c || s.any (spanCov x)) = true := by
  intro c s
  induction s generalizing c with
  | nil =>
    intro x hx
    cases c with
    | none => simpa [skipSpans] using hx
    | some sp =>
      by_cases h : sp.stop ≤ start ∨ sp.start = sp.stop
      · simp [skipSpans, h, optSpanCov] at hx
      · simp [skipSpans, h] at hx ⊢
        exact hx
  | cons a t ih =>
    intro x hx
    cases c with
    | none => simpa [skipSpans] using hx
    | some sp =>
      by_cases h : sp.stop ≤ start ∨ sp.start = sp.stop
      · have heq : skipSpans start (some sp) (a :: t) = skipSpans start (some a) t := by
          conv_lhs => rw [skipSpans]
          simp [h]
        rw [heq] at hx
        have hrec := ih (some a) x hx
        simp only [optSpanCov, List.any_cons, Bool.or_eq_true] at hrec ⊢
        rcases hrec with h1 | h2
        · exact Or.inr (Or.inl h1)
        · exact Or.inr (Or.inr h2)
      · simp [skipSpans, h] at hx ⊢
        exact hx

theorem skipSpans_keeps (start : Nat) :
    ∀ (c : Option Span) (s : List Span) (sp : Span) (sps : List Span),
      skipSpans start c s = (some sp, sps) →
      ¬ sp.stop ≤ start ∧ ¬ sp.start = sp.stop := by
  intro c s
  induction s generalizing c with
  | nil =>
    intro sp sps h
    cases c with
    | none => simp [skipSpans] at h
    | some sp0 =>
      by_cases hc : sp0.stop ≤ start ∨ sp0.start = sp0.stop
      · simp [skipSpans, hc] at h
      · rw [skipSpans, if_neg hc] at h
        rw [Prod.mk.injEq] at h
        obtain ⟨h1, _⟩ := h
        injection h1 with h1
        subst h1
        exact not_or.mp hc
  | cons a t ih =>
    intro sp sps h
    cases c with
    | none => simp [skipSpans] at h
    | some sp0 =>
      by_cases hc : sp0.stop ≤ start ∨ sp0.start = sp0.stop
      · have heq : skipSpans start (some sp0) (a :: t) = skipSpans start (some a) t := by
          conv_lhs => rw [skipSpans]
          simp [hc]
        rw [heq] at h
        exact ih (some a) sp sps h
      · rw [skipSpans, if_neg hc] at h
        rw [Prod.mk.injEq] at h
        obtain ⟨h1, _⟩ := h
        injection h1 with h1
        subst h1
        exact not_or.mp hc

theorem overlayFinal_spec {st : OverlayIter} (hq : st.queue = [])
    (hwf : st.next_event = none → st.events = []) :
    (overlayFinal st = none →
      (∀ d, depthAfter (pend st) d = some d) ∧
      (∀ x, listCov x (pend st) = false)) ∧
    (∀ e st', overlayFinal st = some (e, st') → overlayStepOk st e st') := by
  constructor
  · intro h
    unfold overlayFinal at h
    cases hne : st.next_event with
    | some ev =>
      rw [hne] at h
      exact Option.noConfusion h
    | none =>
      rw [hne] at h
      cases hcs : st.current_span with
      | some sp =>
        rw [hcs] at h
        exact Option.noConfusion h
      | none =>
        have hev := hwf hne
        constructor
        · intro d
          simp [pend, hq, hne, hev, depthAfter]
        · intro x
          simp [pend, hq, hne, hev, listCov]
  · intro e st' h
    unfold overlayFinal at h
    cases hne : st.next_event with
    | some ev =>
      rw [hne] at h
      simp only at h
      injection h with h1
      rw [Prod.mk.injEq] at h1
      obtain ⟨he, hst⟩ := h1
      subst he
      subst hst
      refine stepOk_of_pendEq ?_ ?_ ?_
      · simp only [pend]
        rw [hq, hne]
        simp [headTail_events]
      · intro hn2
        have hn3 : st.events.head? = none := hn2
        show st.events.tail = []
        cases hev2 : st.events with
        | nil => rfl
        | cons a t =>
          rw [hev2] at hn3
          exact Option.noConfusion hn3
      · intro x hx
        exact hx
    | none =>
      rw [hne] at h
      cases hcs : st.current_span with
      | none =>
        rw [hcs] at h
        exact Option.noConfusion h
      | some sp =>
        rw [hcs] at h
        simp only at h
        injection h with h1
        rw [Prod.mk.injEq] at h1
        obtain ⟨he, hst⟩ := h1
        subst he
        subst hst
        have hev := hwf hne
        have hpst : pend st = [] := by
          simp [pend, hq, hne, hev]
        have hpR : pend { st with
            next_event := st.events.head?, events := st.events.tail,
            current_span := none,
            queue := HighlightEvent.source sp.start sp.stop ::
              HighlightEvent.highlightEnd :: st.queue } =
            [HighlightEvent.source sp.start sp.stop,
             HighlightEvent.highlightEnd] := by
          simp [pend, hq, hev]
        refine ⟨?_, ?_, ?_, ?_, ?_⟩
        · intro _
          show st.events.tail = []
          rw [hev]
          rfl
        · intro d
          rw [hpst, hpR]
          rfl
        · intro x hx
          rw [hpst] at hx
          simp [listCov] at hx
        · intro x hx
          rw [hpR] at hx
          simp only [evCov, listCov, List.any_cons, List.any_nil,
            Bool.false_or, Bool.or_false] at hx
          have hsp2 : spanCov x sp = true := by
            simpa [spanCov, evCov] using hx
          have hss : stSpanCov x st = true := by
            simp [stSpanCov, hcs, optSpanCov, hsp2]
          rw [hss]
          simp
        · intro x hx
          have hx2 : st.spans.any (spanCov x) = true := by
            simpa [stSpanCov, optSpanCov] using hx
          simp [stSpanCov, hcs, optSpanCov, hx2]

theorem headTailSpanCov : ∀ (l : List Span) (x : Nat),
    (optSpanCov x l.head? || l.tail.any (spanCov x)) = true →
    l.any (spanCov x) = true := by
  intro l x h
  cases l with
  | nil => simpa [optSpanCov] using h
  | cons a t => simpa [optSpanCov] using h

theorem overlayProcessSource_spec {st : OverlayIter} {a b : Nat}
    (hq : st.queue = []) (hwf : st.next_event = none → st.events = [])
    (hne : st.next_event = some (HighlightEvent.source a b)) :
    ∀ r, overlayProcessSource st a b = r →
      ∃ e st', r = some (e, st') ∧ overlayStepOk st e st' := by
  intro r hr
  unfold overlayProcessSource at hr
  rcases hsk : skipSpans a st.current_span st.spans with ⟨cur, sps⟩
  rw [hsk] at hr
  simp only at hr
  have hp1 : pend { st with current_span := cur, spans := sps } = pend st := rfl
  have hs1 : ∀ x,
      stSpanCov x { st with current_span := cur, spans := sps } = true →
      stSpanCov x st = true := by
    intro x hx
    simp only [stSpanCov] at hx ⊢
    exact skipSpans_cov a st.current_span st.spans x (by rw [hsk]; exact hx)
  have hq1 : ({ st with current_span := cur, spans := sps } : OverlayIter).queue =
      [] := hq
  have hwf1 : ({ st with current_span := cur, spans := sps } :
      OverlayIter).next_event = none →
      ({ st with current_span := cur, spans := sps } : OverlayIter).events = [] :=
    fun h => hwf h
  have hne1 : ({ st with current_span := cur, spans := sps } :
      OverlayIter).next_event = some (HighlightEvent.source a b) := hne
  have hps : pend st = HighlightEvent.source a b :: st.events := by
    simp [pend, hq, hne]
  cases cur with
  | none =>
    simp only at hr
    cases hfr : overlayFinal { st with current_span := none, spans := sps } with
    | none =>
      exfalso
      unfold overlayFinal at hfr
      rw [hne1] at hfr
      simp only at hfr
      exact Option.noConfusion hfr
    | some p =>
      rcases p with ⟨e0, st0⟩
      rw [hfr] at hr
      refine ⟨e0, st0, hr.symm, ?_⟩
      exact stepOk_transfer ((overlayFinal_spec hq1 hwf1).2 e0 st0 hfr)
        (fun d => by rw [hp1]) (fun x => by rw [hp1]) hs1
  | some sp =>
    simp only at hr
    obtain ⟨hk1, _⟩ := skipSpans_keeps a st.current_span st.spans sp sps hsk
    by_cases hc1 : sp.start < b
    · rw [if_pos hc1] at hr
      by_cases hc2 : a < sp.start
      · -- partition off the unhighlighted head
        rw [if_pos hc2] at hr
        have hps2 : pend { st with
            spans := sps
            next_event := some (HighlightEvent.source sp.start b)
            current_span := some sp } =
            HighlightEvent.source sp.start b :: st.events := by
          simp [pend, hq]
        refine ⟨_, _, hr.symm, ?_, ?_, ?_, ?_, ?_⟩
        · intro hcon
          exact Option.noConfusion
            (show (some (HighlightEvent.source sp.start b) :
              Option HighlightEvent) = none from hcon)
        · intro d
          rw [hps, hps2]
          rfl
        · intro x hx
          rw [hps, listCov_cons] at hx
          rw [hps2, listCov_cons]
          simp only [evCov, Bool.or_eq_true, decide_eq_true_eq] at hx ⊢
          rcases hx with hx | hx
          · by_cases hxl : x < sp.start
            · exact Or.inl (by omega)
            · exact Or.inr (Or.inl (by omega))
          · exact Or.inr (Or.inr hx)
        · intro x hx
          rw [hps2, listCov_cons] at hx
          rw [hps, listCov_cons]
          simp only [evCov, Bool.or_eq_true, decide_eq_true_eq] at hx ⊢
          rcases hx with hx | hx | hx
          · exact Or.inl (Or.inl (by omega))
          · exact Or.inl (Or.inl (by omega))
          · exact Or.inl (Or.inr hx)
        · intro x hx
          exact hs1 x hx
      · -- the span covers the head of the source
        rw [if_neg hc2] at hr
        have hstart : sp.start ≤ a := Nat.le_of_not_lt hc2
        have hstop : a < sp.stop := Nat.lt_of_not_ge hk1
        unfold overlayCover at hr
        simp only at hr
        by_cases hc4 : sp.stop < b
        · rw [if_pos hc4, if_pos (Nat.le_of_lt hc4)] at hr
          simp only at hr
          have hps2 : pend { st with
              spans := sps.tail
              next_event := some (HighlightEvent.source sp.stop b)
              current_span := sps.head?
              queue := HighlightEvent.source a sp.stop ::
                HighlightEvent.highlightEnd :: st.queue } =
              HighlightEvent.source a sp.stop :: HighlightEvent.highlightEnd ::
                HighlightEvent.source sp.stop b :: st.events := by
            simp [pend, hq]
          refine ⟨_, _, hr.symm, ?_, ?_, ?_, ?_, ?_⟩
          · intro hcon
            exact Option.noConfusion
              (show (some (HighlightEvent.source sp.stop b) :
                Option HighlightEvent) = none from hcon)
          · intro d
            rw [hps, hps2]
            rfl
          · intro x hx
            rw [hps, listCov_cons] at hx
            rw [hps2]
            simp only [evCov, listCov_cons, Bool.or_eq_true,
              decide_eq_true_eq] at hx ⊢
            rcases hx with hx | hx
            · by_cases hxl : x < sp.stop
              · exact Or.inr (Or.inl (by omega))
              · exact Or.inr (Or.inr (Or.inr (Or.inl (by omega))))
            · exact Or.inr (Or.inr (Or.inr (Or.inr hx)))
          · intro x hx
            rw [hps2] at hx
            rw [hps]
            simp only [evCov, listCov_cons, Bool.or_eq_true,
              decide_eq_true_eq] at hx ⊢
            rcases hx with hx | hx | hx | hx | hx
            · exact absurd hx (by simp)
            · exact Or.inl (Or.inl (by omega))
            · exact absurd hx (by simp)
            · exact Or.inl (Or.inl (by omega))
            · exact Or.inl (Or.inr hx)
          · intro x hx
            refine hs1 x ?_
            simp only [stSpanCov, optSpanCov] at hx ⊢
            simp only [Bool.or_eq_true] at hx ⊢
            exact Or.inr (headTailSpanCov sps x (by
              simp only [Bool.or_eq_true]
              exact hx))
        · rw [if_neg hc4] at hr
          by_cases hc3 : sp.stop ≤ b
          · rw [if_pos hc3] at hr
            simp only at hr
            have hps2 : pend { st with
                events := st.events.tail
                spans := sps.tail
                next_event := st.events.head?
                current_span := sps.head?
                queue := HighlightEvent.source a b ::
                  HighlightEvent.highlightEnd :: st.queue } =
                HighlightEvent.source a b :: HighlightEvent.highlightEnd ::
                  st.events := by
              simp only [pend]
              rw [hq]
              simp [headTail_events]
            refine ⟨_, _, hr.symm, ?_, ?_, ?_, ?_, ?_⟩
            · intro hcon
              have hn3 : st.events.head? = none := hcon
              show st.events.tail = []
              cases hev2 : st.events with
              | nil => rfl
              | cons y t =>
                rw [hev2] at hn3
                exact Option.noConfusion hn3
            · intro d
              rw [hps, hps2]
              rfl
            · intro x hx
              rw [hps, listCov_cons] at hx
              rw [hps2]
              simp only [evCov, listCov_cons, Bool.or_eq_true,
                decide_eq_true_eq] at hx ⊢
              rcases hx with hx | hx
              · exact Or.inr (Or.inl hx)
              · exact Or.inr (Or.inr (Or.inr hx))
            · intro x hx
              rw [hps2] at hx
              rw [hps]
              simp only [evCov, listCov_cons, Bool.or_eq_true,
                decide_eq_true_eq] at hx ⊢
              rcases hx with hx | hx | hx | hx
              · exact absurd hx (by simp)
              · exact Or.inl (Or.inl hx)
              · exact absurd hx (by simp)
              · exact Or.inl (Or.inr hx)
            · intro x hx
              refine hs1 x ?_
              simp only [stSpanCov, optSpanCov] at hx ⊢
              simp only [Bool.or_eq_true] at hx ⊢
              exact Or.inr (headTailSpanCov sps x (by
                simp only [Bool.or_eq_true]
                exact hx))
          · rw [if_neg hc3] at hr
            simp only at hr
            have hps2 : pend { st with
                events := st.events.tail
                spans := sps
                next_event := st.events.head?
                current_span := some sp
                queue := HighlightEvent.source a b ::
                  HighlightEvent.highlightEnd :: st.queue } =
                HighlightEvent.source a b :: HighlightEvent.highlightEnd ::
                  st.events := by
              simp only [pend]
              rw [hq]
              simp [headTail_events]
            refine ⟨_, _, hr.symm, ?_, ?_, ?_, ?_, ?_⟩
            · intro hcon
              have hn3 : st.events.head? = none := hcon
              show st.events.tail = []
              cases hev2 : st.events with
              | nil => rfl
              | cons y t =>
                rw [hev2] at hn3
                exact Option.noConfusion hn3
            · intro d
              rw [hps, hps2]
              rfl
            · intro x hx
              rw [hps, listCov_cons] at hx
              rw [hps2]
              simp only [evCov, listCov_cons, Bool.or_eq_true,
                decide_eq_true_eq] at hx ⊢
              rcases hx with hx | hx
              · exact Or.inr (Or.inl hx)
              · exact Or.inr (Or.inr (Or.inr hx))
            · intro x hx
              rw [hps2] at hx
              rw [hps]
              simp only [evCov, listCov_cons, Bool.or_eq_true,
                decide_eq_true_eq] at hx ⊢
              rcases hx with hx | hx | hx | hx
              · exact absurd hx (by simp)
              · exact Or.inl (Or.inl hx)
              · exact absurd hx (by simp)
              · exact Or.inl (Or.inr hx)
            · intro x hx
              exact hs1 x hx
    · -- the span starts past this source: fall through to the final branch
      rw [if_neg hc1] at hr
      cases hfr : overlayFinal { st with current_span := some sp, spans := sps } with
      | none =>
        exfalso
        unfold overlayFinal at hfr
        rw [hne1] at hfr
        simp only at hfr
        exact Option.noConfusion hfr
      | some p =>
        rcases p with ⟨e0, st0⟩
        rw [hfr] at hr
        refine ⟨e0, st0, hr.symm, ?_⟩
        exact stepOk_transfer ((overlayFinal_spec hq1 hwf1).2 e0 st0 hfr)
          (fun d => by rw [hp1]) (fun x => by rw [hp1]) hs1

theorem depthAfter_cons_congr (e : HighlightEvent)
    (l1 l2 : List HighlightEvent)
    (h : ∀ d, depthAfter l1 d = depthAfter l2 d) :
    ∀ d, depthAfter (e :: l1) d = depthAfter (e :: l2) d := by
  intro d
  cases e with
  | highlightStart s =>
    simp only [depthAfter]
    exact h (d + 1)
  | highlightEnd =>
    cases d with
    | zero => rfl
    | succ d =>
      simp only [depthAfter]
      exact h d
  | source a b =>
    simp only [depthAfter]
    exact h d

theorem overlayLoopSpecAux :
    ∀ (n : Nat) (st : OverlayIter),
      st.events.length + (if st.next_event.isSome then 1 else 0) ≤ n →
      st.queue = [] → (st.next_event = none → st.events = []) →
      (overlayLoop st = none →
        (∀ d, depthAfter (pend st) d = some d) ∧
        (∀ x, listCov x (pend st) = false)) ∧
      (∀ e st', overlayLoop st = some (e, st') → overlayStepOk st e st') := by
  intro n
  induction n with
  | zero =>
    intro st hlen hq hwf
    have hne : st.next_event = none := by
      cases h : st.next_event with
      | none => rfl
      | some ev =>
        rw [h] at hlen
        simp at hlen
    rw [overlayLoop_of_nonsource (by simp [hne])]
    exact overlayFinal_spec hq hwf
  | succ n ih =>
    intro st hlen hq hwf
    cases hne : st.next_event with
    | none =>
      rw [overlayLoop_of_nonsource (by simp [hne])]
      exact overlayFinal_spec hq hwf
    | some ev =>
      cases ev with
      | highlightStart s =>
        rw [overlayLoop_of_nonsource (by simp [hne])]
        exact overlayFinal_spec hq hwf
      | highlightEnd =>
        rw [overlayLoop_of_nonsource (by simp [hne])]
        exact overlayFinal_spec hq hwf
      | source a b =>
        rw [overlayLoop_eq_source hne]
        by_cases hz : a = b
        · rw [if_pos hz]
          subst hz
          have hwf2 : ({ st with next_event := st.events.head?, events := st.events.tail } : OverlayIter).next_event = none →
              ({ st with next_event := st.events.head?, events := st.events.tail } : OverlayIter).events = [] := by
            intro h
            have h2 : st.events.head? = none := h
            show st.events.tail = []
            cases hev : st.events with
            | nil => rfl
            | cons y t =>
              rw [hev] at h2
              exact Option.noConfusion h2
          have hlen2 : st.events.length ≤ n := by
            rw [hne] at hlen
            simp at hlen
            omega
          have hlen3 : ({ st with next_event := st.events.head?, events := st.events.tail } : OverlayIter).events.length +
              (if ({ st with next_event := st.events.head?, events := st.events.tail } : OverlayIter).next_event.isSome then 1 else 0) ≤ n := by
            show st.events.tail.length +
              (if st.events.head?.isSome then 1 else 0) ≤ n
            cases hev : st.events with
            | nil => simp
            | cons y t =>
              rw [hev] at hlen2
              simp at hlen2 ⊢
              omega
          have hrec := ih _ hlen3 hq hwf2
          have hps : pend st =
              HighlightEvent.source a a ::
                pend { st with next_event := st.events.head?, events := st.events.tail } := by
            simp only [pend]
            rw [hq, hne]
            simp [headTail_events]
          have hd : ∀ d, depthAfter (pend st) d =
              depthAfter (pend { st with next_event := st.events.head?, events := st.events.tail }) d := by
            intro d
            rw [hps]
            rfl
          have hc : ∀ x, listCov x (pend st) =
              listCov x (pend { st with next_event := st.events.head?, events := st.events.tail }) := by
            intro x
            rw [hps, listCov_cons]
            simp only [evCov]
            rw [decide_eq_false (by omega), Bool.false_or]
          constructor
          · intro h
            obtain ⟨h1, h2⟩ := hrec.1 h
            exact ⟨fun d => (hd d).trans (h1 d), fun x => (hc x).trans (h2 x)⟩
          · intro e st' h
            exact stepOk_transfer (hrec.2 e st' h) hd hc (fun x hx => hx)
        · rw [if_neg hz]
          constructor
          · intro h
            obtain ⟨e0, st0, heq, _⟩ := overlayProcessSource_spec hq hwf hne _ rfl
            rw [h] at heq
            exact Option.noConfusion heq
          · intro e st' h
            obtain ⟨e0, st0, heq, hok⟩ :=
              overlayProcessSource_spec hq hwf hne _ rfl
            rw [h] at heq
            injection heq with heq1
            rw [Prod.mk.injEq] at heq1
            obtain ⟨h1, h2⟩ := heq1
            subst h1
            subst h2
            exact hok

theorem overlayStepSpec {st : OverlayIter}
    (hwf : st.next_event = none → st.events = []) :
    (overlayStep st = none →
      (∀ d, depthAfter (pend st) d = some d) ∧
      (∀ x, listCov x (pend st) = false)) ∧
    (∀ e st', overlayStep st = some (e, st') → overlayStepOk st e st') := by
  cases hq : st.queue with
  | cons e0 q =>
    have hstep := overlayStep_queue hq
    constructor
    · intro h
      rw [hstep] at h
      exact Option.noConfusion h
    · intro e st' h
      rw [hstep] at h
      injection h with h1
      rw [Prod.mk.injEq] at h1
      obtain ⟨h1, h2⟩ := h1
      subst h1
      subst h2
      refine stepOk_of_pendEq ?_ ?_ ?_
      · simp [pend, hq]
      · exact fun hn => hwf hn
      · exact fun x hx => hx
  | nil =>
    have hstep : overlayStep st = overlayLoop st := by
      unfold overlayStep
      rw [hq]
    rw [hstep]
    exact overlayLoopSpecAux (st.events.length + 1) st
      (by cases h : st.next_event.isSome <;> simp <;> omega) hq hwf

theorem overlayRunAux_spec :
    ∀ (st : OverlayIter), (st.next_event = none → st.events = []) →
      (∀ d, depthAfter (overlayRunAux st) d = depthAfter (pend st) d) ∧
      (∀ x, listCov x (pend st) = true → listCov x (overlayRunAux st) = true) ∧
      (∀ x, listCov x (overlayRunAux st) = true →
        (listCov x (pend st) || stSpanCov x st) = true) := by
  intro st
  induction st using overlayRunAux.induct with
  | case1 st h =>
    intro hwf
    rw [overlayRunAux_none h]
    obtain ⟨h1, h2⟩ := (overlayStepSpec hwf).1 h
    refine ⟨?_, ?_, ?_⟩
    · intro d
      rw [h1 d]
      rfl
    · intro x hx
      rw [h2 x] at hx
      exact Bool.noConfusion hx
    · intro x hx
      simp [listCov] at hx
  | case2 st e st' h ih =>
    intro hwf
    obtain ⟨hwf2, hdep, hfwd, hbwd, hsp⟩ := (overlayStepSpec hwf).2 e st' h
    obtain ⟨ihA, ihB, ihC⟩ := ih hwf2
    rw [overlayRunAux_step h]
    refine ⟨?_, ?_, ?_⟩
    · intro d
      rw [hdep d]
      exact depthAfter_cons_congr e _ _ ihA d
    · intro x hx
      have h1 := hfwd x hx
      rw [listCov_cons]
      simp only [Bool.or_eq_true] at h1 ⊢
      rcases h1 with h1 | h1
      · exact Or.inl h1
      · exact Or.inr (ihB x h1)
    · intro x hx
      rw [listCov_cons] at hx
      simp only [Bool.or_eq_true] at hx
      rcases hx with h1 | h1
      · exact hbwd x (by simp [h1])
      · have h2 := ihC x h1
        simp only [Bool.or_eq_true] at h2
        rcases h2 with h2 | h2
        · exact hbwd x (by simp [h2])
        · simp only [Bool.or_eq_true]
          exact Or.inr (hsp x h2)

theorem pend_overlayInit (events : List HighlightEvent) (spans : List Span) :
    pend (overlayInit events spans) = events := by
  simp [pend, overlayInit, headTail_events]

theorem overlayInit_nei (events : List HighlightEvent) (spans : List Span)
    (h : (overlayInit events spans).next_event = none) :
    (overlayInit events spans).events = [] := by
  have h2 : events.head? = none := h
  show events.tail = []
  cases hev : events with
  | nil => rfl
  | cons y t =>
    rw [hev] at h2
    exact Option.noConfusion h2

theorem stSpanCov_overlayInit (x : Nat) (events : List HighlightEvent)
    (spans : List Span) (h : stSpanCov x (overlayInit events spans) = true) :
    ∃ sp ∈ spans, spanCov x sp = true := by
  have h2 : spans.any (spanCov x) = true := headTailSpanCov spans x h
  simpa [List.any_eq_true] using h2

/-- Claim C6 counterexample: for the balanced base stream `[Source{0,10}]`
and the single span `{scope: 7, start: 12, end: 15}`, the overlay output is
`[Source{0,10}, HighlightStart(7), Source{12,15}, HighlightEnd]`: the
end-of-stream leftover branch re-emits the span's FULL char range, so char
12 is covered by the output's sources but by no base source — the union of
`Source` ranges is not preserved, although the output is still balanced
(its `depthAfter` from depth 0 is `some 0`, like the base stream's). -/
theorem claimC6_counterexample :
    overlayRun [HighlightEvent.source 0 10] [⟨7, 12, 15⟩] =
      [HighlightEvent.source 0 10, HighlightEvent.highlightStart 7,
       HighlightEvent.source 12 15, HighlightEvent.highlightEnd] ∧
    listCov 12 (overlayRun [HighlightEvent.source 0 10] [⟨7, 12, 15⟩]) = true ∧
    listCov 12 [HighlightEvent.source 0 10] = false ∧
    depthAfter [HighlightEvent.source 0 10] 0 = some 0 ∧
    depthAfter (overlayRun [HighlightEvent.source 0 10] [⟨7, 12, 15⟩]) 0 =
      some 0 := by
  have h0 : overlayStep ⟨[], [], some (HighlightEvent.source 0 10),
      some ⟨7, 12, 15⟩, []⟩ =
      some (HighlightEvent.source 0 10,
        ⟨[], [], none, some ⟨7, 12, 15⟩, []⟩) := by
    rw [overlayStep_eval_source rfl rfl (by decide)]
    rfl
  have h1 : overlayStep ⟨[], [], none, some ⟨7, 12, 15⟩, []⟩ =
      some (HighlightEvent.highlightStart 7,
        ⟨[], [], none, none,
          [HighlightEvent.source 12 15, HighlightEvent.highlightEnd]⟩) := by
    rw [overlayStep_eval_nonsource rfl (by intro a b h; exact Option.noConfusion h)]
    rfl
  have h2 : overlayStep (⟨[], [], none, none,
      [HighlightEvent.source 12 15, HighlightEvent.highlightEnd]⟩ : OverlayIter) =
      some (HighlightEvent.source 12 15,
        ⟨[], [], none, none, [HighlightEvent.highlightEnd]⟩) :=
    overlayStep_queue rfl
  have h3 : overlayStep (⟨[], [], none, none,
      [HighlightEvent.highlightEnd]⟩ : OverlayIter) =
      some (HighlightEvent.highlightEnd, ⟨[], [], none, none, []⟩) :=
    overlayStep_queue rfl
  have h4 : overlayStep (⟨[], [], none, none, []⟩ : OverlayIter) = none := by
    rw [overlayStep_eval_nonsource rfl (by intro a b h; exact Option.noConfusion h)]
    rfl
  have hrun : overlayRun [HighlightEvent.source 0 10] [⟨7, 12, 15⟩] =
      [HighlightEvent.source 0 10, HighlightEvent.highlightStart 7,
       HighlightEvent.source 12 15, HighlightEvent.highlightEnd] := by
    show overlayRunAux ⟨[], [], some (HighlightEvent.source 0 10),
      some ⟨7, 12, 15⟩, []⟩ = _
    rw [overlayRunAux_step h0, overlayRunAux_step h1, overlayRunAux_step h2,
      overlayRunAux_step h3, overlayRunAux_none h4]
  exact ⟨hrun, by rw [hrun]; decide, by decide, by decide, by rw [hrun]; decide⟩

/-- Claim C6 (amended): the overlay composer always preserves bracket
balance — `depthAfter` of the output equals `depthAfter` of the base
stream at every starting depth, with no hypothesis on the spans — and,
provided every remaining span's char range is covered by the base stream's
`Source` events, the union of the output's `Source` char ranges equals the
union of the base stream's `Source` char ranges (`listCov` agrees at every
char). -/
theorem claimC6_overlay_balance_and_coverage
    (events : List HighlightEvent) (spans : List Span) :
    (∀ d, depthAfter (overlayRun events spans) d = depthAfter events d) ∧
    ((∀ sp ∈ spans, ∀ x, spanCov x sp = true → listCov x events = true) →
      ∀ x, listCov x (overlayRun events spans) = listCov x events) := by
  obtain ⟨hA, hB, hC⟩ :=
    overlayRunAux_spec (overlayInit events spans) (overlayInit_nei events spans)
  rw [pend_overlayInit] at hA hB hC
  refine ⟨hA, ?_⟩
  intro hcov x
  cases hev : listCov x events with
  | true =>
    exact hB x hev
  | false =>
    cases hout : listCov x (overlayRun events spans) with
    | false => rfl
    | true =>
      exfalso
      have h2 := hC x hout
      simp only [Bool.or_eq_true] at h2
      rcases h2 with h2 | h2
      · rw [hev] at h2
        exact Bool.noConfusion h2
      · obtain ⟨sp, hsp, hspc⟩ := stSpanCov_overlayInit x events spans h2
        rw [hcov sp hsp x hspc] at hev
        exact Bool.noConfusion hev

/-- Witness for claim C6 at the base stream `[Source{0,3}]` and the single
span `{scope: 1, start: 0, end: 2}` (whose range is covered by the base
sources): the balance conjunct is instantiated as is, and the coverage
conjunct's span-coverage hypothesis is discharged concretely. -/
theorem claimC6_overlay_balance_and_coverage_witness :
    (∀ d, depthAfter (overlayRun [HighlightEvent.source 0 3] [⟨1, 0, 2⟩]) d =
      depthAfter [HighlightEvent.source 0 3] d) ∧
    (∀ x, listCov x (overlayRun [HighlightEvent.source 0 3] [⟨1, 0, 2⟩]) =
      listCov x [HighlightEvent.source 0 3]) :=
  ⟨(claimC6_overlay_balance_and_coverage [HighlightEvent.source 0 3]
      [⟨1, 0, 2⟩]).1,
   (claimC6_overlay_balance_and_coverage [HighlightEvent.source 0 3]
      [⟨1, 0, 2⟩]).2 (by
    intro sp hsp x hx
    simp only [List.mem_singleton] at hsp
    subst hsp
    simp only [spanCov, decide_eq_true_eq] at hx
    simp only [listCov, List.any_cons, List.any_nil, evCov, Bool.or_false,
      decide_eq_true_eq]
    omega)⟩

end HelixVerif
